import Mathlib

/-!
# Delivery Navigator: a shallow embedding and its verification

The development follows the C++ sources file by file:

* `expandable_hash_map.h`  : `ExpandableHashMap` (chained hash table that doubles),
* `street_map.cpp`         : `StreetMapImpl` (adjacency map keyed by coordinate),
* `point_to_point_router.cpp` : `GeneratePointToPointRoute` (best-first search),
* `delivery_optimizer.cpp` : `OptimizeDeliveryOrder` (simulated annealing),
* `delivery_planner.cpp`   : `GenerateDeliveryPlan` (legs and command synthesis).

Conventions of the embedding.

* `double` values are exact rationals (`ℚ`).
* `provided.h` is not part of the sources.  Its geographic primitives are parameters:
  `dist` stands for `distanceEarthMiles`, `angleOfLine` and `angleBetween2Lines` for the
  functions of the same name, `hasher` for the hash of a coordinate.  The coordinate
  type `Coord` stands for `GeoCoord`; it carries a linear order, which is what
  `std::priority_queue<pair<double, GeoCoord>, ..., greater<...>>` needs to compare entries.
* Loops that may run for ever take a `fuel` argument; dereferencing a null pointer or
  reading past the end of a container is undefined behaviour and yields `none`, as does
  running out of fuel.
* `rand()` is a stream of naturals read through a cursor that is part of the state.
-/

set_option linter.unusedSectionVars false

namespace DeliveryNavigator

/-! ## expandable_hash_map.h -/

/-- The constant `INITIAL_SIZE`: number of buckets of a fresh map. -/
def INITIAL_SIZE : Nat := 8

/-- The class `ExpandableHashMap`: `m_map` is the vector of bucket pointers (`none` is
`nullptr`), a bucket is the `std::list` of its pairs in insertion order. -/
structure ExpandableHashMap (K V : Type) where
  m_map : List (Option (List (K × V)))
  m_num_pairs : Nat
  m_size : Nat
  m_max_load : ℚ

namespace ExpandableHashMap

variable {K V : Type} [DecidableEq K]

/-- The constructor `ExpandableHashMap(max_load_factor)`. -/
def init (max_load_factor : ℚ) : ExpandableHashMap K V :=
  ⟨List.replicate INITIAL_SIZE none, 0, INITIAL_SIZE, max_load_factor⟩

/-- The default argument of the constructor. -/
def DEFAULT_MAX_LOAD : ℚ := 1 / 2

/-- The method `Size`. -/
def Size (m : ExpandableHashMap K V) : Nat := m.m_num_pairs

/-- The scan of one bucket in `Find`: the value of the first pair whose key matches. -/
def findInBucket (key : K) : List (K × V) → Option V
  | [] => none
  | p :: rest => if p.1 = key then some p.2 else findInBucket key rest

/-- The scan of one bucket in `AddPairToMap` (not copying): the first pair whose key
matches gets the new value; `none` when no pair matches. -/
def assignInBucket (key : K) (val : V) : List (K × V) → Option (List (K × V))
  | [] => none
  | p :: rest =>
    if key = p.1 then some ((p.1, val) :: rest)
    else (assignInBucket key val rest).map (fun r => p :: r)

/-- The method `AddPairToMap(map, key, val, copying)`: the new bucket vector and the
returned flag (`true` when a pair was appended). -/
def AddPairToMap (hasher : K → Nat) (map : List (Option (List (K × V)))) (key : K) (val : V)
    (copying : Bool) : List (Option (List (K × V))) × Bool :=
  let bucket_num := hasher key % map.length
  match map.getD bucket_num none with
  | some bucket =>
    if copying then (map.set bucket_num (some (bucket ++ [(key, val)])), true)
    else
      match assignInBucket key val bucket with
      | some bucket1 => (map.set bucket_num (some bucket1), false)
      | none => (map.set bucket_num (some (bucket ++ [(key, val)])), true)
  | none => (map.set bucket_num (some [(key, val)]), true)

/-- The rehash loop of `Associate`: every pair of every filled bucket of the old vector, in
order, is added to `new_map` with `copying = true`. -/
def rehash (hasher : K → Nat) (old : List (Option (List (K × V))))
    (new_map : List (Option (List (K × V)))) : List (Option (List (K × V))) :=
  old.foldl
    (fun acc bucket =>
      match bucket with
      | none => acc
      | some pairs => pairs.foldl (fun acc1 p => (AddPairToMap hasher acc1 p.1 p.2 true).1) acc)
    new_map

/-- The method `Associate(key, value)`. -/
def Associate (hasher : K → Nat) (m : ExpandableHashMap K V) (key : K) (value : V) :
    ExpandableHashMap K V :=
  match AddPairToMap hasher m.m_map key value false with
  | (map1, true) =>
    let num_pairs := m.m_num_pairs + 1
    if (num_pairs : ℚ) / (m.m_size : ℚ) > m.m_max_load then
      ⟨rehash hasher map1 (List.replicate (2 * m.m_size) none), num_pairs, m.m_size * 2,
        m.m_max_load⟩
    else ⟨map1, num_pairs, m.m_size, m.m_max_load⟩
  | (map1, false) => ⟨map1, m.m_num_pairs, m.m_size, m.m_max_load⟩

/-- The method `Find(key)`: `none` is the null pointer. -/
def Find (hasher : K → Nat) (m : ExpandableHashMap K V) (key : K) : Option V :=
  let bucket_num := hasher key % m.m_map.length
  match m.m_map.getD bucket_num none with
  | some bucket => findInBucket key bucket
  | none => none

/-- A write through the pointer returned by the non-const `Find(key)`: the value of the
first pair of the bucket whose key matches is replaced by `f` of it. -/
def modifyInBucket (key : K) (f : V → V) : List (K × V) → List (K × V)
  | [] => []
  | p :: rest => if p.1 = key then (p.1, f p.2) :: rest else p :: modifyInBucket key f rest

/-- The map after `*Find(key) = f(*Find(key))` (unchanged when `Find` returns null). -/
def modifyFound (hasher : K → Nat) (m : ExpandableHashMap K V) (key : K) (f : V → V) :
    ExpandableHashMap K V :=
  let bucket_num := hasher key % m.m_map.length
  match m.m_map.getD bucket_num none with
  | some bucket =>
    ⟨m.m_map.set bucket_num (some (modifyInBucket key f bucket)), m.m_num_pairs, m.m_size,
      m.m_max_load⟩
  | none => m

end ExpandableHashMap

/-! ## street_map.cpp -/

/-- Modelled from the spec: the struct `StreetSegment` of `provided.h`, a directed edge
`(start, end, streetName)`. -/
structure StreetSegment (Coord : Type) where
  start : Coord
  end_ : Coord
  name : String
  deriving DecidableEq

/-- The class `StreetMapImpl`: its only member is the adjacency map. -/
structure StreetMapImpl (Coord : Type) where
  m_coord_seg_map : ExpandableHashMap Coord (List (StreetSegment Coord))

/-- One street of the map data: the name line and the coordinate pairs
`(start, end)` of its segment lines. -/
structure StreetRecord (Coord : Type) where
  name : String
  segs : List (Coord × Coord)

section StreetMap

variable {Coord : Type} [LinearOrder Coord]

/-- The constructor `StreetMapImpl()`: the member map is default-constructed. -/
def StreetMapImpl.init : StreetMapImpl Coord :=
  ⟨ExpandableHashMap.init ExpandableHashMap.DEFAULT_MAX_LOAD⟩

/-- The method `GetSegmentsThatStartWith(gc, segs)`: `some v` when it returns `true` and
assigns `v` to `segs`; `none` when it returns `false` and leaves `segs` alone. -/
def GetSegmentsThatStartWith (hasher : Coord → Nat) (sm : StreetMapImpl Coord) (gc : Coord) :
    Option (List (StreetSegment Coord)) :=
  ExpandableHashMap.Find hasher sm.m_coord_seg_map gc

/-- The method `AppendSegToMap(coord, seg)`. -/
def AppendSegToMap (hasher : Coord → Nat) (sm : StreetMapImpl Coord) (coord : Coord)
    (seg : StreetSegment Coord) : StreetMapImpl Coord :=
  match ExpandableHashMap.Find hasher sm.m_coord_seg_map coord with
  | some _ =>
    ⟨ExpandableHashMap.modifyFound hasher sm.m_coord_seg_map coord (fun segs => segs ++ [seg])⟩
  | none => ⟨ExpandableHashMap.Associate hasher sm.m_coord_seg_map seg.start [seg]⟩

/-- The `default` case of the switch in `Load`, for one segment line of a street called
`name`: the forward segment is filed under its start, the backward one under its end. -/
def loadSegment (hasher : Coord → Nat) (name : String) (sm : StreetMapImpl Coord)
    (line : Coord × Coord) : StreetMapImpl Coord :=
  let start_coord := line.1
  let end_coord := line.2
  let forward_seg : StreetSegment Coord := ⟨start_coord, end_coord, name⟩
  let backward_seg : StreetSegment Coord := ⟨end_coord, start_coord, name⟩
  AppendSegToMap hasher (AppendSegToMap hasher sm start_coord forward_seg) end_coord backward_seg

/-- The reading loop of `Load` on a map that already holds `sm`, at the level of street
records: the segment lines of every record are processed in file order. -/
def loadInto (hasher : Coord → Nat) (sm : StreetMapImpl Coord)
    (records : List (StreetRecord Coord)) : StreetMapImpl Coord :=
  records.foldl (fun sm1 r => r.segs.foldl (loadSegment hasher r.name) sm1) sm

/-- The map built by `Load` from a sequence of street records, starting from a fresh
`StreetMapImpl`. -/
def LoadRecords (hasher : Coord → Nat) (records : List (StreetRecord Coord)) :
    StreetMapImpl Coord :=
  loadInto hasher StreetMapImpl.init records

end StreetMap

/-! ## point_to_point_router.cpp -/

/-- Modelled from the spec: the enum `DeliveryResult` of `provided.h`, success and the two
typed failures of the router. -/
inductive DeliveryResult where
  | DELIVERY_SUCCESS
  | NO_ROUTE
  | BAD_COORD
  deriving DecidableEq, Repr

/-- The struct `StreetPair`: a predecessor coordinate and the street taken from it; the
name defaults to the empty string. -/
structure StreetPair (Coord : Type) where
  m_coord : Coord
  m_name : String

/-- The local state of the search loop of `GeneratePointToPointRoute`. `search_space` holds
the entries of the priority queue; `next_moves` is only overwritten when the lookup of the
current position succeeds. -/
structure SearchState (Coord : Type) where
  search_space : List (ℚ × Coord)
  prev_location : ExpandableHashMap Coord (StreetPair Coord)
  move_cost : ExpandableHashMap Coord ℚ
  next_moves : List (StreetSegment Coord)

/-- What `GeneratePointToPointRoute` hands back: the status and the two out-parameters. -/
structure RouteResult (Coord : Type) where
  status : DeliveryResult
  route : List (StreetSegment Coord)
  total_dist_travelled : ℚ
  deriving DecidableEq

section Router

variable {Coord : Type} [LinearOrder Coord]

/-- The comparison `operator<` of `pair<double, GeoCoord>`, on which `greater<pos>` rests. -/
def posLt (a b : ℚ × Coord) : Bool :=
  decide (a.1 < b.1 ∨ (¬ b.1 < a.1 ∧ a.2 < b.2))

/-- The entry `PosQueue.top()` of the min-heap: a least entry, `none` on an empty queue. -/
def topEntry : List (ℚ × Coord) → Option (ℚ × Coord)
  | [] => none
  | p :: rest =>
    match topEntry rest with
    | none => some p
    | some q => if posLt q p then some q else some p

/-- The method `MinheapQueue::Insert(coord, rank)`. -/
def Insert (q : List (ℚ × Coord)) (coord : Coord) (rank : ℚ) : List (ℚ × Coord) :=
  (rank, coord) :: q

/-- The method `MinheapQueue::PopTop()`: one copy of the top entry leaves the queue. -/
def PopTop (q : List (ℚ × Coord)) : List (ℚ × Coord) :=
  match topEntry q with
  | none => q
  | some p => q.erase p

/-- The body of the loop over `next_moves` for one segment `nextSeg` leaving `currPos`. -/
def relaxSegment (hasher : Coord → Nat) (dist : Coord → Coord → ℚ) (currPos end_ : Coord)
    (st : SearchState Coord) (nextSeg : StreetSegment Coord) : Option (SearchState Coord) :=
  let nextPos := nextSeg.end_
  match ExpandableHashMap.Find hasher st.move_cost currPos with
  | none => none
  | some curr_cost =>
    let next_move_cost := curr_cost + dist currPos nextPos
    let improves : Bool :=
      match ExpandableHashMap.Find hasher st.move_cost nextPos with
      | none => true
      | some old_cost => decide (next_move_cost < old_cost)
    if improves then
      let move_cost := ExpandableHashMap.Associate hasher st.move_cost nextPos next_move_cost
      let rank := next_move_cost + dist currPos end_
      let search_space := Insert st.search_space nextPos rank
      let pos_seg_pair : StreetPair Coord := ⟨currPos, nextSeg.name⟩
      let prev_location := ExpandableHashMap.Associate hasher st.prev_location nextPos pos_seg_pair
      some ⟨search_space, prev_location, move_cost, st.next_moves⟩
    else some st

/-- The loop `for (StreetSegment nextSeg : next_moves)`. -/
def relaxAll (hasher : Coord → Nat) (dist : Coord → Coord → ℚ) (currPos end_ : Coord) :
    List (StreetSegment Coord) → SearchState Coord → Option (SearchState Coord)
  | [], st => some st
  | nextSeg :: rest, st =>
    match relaxSegment hasher dist currPos end_ st nextSeg with
    | none => none
    | some st1 => relaxAll hasher dist currPos end_ rest st1

/-- The loop `while (!search_space.IsEmpty())`: the final state with the flag `route_found`. -/
def searchLoop (hasher : Coord → Nat) (dist : Coord → Coord → ℚ) (sm : StreetMapImpl Coord)
    (end_ : Coord) : Nat → SearchState Coord → Option (Bool × SearchState Coord)
  | 0, _ => none
  | fuel + 1, st =>
    match topEntry st.search_space with
    | none => some (false, st)
    | some top =>
      let currPos := top.2
      if currPos = end_ then some (true, st)
      else
        let next_moves :=
          match GetSegmentsThatStartWith hasher sm currPos with
          | some segs => segs
          | none => st.next_moves
        let st1 : SearchState Coord :=
          ⟨PopTop st.search_space, st.prev_location, st.move_cost, next_moves⟩
        match relaxAll hasher dist currPos end_ next_moves st1 with
        | none => none
        | some st2 => searchLoop hasher dist sm end_ fuel st2

/-- The loop `while (start_pos_seg_pair.m_name != "")` that walks the predecessors back
from `end`, putting each segment in front of `route`. -/
def buildRoute (hasher : Coord → Nat) (dist : Coord → Coord → ℚ)
    (prev_location : ExpandableHashMap Coord (StreetPair Coord)) :
    Nat → Coord → StreetPair Coord → List (StreetSegment Coord) → ℚ →
      Option (List (StreetSegment Coord) × ℚ)
  | 0, _, _, _, _ => none
  | fuel + 1, endCoord, start_pos_seg_pair, route, total_dist_travelled =>
    if start_pos_seg_pair.m_name ≠ "" then
      let routeSeg : StreetSegment Coord :=
        ⟨start_pos_seg_pair.m_coord, endCoord, start_pos_seg_pair.m_name⟩
      match ExpandableHashMap.Find hasher prev_location start_pos_seg_pair.m_coord with
      | none => none
      | some pair1 =>
        buildRoute hasher dist prev_location fuel start_pos_seg_pair.m_coord pair1
          (routeSeg :: route) (total_dist_travelled + dist routeSeg.start routeSeg.end_)
    else some (route, total_dist_travelled)

/-- The state set up before the search loop: `start` is queued with rank 0, is its own
predecessor under the empty street name, and has cost 0. -/
def initialSearchState (hasher : Coord → Nat) (start : Coord) : SearchState Coord :=
  ⟨Insert [] start 0,
    ExpandableHashMap.Associate hasher (ExpandableHashMap.init ExpandableHashMap.DEFAULT_MAX_LOAD)
      start ⟨start, ""⟩,
    ExpandableHashMap.Associate hasher (ExpandableHashMap.init ExpandableHashMap.DEFAULT_MAX_LOAD)
      start 0,
    []⟩

/-- The method `PointToPointRouterImpl::GeneratePointToPointRoute`. -/
def GeneratePointToPointRoute (hasher : Coord → Nat) (dist : Coord → Coord → ℚ)
    (sm : StreetMapImpl Coord) (fuel : Nat) (start end_ : Coord) : Option (RouteResult Coord) :=
  if (GetSegmentsThatStartWith hasher sm end_).isNone
      ∨ (GetSegmentsThatStartWith hasher sm start).isNone then
    some ⟨DeliveryResult.BAD_COORD, [], 0⟩
  else
    match searchLoop hasher dist sm end_ fuel (initialSearchState hasher start) with
    | none => none
    | some (false, _) => some ⟨DeliveryResult.NO_ROUTE, [], 0⟩
    | some (true, st) =>
      match ExpandableHashMap.Find hasher st.prev_location end_ with
      | none => none
      | some start_pos_seg_pair =>
        match buildRoute hasher dist st.prev_location fuel end_ start_pos_seg_pair [] 0 with
        | none => none
        | some (route, total) => some ⟨DeliveryResult.DELIVERY_SUCCESS, route, total⟩

end Router

/-! ## delivery_optimizer.cpp -/

/-- Modelled from the spec: the struct `DeliveryRequest` of `provided.h`, an item label and
the location it goes to. -/
structure DeliveryRequest (Coord : Type) where
  item : String
  location : Coord
  deriving DecidableEq

/-- The random sources of the optimizer: `rand k` is the value of the `k`-th call of
`rand()`, `uniform k` the `k`-th draw of `random_num(gen)`. -/
structure RandomSource where
  rand : Nat → Nat
  uniform : Nat → ℚ

/-- The local state of the annealing loops. `rand_calls` and `uniform_calls` count the draws
made so far. `history` is a history variable that the program never reads: for every move
proposed so far, latest first, the candidate tour `temp_path` and the working tour
`delivery_path` as it is after the acceptance test. -/
structure AnnealState (Coord : Type) where
  delivery_path : List (DeliveryRequest Coord)
  curr_path_len : ℚ
  num_passes : Nat
  rand_calls : Nat
  uniform_calls : Nat
  history : List (List (DeliveryRequest Coord) × List (DeliveryRequest Coord))

/-- What `OptimizeDeliveryOrder` leaves behind: the reordered `deliveries`, the two
out-parameters, the numbers of random draws made, and the history of the moves. -/
structure OptimizeResult (Coord : Type) where
  deliveries : List (DeliveryRequest Coord)
  old_crow_dist : ℚ
  new_crow_dist : ℚ
  rand_calls : Nat
  uniform_calls : Nat
  history : List (List (DeliveryRequest Coord) × List (DeliveryRequest Coord))
  deriving DecidableEq

section Optimizer

variable {Coord : Type}

/-- The loops that add up `distanceEarthMiles` over consecutive entries of a path. -/
def crowLength (dist : Coord → Coord → ℚ) : List (DeliveryRequest Coord) → ℚ
  | a :: b :: rest => dist a.location b.location + crowLength dist (b :: rest)
  | _ => 0

/-- The constant `max_iterations`. -/
def max_iterations : Nat := 100

/-- The `do ... while` loop that draws the span `[num_start_coords, num_end_coords]`; the
third component is the number of `rand()` calls made when it exits. The constant `0.2` of the
loop condition is the rational `1 / 5`. -/
def pickSpan (rand : Nat → Nat) (num_stops num_middle_stops : Nat) :
    Nat → Nat → Option (Nat × Nat × Nat)
  | 0, _ => none
  | fuel + 1, calls =>
    let start0 := rand calls % num_middle_stops + 1
    let end0 := rand (calls + 1) % num_middle_stops + 1
    let end1 := if end0 = num_middle_stops + 1 then end0 - 1 else end0
    let num_start_coords := if start0 > end1 then end1 else start0
    let num_end_coords := if start0 > end1 then start0 else end1
    if num_start_coords = num_end_coords
        ∨ (((num_stops : ℤ) - ((num_end_coords : ℤ) - (num_start_coords : ℤ)) - 1 : ℤ) : ℚ)
            < (1 / 5 : ℚ) * (num_stops : ℚ) then
      pickSpan rand num_stops num_middle_stops fuel (calls + 2)
    else some (num_start_coords, num_end_coords, calls + 2)

/-- The three loops of the flip branch: the entries before the span, the span backwards,
the entries after the span. -/
def flipSpan (delivery_path : List (DeliveryRequest Coord))
    (num_start_coords num_end_coords : Nat) : List (DeliveryRequest Coord) :=
  delivery_path.take num_start_coords
    ++ ((delivery_path.drop num_start_coords).take
          (num_end_coords + 1 - num_start_coords)).reverse
    ++ delivery_path.drop (num_end_coords + 1)

/-- The move branch: the span is erased from a copy of the path and its entries are
inserted again, in their order, from position `new_position` on. -/
def moveSpan (delivery_path : List (DeliveryRequest Coord))
    (num_start_coords num_end_coords new_position : Nat) : List (DeliveryRequest Coord) :=
  let erased := delivery_path.take num_start_coords ++ delivery_path.drop (num_end_coords + 1)
  let span := (delivery_path.drop num_start_coords).take (num_end_coords + 1 - num_start_coords)
  erased.take new_position ++ span ++ erased.drop new_position

/-- The body of the loop over `j`: one proposed move and its acceptance test. -/
def annealStep (dist : Coord → Coord → ℚ) (expFn : ℚ → ℚ) (rng : RandomSource) (fuel : Nat)
    (num_stops num_middle_stops : Nat) (temperature : ℚ) (st : AnnealState Coord) :
    Option (AnnealState Coord) :=
  match pickSpan rng.rand num_stops num_middle_stops fuel st.rand_calls with
  | none => none
  | some (num_start_coords, num_end_coords, calls) =>
    let flip : Bool := rng.rand calls % 2 ≠ 0
    let span_room := num_stops - (num_end_coords - num_start_coords) - 2
    if ¬ flip ∧ span_room = 0 then none
    else
      let temp_path :=
        if flip then flipSpan st.delivery_path num_start_coords num_end_coords
        else
          moveSpan st.delivery_path num_start_coords num_end_coords
            (rng.rand (calls + 1) % span_room + 1)
      let calls1 := if flip then calls + 1 else calls + 2
      let new_path_len := crowLength dist temp_path
      let cost_diff := new_path_len - st.curr_path_len
      if cost_diff < 0 then
        some ⟨temp_path, new_path_len, st.num_passes + 1, calls1, st.uniform_calls,
          (temp_path, temp_path) :: st.history⟩
      else if cost_diff > 0 then
        if rng.uniform st.uniform_calls < expFn (-cost_diff / temperature) then
          some ⟨temp_path, new_path_len, st.num_passes + 1, calls1, st.uniform_calls + 1,
            (temp_path, temp_path) :: st.history⟩
        else
          some ⟨st.delivery_path, st.curr_path_len, st.num_passes, calls1, st.uniform_calls + 1,
            (temp_path, st.delivery_path) :: st.history⟩
      else
        some ⟨st.delivery_path, st.curr_path_len, st.num_passes, calls1, st.uniform_calls,
          (temp_path, st.delivery_path) :: st.history⟩

/-- The loop `for (j = 0; j < max_paths_temp; j++)`, with `remaining` iterations to go; it
is left early when `num_passes` reaches `max_paths_before_cont`. -/
def epochLoop (dist : Coord → Coord → ℚ) (expFn : ℚ → ℚ) (rng : RandomSource) (fuel : Nat)
    (num_stops num_middle_stops max_paths_before_cont : Nat) (temperature : ℚ) :
    Nat → AnnealState Coord → Option (AnnealState Coord)
  | 0, st => some st
  | remaining + 1, st =>
    match annealStep dist expFn rng fuel num_stops num_middle_stops temperature st with
    | none => none
    | some st1 =>
      if st1.num_passes ≥ max_paths_before_cont then some st1
      else
        epochLoop dist expFn rng fuel num_stops num_middle_stops max_paths_before_cont
          temperature remaining st1

/-- The loop `for (i = 0; i < max_iterations; i++)`, with `remaining` periods to go. -/
def annealLoop (dist : Coord → Coord → ℚ) (expFn : ℚ → ℚ) (rng : RandomSource) (fuel : Nat)
    (num_stops num_middle_stops max_paths_temp max_paths_before_cont : Nat) :
    Nat → ℚ → AnnealState Coord → Option (AnnealState Coord)
  | 0, _, st => some st
  | remaining + 1, temperature, st =>
    match epochLoop dist expFn rng fuel num_stops num_middle_stops max_paths_before_cont
        temperature max_paths_temp
        ⟨st.delivery_path, st.curr_path_len, 0, st.rand_calls, st.uniform_calls, st.history⟩ with
    | none => none
    | some st1 =>
      annealLoop dist expFn rng fuel num_stops num_middle_stops max_paths_temp
        max_paths_before_cont remaining (temperature * (9 / 10)) st1

/-- The method `DeliveryOptimizerImpl::OptimizeDeliveryOrder`. The stand-in for the depot
is the request with the empty item at the depot. -/
def OptimizeDeliveryOrder (dist : Coord → Coord → ℚ) (expFn : ℚ → ℚ) (rng : RandomSource)
    (fuel : Nat) (depot : Coord) (deliveries : List (DeliveryRequest Coord)) :
    Option (OptimizeResult Coord) :=
  let delivery_path : List (DeliveryRequest Coord) := (⟨"", depot⟩ :: deliveries) ++ [⟨"", depot⟩]
  let old_crow_dist := crowLength dist delivery_path
  let final : Option (AnnealState Coord) :=
    if deliveries.length > 1 then
      let num_stops := delivery_path.length
      let num_middle_stops := num_stops - 2
      let max_paths_temp := max_iterations * num_stops
      let max_paths_before_cont := max_iterations * num_stops
      annealLoop dist expFn rng fuel num_stops num_middle_stops max_paths_temp
        max_paths_before_cont max_iterations (1 / 2) ⟨delivery_path, old_crow_dist, 0, 0, 0, []⟩
    else some ⟨delivery_path, old_crow_dist, 0, 0, 0, []⟩
  match final with
  | none => none
  | some st =>
    some ⟨st.delivery_path.tail.dropLast, old_crow_dist, crowLength dist st.delivery_path,
      st.rand_calls, st.uniform_calls, st.history⟩

end Optimizer

/-! ## delivery_planner.cpp -/

/-- Modelled from the spec: the class `DeliveryCommand` of `provided.h`, a tagged variant
`Deliver(item)`, `Proceed(direction, streetName, distance)` or `Turn(direction, streetName)`;
`Invalid` is the state of a default-constructed command. -/
inductive DeliveryCommand where
  | Invalid
  | Deliver (item : String)
  | Proceed (direction : String) (streetName : String) (distance : ℚ)
  | Turn (direction : String) (streetName : String)
  deriving DecidableEq

/-- Modelled from the spec: `DeliveryCommand::IncreaseDistance`, which lengthens a Proceed. -/
def DeliveryCommand.IncreaseDistance (c : DeliveryCommand) (byThisMuch : ℚ) : DeliveryCommand :=
  match c with
  | DeliveryCommand.Proceed direction streetName distance =>
    DeliveryCommand.Proceed direction streetName (distance + byThisMuch)
  | other => other

/-- Modelled from the spec: the test `Description()[0] == 'P'`, true of Proceed commands only. -/
def DeliveryCommand.isProceed (c : DeliveryCommand) : Bool :=
  match c with
  | DeliveryCommand.Proceed _ _ _ => true
  | _ => false

/-- Modelled from the spec: `DeliveryCommand::StreetName`. -/
def DeliveryCommand.StreetName (c : DeliveryCommand) : String :=
  match c with
  | DeliveryCommand.Proceed _ streetName _ => streetName
  | DeliveryCommand.Turn _ streetName => streetName
  | _ => ""

/-- The local state of the command loop: the `commands` vector, the deliveries from
`delivery_tracker` on, and the scratch variable `next_command`. -/
structure PlanState (Coord : Type) where
  commands : List DeliveryCommand
  pending : List (DeliveryRequest Coord)
  next_command : DeliveryCommand

/-- What `GenerateDeliveryPlan` hands back: the status and the two out-parameters. -/
structure PlanResult where
  status : DeliveryResult
  commands : List DeliveryCommand
  total_dist_travelled : ℚ
  deriving DecidableEq

/-- The geometry of `provided.h` that the planner calls. -/
structure Geometry (Coord : Type) where
  angleOfLine : StreetSegment Coord → ℚ
  angleBetween2Lines : StreetSegment Coord → StreetSegment Coord → ℚ

section Planner

variable {Coord : Type} [LinearOrder Coord]

/-- The function `getProceedDirection`. -/
def getProceedDirection (geo : Geometry Coord) (seg : StreetSegment Coord) : String :=
  let angle := geo.angleOfLine seg
  if angle ≥ 0 ∧ angle < 22.5 then "east"
  else if angle ≥ 22.5 ∧ angle < 67.5 then "northeast"
  else if angle ≥ 67.5 ∧ angle < 112.5 then "north"
  else if angle ≥ 112.5 ∧ angle < 157.5 then "northwest"
  else if angle ≥ 157.5 ∧ angle < 202.5 then "west"
  else if angle ≥ 202.5 ∧ angle < 247.5 then "southwest"
  else if angle ≥ 247.5 ∧ angle < 292.5 then "south"
  else if angle ≥ 292.5 ∧ angle < 337.5 then "southeast"
  else if angle ≥ 337.5 then "east"
  else "INVALID"

/-- The function `getSegDist`. -/
def getSegDist (dist : Coord → Coord → ℚ) (seg : StreetSegment Coord) : ℚ :=
  dist seg.start seg.end_

/-- The Proceed command built for a segment. -/
def proceedFor (dist : Coord → Coord → ℚ) (geo : Geometry Coord) (seg : StreetSegment Coord) :
    DeliveryCommand :=
  DeliveryCommand.Proceed (getProceedDirection geo seg) seg.name (getSegDist dist seg)

/-- The list `commands` with `f` applied to `commands.back()`. -/
def modifyBack (f : DeliveryCommand → DeliveryCommand) (commands : List DeliveryCommand) :
    List DeliveryCommand :=
  match commands.getLast? with
  | some c => commands.dropLast ++ [f c]
  | none => commands

/-- The method `DeliveryPlannerImpl::AddDelivery`, on the pair (`total_path`,
`total_dist_travelled`): the router overwrites `total_dist_travelled` with the length of the
leg, the leg is spliced onto `total_path`, and `new_distance`, which is 0 throughout, is added. -/
def AddDelivery (hasher : Coord → Nat) (dist : Coord → Coord → ℚ) (sm : StreetMapImpl Coord)
    (fuel : Nat) (new_distance : ℚ) (total_path : List (StreetSegment Coord))
    (start end_ : Coord) : Option (DeliveryResult × List (StreetSegment Coord) × ℚ) :=
  match GeneratePointToPointRoute hasher dist sm fuel start end_ with
  | none => none
  | some r =>
    if r.status ≠ DeliveryResult.DELIVERY_SUCCESS then some (r.status, total_path, r.total_dist_travelled)
    else some (DeliveryResult.DELIVERY_SUCCESS, total_path ++ r.route, r.total_dist_travelled + new_distance)

/-- The three groups of `AddDelivery` calls of `GenerateDeliveryPlan`, over the waypoints
`depot, stop_1, ..., stop_N, depot` given as the list of consecutive pairs; it stops at the
first leg that fails. -/
def addLegs (hasher : Coord → Nat) (dist : Coord → Coord → ℚ) (sm : StreetMapImpl Coord)
    (fuel : Nat) : List (Coord × Coord) → List (StreetSegment Coord) → ℚ →
      Option (DeliveryResult × List (StreetSegment Coord) × ℚ)
  | [], total_path, total_dist_travelled =>
    some (DeliveryResult.DELIVERY_SUCCESS, total_path, total_dist_travelled)
  | leg :: rest, total_path, _ =>
    match AddDelivery hasher dist sm fuel 0 total_path leg.1 leg.2 with
    | none => none
    | some (status, total_path1, total1) =>
      if status ≠ DeliveryResult.DELIVERY_SUCCESS then some (status, total_path1, total1)
      else addLegs hasher dist sm fuel rest total_path1 total1

/-- The consecutive pairs of a list of waypoints. -/
def consecutivePairs : List Coord → List (Coord × Coord)
  | a :: b :: rest => (a, b) :: consecutivePairs (b :: rest)
  | _ => []

/-- The body of the loop over `current_seg`, with `prev_line` the segment before it. -/
def commandStep (dist : Coord → Coord → ℚ) (geo : Geometry Coord)
    (prev_line current_seg : StreetSegment Coord) (st : PlanState Coord) :
    Option (PlanState Coord) :=
  match st.pending with
  | [] => none
  | delivery :: later =>
    if delivery.location = current_seg.start then
      let deliver := DeliveryCommand.Deliver delivery.item
      let proceed := proceedFor dist geo current_seg
      some ⟨st.commands ++ [deliver] ++ [proceed], later, proceed⟩
    else
      let angle := geo.angleBetween2Lines prev_line current_seg
      if angle < 1 ∨ angle > 359 then
        match st.commands.getLast? with
        | none => none
        | some back =>
          if back.isProceed ∧ back.StreetName = current_seg.name then
            some ⟨modifyBack (fun c => c.IncreaseDistance (getSegDist dist current_seg)) st.commands,
              st.pending, st.next_command⟩
          else
            let proceed := proceedFor dist geo current_seg
            some ⟨st.commands ++ [proceed], st.pending, proceed⟩
      else
        let turn :=
          if angle ≥ 1 ∧ angle < 180 then DeliveryCommand.Turn "left" current_seg.name
          else if angle ≥ 180 ∧ angle ≤ 359 then DeliveryCommand.Turn "right" current_seg.name
          else st.next_command
        if current_seg.name ≠ prev_line.name then
          let proceed := proceedFor dist geo current_seg
          some ⟨st.commands ++ [turn] ++ [proceed], st.pending, proceed⟩
        else
          match st.commands.getLast? with
          | none => none
          | some _ =>
            some ⟨modifyBack (fun c => c.IncreaseDistance (getSegDist dist current_seg)) st.commands,
              st.pending, turn⟩

/-- The loop `for (current_seg = next(total_path.begin()); ...)`: `prev_line` is the segment
just before the remaining ones. -/
def commandLoop (dist : Coord → Coord → ℚ) (geo : Geometry Coord) :
    StreetSegment Coord → List (StreetSegment Coord) → PlanState Coord → Option (PlanState Coord)
  | _, [], st => some st
  | prev_line, current_seg :: rest, st =>
    match commandStep dist geo prev_line current_seg st with
    | none => none
    | some st1 => commandLoop dist geo current_seg rest st1

/-- The command synthesis of `GenerateDeliveryPlan` (from `// generate commands` on), run on
the concatenated path and the optimized deliveries; the result is the `commands` vector.
The `if` after the loop only writes the local `next_command` and pushes nothing, so it has
no part in the result. -/
def generateCommands (dist : Coord → Coord → ℚ) (geo : Geometry Coord)
    (total_path : List (StreetSegment Coord))
    (optimized_deliveries : List (DeliveryRequest Coord)) (commands : List DeliveryCommand) :
    Option (List DeliveryCommand) :=
  match optimized_deliveries, total_path with
  | [], _ => none
  | _, [] => none
  | first :: later, front :: rest =>
    let st0 : PlanState Coord :=
      if first.location = front.start then
        ⟨commands ++ [DeliveryCommand.Deliver first.item], later,
          DeliveryCommand.Deliver first.item⟩
      else ⟨commands, first :: later, DeliveryCommand.Invalid⟩
    let proceed := proceedFor dist geo front
    let st1 : PlanState Coord := ⟨st0.commands ++ [proceed], st0.pending, proceed⟩
    match commandLoop dist geo front rest st1 with
    | none => none
    | some st2 => some st2.commands

/-- The part of `GenerateDeliveryPlan` after the call of the optimizer: the legs are routed
in waypoint order, then the commands are generated. -/
def planOptimized (hasher : Coord → Nat) (dist : Coord → Coord → ℚ) (geo : Geometry Coord)
    (sm : StreetMapImpl Coord) (fuel : Nat) (depot : Coord)
    (optimized_deliveries : List (DeliveryRequest Coord)) (commands : List DeliveryCommand) :
    Option PlanResult :=
  match optimized_deliveries with
  | [] => none
  | _ :: _ =>
    let waypoints := (depot :: optimized_deliveries.map (fun d => d.location)) ++ [depot]
    match addLegs hasher dist sm fuel (consecutivePairs waypoints) [] 0 with
    | none => none
    | some (status, total_path, total_dist_travelled) =>
      if status ≠ DeliveryResult.DELIVERY_SUCCESS then
        some ⟨status, commands, total_dist_travelled⟩
      else
        match generateCommands dist geo total_path optimized_deliveries commands with
        | none => none
        | some commands1 => some ⟨DeliveryResult.DELIVERY_SUCCESS, commands1, total_dist_travelled⟩

/-- The method `DeliveryPlannerImpl::GenerateDeliveryPlan`; `commands` is the vector as the
caller passes it in. -/
def GenerateDeliveryPlan (hasher : Coord → Nat) (dist : Coord → Coord → ℚ) (geo : Geometry Coord)
    (expFn : ℚ → ℚ) (rng : RandomSource) (sm : StreetMapImpl Coord) (fuel : Nat) (depot : Coord)
    (deliveries : List (DeliveryRequest Coord)) (commands : List DeliveryCommand) :
    Option PlanResult :=
  match OptimizeDeliveryOrder dist expFn rng fuel depot deliveries with
  | none => none
  | some optimized =>
    planOptimized hasher dist geo sm fuel depot optimized.deliveries commands

end Planner

/-! ## Specification vocabulary for the hash map -/

namespace ExpandableHashMap

variable {K V : Type} [DecidableEq K]

/-- The pairs of bucket `i` of a bucket vector; a null bucket holds none. -/
def bucketAt (map : List (Option (List (K × V)))) (i : Nat) : List (K × V) :=
  (map.getD i none).getD []

/-- All pairs of a bucket vector, bucket after bucket. -/
def allPairs (map : List (Option (List (K × V)))) : List (K × V) :=
  (map.map (fun b => b.getD [])).flatten

/-- The representation invariant of the table: `m_size` is the number of buckets, there is
at least one bucket, and every pair sits in the bucket its hash selects. -/
structure WF (hasher : K → Nat) (m : ExpandableHashMap K V) : Prop where
  size_eq : m.m_map.length = m.m_size
  size_pos : 0 < m.m_map.length
  placed : ∀ i p, p ∈ bucketAt m.m_map i → hasher p.1 % m.m_map.length = i

end ExpandableHashMap

namespace ExpandableHashMap

variable {K V : Type} [DecidableEq K]

/-- What the non-copying `AddPairToMap` does to the bucket it selects: the first pair with
the key gets the value, or the pair is appended. -/
def upsertBucket (key : K) (val : V) (bucket : List (K × V)) : List (K × V) :=
  (assignInBucket key val bucket).getD (bucket ++ [(key, val)])

end ExpandableHashMap

/-! ## Specification vocabulary for the street graph and for routes -/

section GraphSpec

variable {Coord : Type} [LinearOrder Coord]

/-- The segments the map returns for `c`, none when `c` has no entry. -/
def segmentsAt (hasher : Coord → Nat) (sm : StreetMapImpl Coord) (c : Coord) :
    List (StreetSegment Coord) :=
  (GetSegmentsThatStartWith hasher sm c).getD []

/-- A segment is stored in the graph: the map returns it for its start coordinate. -/
def InGraph (hasher : Coord → Nat) (sm : StreetMapImpl Coord) (s : StreetSegment Coord) : Prop :=
  s ∈ segmentsAt hasher sm s.start

/-- The list `route` is a chain of graph segments from `a` to `b`: it starts at `a`, each
segment ends where the next one starts, it ends at `b`, and every segment is stored in the
graph. The empty chain leads from a coordinate to itself. -/
def IsChain (hasher : Coord → Nat) (sm : StreetMapImpl Coord) :
    Coord → Coord → List (StreetSegment Coord) → Prop
  | a, b, [] => a = b
  | a, b, s :: rest => s.start = a ∧ InGraph hasher sm s ∧ IsChain hasher sm s.end_ b rest

/-- The length of a route: the sum of the lengths of its segments. -/
def routeLength (dist : Coord → Coord → ℚ) (route : List (StreetSegment Coord)) : ℚ :=
  (route.map (fun s => dist s.start s.end_)).sum

/-- The coordinate `b` can be reached from `a` along graph segments. -/
def Reachable (hasher : Coord → Nat) (sm : StreetMapImpl Coord) (a b : Coord) : Prop :=
  ∃ route, IsChain hasher sm a b route

/-- The facts about a loaded map that the router relies on: the table is well formed, every
segment is filed under its start, and the end of every segment has an entry. -/
structure GraphOK (hasher : Coord → Nat) (sm : StreetMapImpl Coord) : Prop where
  wf : ExpandableHashMap.WF hasher sm.m_coord_seg_map
  keyed : ∀ c segs, GetSegmentsThatStartWith hasher sm c = some segs → ∀ s ∈ segs, s.start = c
  closed : ∀ c segs, GetSegmentsThatStartWith hasher sm c = some segs →
    ∀ s ∈ segs, (GetSegmentsThatStartWith hasher sm s.end_).isSome = true

end GraphSpec

/-! ## The invariant of the search loop -/

section RouterSpec

variable {Coord : Type} [LinearOrder Coord]

/-- The invariant of the search loop of `GeneratePointToPointRoute`.

`N` is a common denominator of the segment lengths, so that every cost is a natural multiple
of `1 / N`. `busy` is the coordinate whose segments are being relaxed (nothing, between two
iterations of the outer loop); it is exempt from the closure condition. The `links` field
says that a predecessor entry is a graph segment into the coordinate and that the pair
(cost, time of the last improvement) decreases along predecessor links. -/
structure SearchInv (hasher : Coord → Nat) (sm : StreetMapImpl Coord) (start end_ : Coord)
    (N : Nat) (busy : Coord → Prop) (st : SearchState Coord) : Prop where
  wf_cost : ExpandableHashMap.WF hasher st.move_cost
  wf_prev : ExpandableHashMap.WF hasher st.prev_location
  cost_start : ExpandableHashMap.Find hasher st.move_cost start = some 0
  prev_start : ∃ p, ExpandableHashMap.Find hasher st.prev_location start = some p ∧ p.m_name = ""
  cost_nonneg : ∀ v c, ExpandableHashMap.Find hasher st.move_cost v = some c → 0 ≤ c
  scaled : ∀ v c, ExpandableHashMap.Find hasher st.move_cost v = some c → ∃ n : Nat, c * N = n
  prev_some : ∀ v, (ExpandableHashMap.Find hasher st.move_cost v).isSome = true →
    (ExpandableHashMap.Find hasher st.prev_location v).isSome = true
  queue_cost : ∀ e ∈ st.search_space,
    (ExpandableHashMap.Find hasher st.move_cost e.2).isSome = true
  has_entry : ∀ v, (ExpandableHashMap.Find hasher st.move_cost v).isSome = true →
    (GetSegmentsThatStartWith hasher sm v).isSome = true
  reach : ∀ v, (ExpandableHashMap.Find hasher st.move_cost v).isSome = true →
    Reachable hasher sm start v
  closure : ∀ v, (ExpandableHashMap.Find hasher st.move_cost v).isSome = true →
    busy v ∨ (∃ r, (r, v) ∈ st.search_space)
      ∨ ∀ s ∈ segmentsAt hasher sm v,
          (ExpandableHashMap.Find hasher st.move_cost s.end_).isSome = true
  end_queued : (ExpandableHashMap.Find hasher st.move_cost end_).isSome = true →
    ∃ r, (r, end_) ∈ st.search_space
  links : ∃ time : Coord → Nat, ∀ v p, v ≠ start →
    ExpandableHashMap.Find hasher st.prev_location v = some p →
      InGraph hasher sm ⟨p.m_coord, v, p.m_name⟩
      ∧ ∃ cu cv, ExpandableHashMap.Find hasher st.move_cost p.m_coord = some cu
          ∧ ExpandableHashMap.Find hasher st.move_cost v = some cv
          ∧ (cu < cv ∨ (cu = cv ∧ time p.m_coord < time v))

/-- The coordinates that have an entry in the street map, as stored. -/
def mapKeys (sm : StreetMapImpl Coord) : List Coord :=
  (ExpandableHashMap.allPairs sm.m_coord_seg_map.m_map).map (fun p => p.1)

/-- First component of the termination measure: the number of map coordinates without a
cost. -/
def unknownCount (hasher : Coord → Nat) (sm : StreetMapImpl Coord) (st : SearchState Coord) :
    Nat :=
  ((mapKeys sm).filter
    (fun k => (ExpandableHashMap.Find hasher st.move_cost k).isNone)).length

/-- Second component of the termination measure: the sum of the costs, in units of `1 / N`. -/
def costTotal (hasher : Coord → Nat) (sm : StreetMapImpl Coord) (N : Nat)
    (st : SearchState Coord) : Nat :=
  ((mapKeys sm).map
    (fun k => ⌊(ExpandableHashMap.Find hasher st.move_cost k).getD 0 * N⌋₊)).sum

/-- The measure of a state does not increase, and the queue keeps its length when the
measure stays the same. -/
def MeasureLE (hasher : Coord → Nat) (sm : StreetMapImpl Coord) (N : Nat)
    (st1 st : SearchState Coord) : Prop :=
  unknownCount hasher sm st1 < unknownCount hasher sm st
  ∨ (unknownCount hasher sm st1 = unknownCount hasher sm st
      ∧ costTotal hasher sm N st1 < costTotal hasher sm N st)
  ∨ (unknownCount hasher sm st1 = unknownCount hasher sm st
      ∧ costTotal hasher sm N st1 = costTotal hasher sm N st
      ∧ st1.search_space.length = st.search_space.length)

end RouterSpec

/-! ## Specification vocabulary for the optimizer -/

section OptimizerSpec

variable {Coord : Type}

/-- The stand-in for the depot in the working tour: the request with the empty item at the
depot. -/
def depotEntry (depot : Coord) : DeliveryRequest Coord := ⟨"", depot⟩

/-- The list `path` is a closed tour of the deliveries: the depot stand-in, then the
deliveries in some order, each as often as in `deliveries`, then the depot stand-in. -/
def IsTour (depot : Coord) (deliveries path : List (DeliveryRequest Coord)) : Prop :=
  ∃ mid, path = depotEntry depot :: mid ++ [depotEntry depot] ∧ mid.Perm deliveries

end OptimizerSpec

section OptimizerSpec2

variable {Coord : Type}

/-- The invariant of the annealing loops: the working tour and every tour in the history
are closed tours of the deliveries. -/
def TourInv (depot : Coord) (deliveries : List (DeliveryRequest Coord))
    (st : AnnealState Coord) : Prop :=
  IsTour depot deliveries st.delivery_path
  ∧ ∀ m ∈ st.history, IsTour depot deliveries m.1 ∧ IsTour depot deliveries m.2

end OptimizerSpec2

section RouterNames

variable {Coord : Type} [LinearOrder Coord]

/-- A weaker invariant of the search loop, which needs no assumption on the distances:
the tables are well formed, the segments in `next_moves` are segments of the map, and the
predecessor entry of every coordinate other than `start` carries the name of a segment of
the map. -/
structure NameInv (hasher : Coord → Nat) (sm : StreetMapImpl Coord) (start : Coord)
    (st : SearchState Coord) : Prop where
  wf_cost : ExpandableHashMap.WF hasher st.move_cost
  wf_prev : ExpandableHashMap.WF hasher st.prev_location
  moves : ∀ s ∈ st.next_moves, ∃ c, s ∈ segmentsAt hasher sm c
  names : ∀ v p, v ≠ start → ExpandableHashMap.Find hasher st.prev_location v = some p →
    ∃ c s, s ∈ segmentsAt hasher sm c ∧ s.name = p.m_name

end RouterNames

/-! ## Concrete maps used in the examples -/

/-- Positions on a grid of the four coordinates 0, 1, 2, 3 of the detour map (every other
number sits at the origin). -/
def detourPos : Nat → ℤ × ℤ
  | 0 => (0, 0)
  | 1 => (9, 0)
  | 2 => (7, 1)
  | 3 => (10, 0)
  | _ => (0, 0)

/-- The grid (taxicab) distance between two coordinates of the detour map. -/
def detourDist (a b : Nat) : ℚ :=
  ((|(detourPos a).1 - (detourPos b).1| + |(detourPos a).2 - (detourPos b).2| : ℤ) : ℚ)

/-- The detour map: street X runs 0 - 1 - 3 (length 9 + 1), street Y runs 0 - 2 - 3
(length 8 + 4). -/
def detourRecords : List (StreetRecord Nat) :=
  [⟨"X", [(0, 1), (1, 3)]⟩, ⟨"Y", [(0, 2), (2, 3)]⟩]

/-- The hash of a coordinate used in the examples. -/
def exampleHasher (c : Nat) : Nat := c

/-- The detour map as loaded. -/
def detourMap : StreetMapImpl Nat := LoadRecords exampleHasher detourRecords

/-- A source of random draws used in the examples: `rand()` alternates 0, 1, 0, 1, ... and
the uniform draws are all 0. -/
def alternatingSource : RandomSource := ⟨fun k => k % 2, fun _ => 0⟩

/-- The line map: one street, Main, with the single segment 0 - 1. -/
def lineRecords : List (StreetRecord Nat) := [⟨"Main", [(0, 1)]⟩]

/-- The line map as loaded. -/
def lineMap : StreetMapImpl Nat := LoadRecords exampleHasher lineRecords

/-- The distance between two coordinates of the line map. -/
def lineDist (a b : Nat) : ℚ := |(a : ℚ) - (b : ℚ)|

/-- The bearing of a segment of the line map: 0 degrees (east) towards the larger
coordinate, 180 degrees (west) towards the smaller one. -/
def lineAngle (seg : StreetSegment Nat) : ℚ :=
  if seg.start ≤ seg.end_ then 0 else 180

/-- The angle between two segments of the line map: the difference of their bearings,
brought into the range from 0 to 360. -/
def lineTurn (a b : StreetSegment Nat) : ℚ :=
  if lineAngle b - lineAngle a < 0 then lineAngle b - lineAngle a + 360
  else lineAngle b - lineAngle a

/-- The geometry of the line map. -/
def lineGeometry : Geometry Nat := ⟨lineAngle, lineTurn⟩

/-! ## Vocabulary of the later claims -/

section TourLength

variable {Coord : Type}

/-- The length of the closed tour `depot, stops in order, depot` in the words of the
specification: the sum of the straight-line distances between consecutive entries. -/
def tourLength (dist : Coord → Coord → ℚ) (depot : Coord) (stops : List (DeliveryRequest Coord)) :
    ℚ :=
  let waypoints := (depot :: stops.map (fun d => d.location)) ++ [depot]
  ((waypoints.zip waypoints.tail).map (fun p => dist p.1 p.2)).sum

end TourLength

section CommandStates

variable {Coord : Type} [LinearOrder Coord]

/-- The state in which `GenerateDeliveryPlan` enters its loop over the segments: the
delivery at the start of the first segment `front`, if the first delivery `first` is there,
and the first Proceed are in `commands`. -/
def commandStart (dist : Coord → Coord → ℚ) (geo : Geometry Coord) (front : StreetSegment Coord)
    (first : DeliveryRequest Coord) (later : List (DeliveryRequest Coord))
    (commands : List DeliveryCommand) : PlanState Coord :=
  let st0 : PlanState Coord :=
    if first.location = front.start then
      ⟨commands ++ [DeliveryCommand.Deliver first.item], later,
        DeliveryCommand.Deliver first.item⟩
    else ⟨commands, first :: later, DeliveryCommand.Invalid⟩
  let proceed := proceedFor dist geo front
  ⟨st0.commands ++ [proceed], st0.pending, proceed⟩

/-- The segment `*prev(current_seg)` at the boundary reached after the first segment
`front` and the segments `pre` that follow it. -/
def segmentBefore (front : StreetSegment Coord) (pre : List (StreetSegment Coord)) :
    StreetSegment Coord :=
  pre.getLast?.getD front

end CommandStates

section SymmetricSpec

variable {Coord : Type} [LinearOrder Coord]

/-- The adjacency map is symmetric: with every segment it stores, it stores the segment in
the other direction, under the same street name, at the end of the first. -/
def SymmetricMap (hasher : Coord → Nat) (sm : StreetMapImpl Coord) : Prop :=
  ∀ c s, s ∈ segmentsAt hasher sm c →
    (⟨s.end_, s.start, s.name⟩ : StreetSegment Coord) ∈ segmentsAt hasher sm s.end_

end SymmetricSpec

/-- A map of one street, Main, with the two collinear segments 0 - 1 and 1 - 2. -/
def mainStreetRecords : List (StreetRecord Nat) := [⟨"Main", [(0, 1), (1, 2)]⟩]

/-- The map of street Main as loaded. -/
def mainStreetMap : StreetMapImpl Nat := LoadRecords exampleHasher mainStreetRecords

/-- A map of two streets that do not meet: street A with the segment 0 - 1 and street B
with the segment 5 - 6. -/
def islandRecords : List (StreetRecord Nat) := [⟨"A", [(0, 1)]⟩, ⟨"B", [(5, 6)]⟩]

/-! ## street_map.cpp: `Load` on the text of the map data file -/

/-- Modelled from the spec: the struct `GeoCoord` of `provided.h`, identified with the pair
of its decimal texts `(latitudeText, longitudeText)`; two coordinates are equal when their
texts are, and they are ordered as pairs of texts. -/
abbrev GeoCoord : Type := Lex (String × String)

/-- Modelled from the spec: the constructor `GeoCoord(latitudeText, longitudeText)`. -/
def GeoCoord.ofTexts (latitudeText longitudeText : String) : GeoCoord :=
  toLex (latitudeText, longitudeText)

/-- The loop `while (map_data.get(next_char) && (isdigit(next_char) || next_char == '.' ||
next_char == '-')) *seg_point_str += next_char;` on the characters left in the line: the
text collected and the characters left afterwards. The character that ends the loop has been
taken out of the stream; at the end of the line nothing more is read. -/
def readField : List Char → List Char × List Char
  | [] => ([], [])
  | next_char :: rest =>
    if next_char.isDigit ∨ next_char = '.' ∨ next_char = '-' then
      ((next_char :: (readField rest).1), (readField rest).2)
    else ([], rest)

/-- The `for` loop over `seg_end_points` on one line, and the two coordinates built from
the four texts: `(start_coord, end_coord)`. -/
def readSegmentLine (input_ln : String) : GeoCoord × GeoCoord :=
  let start_lattitude := readField input_ln.data
  let start_longitude := readField start_lattitude.2
  let end_lattitude := readField start_longitude.2
  let end_longitude := readField end_lattitude.2
  (GeoCoord.ofTexts (String.mk start_lattitude.1) (String.mk start_longitude.1),
    GeoCoord.ofTexts (String.mk end_lattitude.1) (String.mk end_longitude.1))

/-- The test `isspace` of the classic locale: the blank and the characters 9 to 13 (tab,
line feed, vertical tab, form feed, carriage return). -/
def isSpaceChar (c : Char) : Bool :=
  c.toNat = 32 ∨ (9 ≤ c.toNat ∧ c.toNat ≤ 13)

/-- The decimal digits at the front of the stream, read on top of `acc`. -/
def readDigits : Nat → List Char → Nat
  | acc, [] => acc
  | acc, c :: rest => if c.isDigit then readDigits (acc * 10 + (c.toNat - 48)) rest else acc

/-- The value an `int` takes when the number read does not fit: the nearest bound. -/
def clampInt (v : Int) : Int :=
  if v < -2147483648 then -2147483648 else if v > 2147483647 then 2147483647 else v

/-- The number that starts the stream, after the white space has been skipped: 0 when what
is there is not a number. -/
def readNumber : List Char → Int
  | [] => 0
  | '-' :: rest =>
    match rest with
    | [] => 0
    | d :: _ => if d.isDigit then clampInt (- (readDigits 0 rest : Int)) else 0
  | '+' :: rest =>
    match rest with
    | [] => 0
    | d :: _ => if d.isDigit then clampInt (readDigits 0 rest : Int) else 0
  | c :: rest => if c.isDigit then clampInt (readDigits 0 (c :: rest) : Int) else 0

/-- The extraction `map_data >> num_segs` of the standard library on one line: `none` when
the line holds nothing but white space, in which case `num_segs` is not assigned; otherwise
the value assigned, which is 0 when no number can be read. -/
def extractInt (input_ln : String) : Option Int :=
  match input_ln.data.dropWhile isSpaceChar with
  | [] => none
  | c :: rest => some (readNumber (c :: rest))

/-- The variables of `Load` that live across the lines: `line_num`, `num_segs`, the name
held by `forward_seg` and `backward_seg`, and the map. -/
structure LoadState where
  line_num : Int
  num_segs : Int
  name : String
  sm : StreetMapImpl GeoCoord

/-- The body of the loop `while (getline(map_data_file, input_ln))` of `Load`: the `switch`
on `line_num`, then the update of `line_num`. -/
def loadLine (hasher : GeoCoord → Nat) (st : LoadState) (input_ln : String) : LoadState :=
  let st1 : LoadState :=
    if st.line_num = 1 then ⟨st.line_num, st.num_segs, input_ln, st.sm⟩
    else if st.line_num = 2 then
      match extractInt input_ln with
      | some n => ⟨st.line_num, n, st.name, st.sm⟩
      | none => st
    else
      ⟨st.line_num, st.num_segs, st.name,
        loadSegment hasher st.name st.sm (readSegmentLine input_ln)⟩
  let line_num := st1.line_num + 1
  ⟨if st1.num_segs ≠ 0 ∧ line_num - 2 = st1.num_segs then 0 else line_num, st1.num_segs,
    st1.name, st1.sm⟩

/-- The method `StreetMapImpl::Load` on a map `sm`: `file` is `none` when the file cannot
be opened and otherwise the lines that `getline` delivers; the result is the returned flag
and the map afterwards. -/
def Load (hasher : GeoCoord → Nat) (sm : StreetMapImpl GeoCoord) (file : Option (List String)) :
    Bool × StreetMapImpl GeoCoord :=
  match file with
  | none => (false, sm)
  | some lines => (true, (lines.foldl (loadLine hasher) ⟨1, 0, "", sm⟩).sm)

/-- A well-formed street record in the words of the specification, as text: a name line, a
segment-count line holding an integer `k`, then exactly `k` segment lines. The record `r` is
what the lines say. -/
def EncodesRecord (lines : List String) (r : StreetRecord GeoCoord) : Prop :=
  ∃ countLine segLines, lines = r.name :: countLine :: segLines
    ∧ extractInt countLine = some (segLines.length : Int)
    ∧ r.segs = segLines.map readSegmentLine

/-- The text of a sequence of well-formed street records. -/
def EncodesRecords : List String → List (StreetRecord GeoCoord) → Prop
  | lines, [] => lines = []
  | lines, r :: rest =>
    ∃ first later, lines = first ++ later ∧ EncodesRecord first r ∧ EncodesRecords later rest

/-- The hash of a coordinate used in the examples on text: the total length of its texts. -/
def textHasher (g : GeoCoord) : Nat := (ofLex g).1.length + (ofLex g).2.length

/-! ## Vocabulary of the last claims -/

/-- The names of the eight compass sectors in the words of the specification, counted
from 0: east, northeast, north, northwest, west, southwest, south, southeast. -/
def sectorName : Nat → String
  | 0 => "east"
  | 1 => "northeast"
  | 2 => "north"
  | 3 => "northwest"
  | 4 => "west"
  | 5 => "southwest"
  | 6 => "south"
  | 7 => "southeast"
  | _ => "INVALID"

/-- The number of the sector of a bearing in the words of the specification:
`floor((a + 22.5) / 45) mod 8`. -/
def sectorIndex (a : ℚ) : Nat :=
  (Int.floor ((a + 22.5) / 45) % 8).toNat

namespace ExpandableHashMap

variable {K V : Type} [DecidableEq K]

/-- The map after the constructor with maximum load factor `max_load_factor` and the calls
`Associate(key, value)` for the pairs of `calls`, in order. -/
def afterCalls (hasher : K → Nat) (max_load_factor : ℚ) (calls : List (K × V)) :
    ExpandableHashMap K V :=
  calls.foldl (fun m p => Associate hasher m p.1 p.2) (init max_load_factor)

/-- The keys stored in the table, bucket after bucket. -/
def storedKeys (m : ExpandableHashMap K V) : List K :=
  (allPairs m.m_map).map Prod.fst

/-- The invariant of the table that the later claims are about: the table is well formed,
`m_num_pairs` is the number of pairs in the buckets, and no key is stored twice. -/
structure TableInv (hasher : K → Nat) (m : ExpandableHashMap K V) : Prop where
  wf : WF hasher m
  count : (allPairs m.m_map).length = m.m_num_pairs
  nodup : (storedKeys m).Nodup

/-- The invariant of the sizes of a table with maximum load factor 0.5: the number of
buckets is 8 times a power of two and at least twice the number of pairs. -/
structure LoadInv (m : ExpandableHashMap K V) : Prop where
  load : m.m_max_load = 1 / 2
  size : ∃ j : Nat, m.m_size = 8 * 2 ^ j
  bound : 2 * m.m_num_pairs ≤ m.m_size

end ExpandableHashMap

/-- The sum of the distances of all Proceed commands of a list of commands. -/
def proceedTotal : List DeliveryCommand → ℚ
  | [] => 0
  | DeliveryCommand.Proceed _ _ distance :: rest => distance + proceedTotal rest
  | DeliveryCommand.Invalid :: rest => proceedTotal rest
  | DeliveryCommand.Deliver _ :: rest => proceedTotal rest
  | DeliveryCommand.Turn _ _ :: rest => proceedTotal rest
namespace ExpandableHashMap

variable {K V : Type} [DecidableEq K]

theorem bucketAt_set (map : List (Option (List (K × V)))) (b i : Nat) (x : List (K × V))
    (hb : b < map.length) :
    bucketAt (map.set b (some x)) i = if i = b then x else bucketAt map i := by
  unfold bucketAt
  simp only [List.getD_eq_getElem?_getD, List.getElem?_set]
  by_cases h : b = i
  · subst h; simp [hb]
  · have h2 : ¬ i = b := fun e => h e.symm
    simp [h, h2]

theorem bucketAt_replicate (n i : Nat) :
    bucketAt (List.replicate n (none : Option (List (K × V)))) i = [] := by
  unfold bucketAt
  simp only [List.getD_eq_getElem?_getD, List.getElem?_replicate]
  split <;> simp

theorem bucketAt_of_le (map : List (Option (List (K × V)))) (i : Nat) (h : map.length ≤ i) :
    bucketAt map i = [] := by
  unfold bucketAt
  simp [List.getD_eq_getElem?_getD, List.getElem?_eq_none h]

theorem Find_eq (hasher : K → Nat) (m : ExpandableHashMap K V) (key : K) :
    Find hasher m key = findInBucket key (bucketAt m.m_map (hasher key % m.m_map.length)) := by
  unfold Find bucketAt
  dsimp only
  split
  · rename_i b hb; rw [hb]; rfl
  · rename_i hb; rw [hb]; rfl

theorem findInBucket_append (k : K) (l1 l2 : List (K × V)) :
    findInBucket k (l1 ++ l2) = (findInBucket k l1).or (findInBucket k l2) := by
  induction l1 with
  | nil => simp [findInBucket]
  | cons p rest ih =>
    simp only [List.cons_append, findInBucket]
    split <;> simp [ih]

theorem findInBucket_eq_none (k : K) (l : List (K × V)) (h : ∀ p ∈ l, p.1 ≠ k) :
    findInBucket k l = none := by
  induction l with
  | nil => rfl
  | cons p rest ih =>
    have hp : p.1 ≠ k := h p (List.mem_cons_self _ _)
    simp only [findInBucket, hp, if_false]
    exact ih (fun q hq => h q (List.mem_cons_of_mem _ hq))

theorem findInBucket_filter (k : K) (P : K × V → Bool) (l : List (K × V))
    (h : ∀ p ∈ l, p.1 = k → P p = true) :
    findInBucket k (l.filter P) = findInBucket k l := by
  induction l with
  | nil => rfl
  | cons p rest ih =>
    have ih1 := ih (fun q hq => h q (List.mem_cons_of_mem _ hq))
    by_cases hk : p.1 = k
    · have hP : P p = true := h p (List.mem_cons_self _ _) hk
      simp [List.filter_cons, hP, findInBucket, hk]
    · by_cases hP : P p = true
      · simp [List.filter_cons, hP, findInBucket, hk, ih1]
      · simp [List.filter_cons, hP, findInBucket, hk, ih1]

theorem findInBucket_mem (k : K) (v : V) (l : List (K × V)) (h : findInBucket k l = some v) :
    (k, v) ∈ l := by
  induction l with
  | nil => simp [findInBucket] at h
  | cons p rest ih =>
    simp only [findInBucket] at h
    split at h
    · rename_i hk
      obtain ⟨a, b⟩ := p
      simp only at hk
      simp only [Option.some.injEq] at h
      subst hk; subst h
      exact List.mem_cons_self _ _
    · exact List.mem_cons_of_mem _ (ih h)

theorem mem_allPairs (map : List (Option (List (K × V)))) (p : K × V) :
    p ∈ allPairs map ↔ ∃ i, p ∈ bucketAt map i := by
  unfold allPairs
  induction map with
  | nil => simp [bucketAt]
  | cons b rest ih =>
    simp only [List.map_cons, List.flatten_cons, List.mem_append, ih]
    constructor
    · rintro (h | ⟨i, hi⟩)
      · exact ⟨0, by simpa [bucketAt] using h⟩
      · exact ⟨i + 1, by simpa [bucketAt] using hi⟩
    · rintro ⟨i, hi⟩
      cases i with
      | zero => left; simpa [bucketAt] using hi
      | succ j => right; exact ⟨j, by simpa [bucketAt] using hi⟩

/-- All pairs with key `k` lie in one bucket, so scanning everything is scanning it. -/
theorem findInBucket_allPairs (k : K) (b : Nat) (map : List (Option (List (K × V))))
    (h : ∀ i p, p ∈ bucketAt map i → p.1 = k → i = b) :
    findInBucket k (allPairs map) = findInBucket k (bucketAt map b) := by
  unfold allPairs
  induction map generalizing b with
  | nil => simp [bucketAt]
  | cons x rest ih =>
    simp only [List.map_cons, List.flatten_cons, findInBucket_append]
    cases b with
    | zero =>
      have hrest : findInBucket k (List.map (fun b => b.getD []) rest).flatten = none := by
        apply findInBucket_eq_none
        intro p hp hk
        have hp2 : p ∈ allPairs rest := hp
        rw [mem_allPairs] at hp2
        obtain ⟨i, hi⟩ := hp2
        have := h (i + 1) p (by simpa [bucketAt] using hi) hk
        omega
      rw [hrest]
      simp [bucketAt]
    | succ j =>
      have hx : findInBucket k (x.getD []) = none := by
        apply findInBucket_eq_none
        intro p hp hk
        have := h 0 p (by simpa [bucketAt] using hp) hk
        omega
      rw [hx]
      have := ih j (fun i p hp hk => by
        have := h (i + 1) p (by simpa [bucketAt] using hp) hk
        omega)
      simpa [bucketAt] using this

theorem Find_eq_allPairs (hasher : K → Nat) (m : ExpandableHashMap K V) (hm : WF hasher m)
    (key : K) : Find hasher m key = findInBucket key (allPairs m.m_map) := by
  rw [Find_eq, findInBucket_allPairs key (hasher key % m.m_map.length)]
  intro i p hp hk
  rw [← hm.placed i p hp, hk]

theorem Find_some_mem (hasher : K → Nat) (m : ExpandableHashMap K V) (key : K) (v : V)
    (h : Find hasher m key = some v) : (key, v) ∈ allPairs m.m_map := by
  rw [Find_eq] at h
  exact (mem_allPairs _ _).2 ⟨_, findInBucket_mem _ _ _ h⟩

end ExpandableHashMap
namespace ExpandableHashMap

variable {K V : Type} [DecidableEq K]

theorem findInBucket_upsert (k k1 : K) (v : V) (l : List (K × V)) :
    findInBucket k1 (upsertBucket k v l) = if k1 = k then some v else findInBucket k1 l := by
  unfold upsertBucket
  induction l with
  | nil =>
    by_cases h : k1 = k
    · simp [assignInBucket, findInBucket, h]
    · have h2 : ¬ k = k1 := fun e => h e.symm
      simp [assignInBucket, findInBucket, h, h2]
  | cons p rest ih =>
    by_cases hk : k = p.1
    · by_cases h : k1 = k
      · simp [assignInBucket, findInBucket, hk, h]
      · have h2 : ¬ p.1 = k1 := fun e => h (by rw [hk, e])
        have h3 : ¬ k1 = p.1 := fun e => h2 e.symm
        simp [assignInBucket, findInBucket, hk, h2, h3]
    · simp only [assignInBucket, hk, if_false]
      cases ha : assignInBucket k v rest with
      | none =>
        rw [ha] at ih
        simp only [Option.map_none', Option.getD_none, List.cons_append, findInBucket]
        simp only [Option.getD_none] at ih
        by_cases h1 : p.1 = k1
        · have h : ¬ k1 = k := fun e => hk (by rw [← e, h1])
          simp [h1, h]
        · simp [h1, ih]
      | some r =>
        rw [ha] at ih
        simp only [Option.map_some', Option.getD_some, findInBucket]
        simp only [Option.getD_some] at ih
        by_cases h1 : p.1 = k1
        · have h : ¬ k1 = k := fun e => hk (by rw [← e, h1])
          simp [h1, h]
        · simp [h1, ih]

theorem upsertBucket_keys (k : K) (v : V) (l : List (K × V)) :
    ∀ p ∈ upsertBucket k v l, p.1 = k ∨ ∃ q ∈ l, q.1 = p.1 := by
  unfold upsertBucket
  induction l with
  | nil => simp [assignInBucket]
  | cons p rest ih =>
    by_cases hk : k = p.1
    · simp only [assignInBucket, hk, if_true, Option.getD_some]
      intro q hq
      rcases List.mem_cons.1 hq with h | h
      · left; rw [h]
      · right; exact ⟨q, List.mem_cons_of_mem _ h, rfl⟩
    · simp only [assignInBucket, hk, if_false]
      cases ha : assignInBucket k v rest with
      | none =>
        rw [ha] at ih
        simp only [Option.getD_none] at ih
        simp only [Option.map_none', Option.getD_none, List.cons_append]
        intro q hq
        rcases List.mem_cons.1 hq with h | h
        · right; exact ⟨p, List.mem_cons_self _ _, by rw [h]⟩
        · rcases ih q h with h2 | ⟨q2, hq2, e⟩
          · left; exact h2
          · right; exact ⟨q2, List.mem_cons_of_mem _ hq2, e⟩
      | some r =>
        rw [ha] at ih
        simp only [Option.getD_some] at ih
        simp only [Option.map_some', Option.getD_some]
        intro q hq
        rcases List.mem_cons.1 hq with h | h
        · right; exact ⟨p, List.mem_cons_self _ _, by rw [h]⟩
        · rcases ih q h with h2 | ⟨q2, hq2, e⟩
          · left; exact h2
          · right; exact ⟨q2, List.mem_cons_of_mem _ hq2, e⟩

theorem AddPairToMap_false_fst (hasher : K → Nat) (map : List (Option (List (K × V))))
    (key : K) (val : V) :
    (AddPairToMap hasher map key val false).1
      = map.set (hasher key % map.length)
          (some (upsertBucket key val (bucketAt map (hasher key % map.length)))) := by
  unfold AddPairToMap bucketAt upsertBucket
  dsimp only
  split
  · rename_i bucket hb
    rw [hb]
    simp only [Bool.false_eq_true, if_false, Option.getD_some]
    cases assignInBucket key val bucket <;> rfl
  · rename_i hb
    rw [hb]
    simp [assignInBucket]

theorem AddPairToMap_true_fst (hasher : K → Nat) (map : List (Option (List (K × V))))
    (key : K) (val : V) :
    (AddPairToMap hasher map key val true).1
      = map.set (hasher key % map.length)
          (some (bucketAt map (hasher key % map.length) ++ [(key, val)])) := by
  unfold AddPairToMap bucketAt
  dsimp only
  split
  · rename_i bucket hb
    rw [hb]
    simp
  · rename_i hb
    rw [hb]
    simp

/-- The copying adds of the rehash loop, over a list of pairs. -/
theorem pushAll_spec (hasher : K → Nat) (ps : List (K × V)) :
    ∀ acc : List (Option (List (K × V))), 0 < acc.length →
      (ps.foldl (fun acc1 p => (AddPairToMap hasher acc1 p.1 p.2 true).1) acc).length = acc.length
      ∧ ∀ i, i < acc.length →
        bucketAt (ps.foldl (fun acc1 p => (AddPairToMap hasher acc1 p.1 p.2 true).1) acc) i
          = bucketAt acc i ++ ps.filter (fun p => decide (hasher p.1 % acc.length = i)) := by
  induction ps with
  | nil => intro acc _; simp
  | cons p rest ih =>
    intro acc hacc
    simp only [List.foldl_cons]
    have hb : hasher p.1 % acc.length < acc.length := Nat.mod_lt _ hacc
    have hlen : (AddPairToMap hasher acc p.1 p.2 true).1.length = acc.length := by
      rw [AddPairToMap_true_fst, List.length_set]
    obtain ⟨ih1, ih2⟩ := ih (AddPairToMap hasher acc p.1 p.2 true).1 (by rw [hlen]; exact hacc)
    refine ⟨by rw [ih1, hlen], ?_⟩
    intro i hi
    rw [ih2 i (by rw [hlen]; exact hi), hlen, AddPairToMap_true_fst, bucketAt_set _ _ _ _ hb]
    by_cases h : i = hasher p.1 % acc.length
    · have h2 : hasher p.1 % acc.length = i := h.symm
      simp [List.filter_cons, h2]
    · have h2 : ¬ hasher p.1 % acc.length = i := fun e => h e.symm
      simp [List.filter_cons, h, h2]

theorem rehash_eq (hasher : K → Nat) (old : List (Option (List (K × V)))) :
    ∀ new_map : List (Option (List (K × V))),
      rehash hasher old new_map
        = (allPairs old).foldl (fun acc1 p => (AddPairToMap hasher acc1 p.1 p.2 true).1) new_map := by
  unfold rehash allPairs
  induction old with
  | nil => intro new_map; rfl
  | cons b rest ih =>
    intro new_map
    simp only [List.foldl_cons, List.map_cons, List.flatten_cons, List.foldl_append]
    cases b with
    | none => simpa using ih new_map
    | some pairs => simpa using ih _

theorem rehash_spec (hasher : K → Nat) (old : List (Option (List (K × V)))) (n : Nat)
    (hn : 0 < n) :
    (rehash hasher old (List.replicate n none)).length = n
    ∧ ∀ i, i < n → bucketAt (rehash hasher old (List.replicate n none)) i
        = (allPairs old).filter (fun p => decide (hasher p.1 % n = i)) := by
  rw [rehash_eq]
  obtain ⟨h1, h2⟩ := pushAll_spec hasher (allPairs old) (List.replicate n none) (by simpa using hn)
  refine ⟨by simpa using h1, ?_⟩
  intro i hi
  have := h2 i (by simpa using hi)
  rw [this, bucketAt_replicate]
  simp

end ExpandableHashMap
namespace ExpandableHashMap

variable {K V : Type} [DecidableEq K]

theorem WF_init (hasher : K → Nat) (load : ℚ) : WF hasher (init load : ExpandableHashMap K V) := by
  refine ⟨by simp [init], by simp [init, INITIAL_SIZE], ?_⟩
  intro i p hp
  simp [init, bucketAt_replicate] at hp

theorem Find_init (hasher : K → Nat) (load : ℚ) (key : K) :
    Find hasher (init load : ExpandableHashMap K V) key = none := by
  rw [Find_eq]
  simp [init, bucketAt_replicate, findInBucket]

/-- The bucket vector after a non-copying add is well placed and looks up as an update. -/
theorem AddPairToMap_false_spec (hasher : K → Nat) (map : List (Option (List (K × V))))
    (hpos : 0 < map.length)
    (hplaced : ∀ i p, p ∈ bucketAt map i → hasher p.1 % map.length = i) (key : K) (val : V) :
    (AddPairToMap hasher map key val false).1.length = map.length
    ∧ (∀ i p, p ∈ bucketAt (AddPairToMap hasher map key val false).1 i →
        hasher p.1 % map.length = i)
    ∧ ∀ k1, findInBucket k1
          (bucketAt (AddPairToMap hasher map key val false).1 (hasher k1 % map.length))
        = if k1 = key then some val
          else findInBucket k1 (bucketAt map (hasher k1 % map.length)) := by
  have hb : hasher key % map.length < map.length := Nat.mod_lt _ hpos
  rw [AddPairToMap_false_fst]
  refine ⟨List.length_set _ _ _, ?_, ?_⟩
  · intro i p hp
    rw [bucketAt_set _ _ _ _ hb] at hp
    by_cases hi : i = hasher key % map.length
    · rw [if_pos hi] at hp
      rcases upsertBucket_keys key val _ p hp with h | ⟨q, hq, e⟩
      · rw [h, hi]
      · rw [← e, hi]; exact hplaced _ q hq
    · rw [if_neg hi] at hp
      exact hplaced i p hp
  · intro k1
    rw [bucketAt_set _ _ _ _ hb]
    by_cases hi : hasher k1 % map.length = hasher key % map.length
    · rw [if_pos hi, findInBucket_upsert, hi]
    · rw [if_neg hi]
      have : ¬ k1 = key := fun e => hi (by rw [e])
      rw [if_neg this]

theorem Associate_spec (hasher : K → Nat) (m : ExpandableHashMap K V) (hm : WF hasher m)
    (key : K) (value : V) :
    WF hasher (Associate hasher m key value)
    ∧ ∀ k1, Find hasher (Associate hasher m key value) k1
        = if k1 = key then some value else Find hasher m k1 := by
  obtain ⟨h1, h2, h3⟩ := AddPairToMap_false_spec hasher m.m_map hm.size_pos hm.placed key value
  have hmap1 : WF hasher ⟨(AddPairToMap hasher m.m_map key value false).1, m.m_num_pairs + 1,
      m.m_size, m.m_max_load⟩ :=
    ⟨by rw [h1]; exact hm.size_eq, by rw [h1]; exact hm.size_pos,
      by intro i p hp; rw [h1]; exact h2 i p hp⟩
  have hfind1 : ∀ k1, findInBucket k1 (allPairs (AddPairToMap hasher m.m_map key value false).1)
      = if k1 = key then some value else Find hasher m k1 := by
    intro k1
    rw [← Find_eq_allPairs hasher _ hmap1 k1, Find_eq, Find_eq]
    dsimp only
    rw [h1, h3 k1]
  unfold Associate
  cases hadd : AddPairToMap hasher m.m_map key value false with
  | mk map1 added =>
    have e1 : (AddPairToMap hasher m.m_map key value false).1 = map1 := by rw [hadd]
    rw [e1] at h1 h2 h3 hfind1
    have hfindb : ∀ k1, findInBucket k1 (bucketAt map1 (hasher k1 % map1.length))
        = if k1 = key then some value else Find hasher m k1 := by
      intro k1
      rw [h1, h3 k1, Find_eq]
    cases added with
    | false =>
      dsimp only
      refine ⟨⟨by rw [h1]; exact hm.size_eq, by rw [h1]; exact hm.size_pos,
        by intro i p hp; rw [h1]; exact h2 i p hp⟩, ?_⟩
      intro k1
      rw [Find_eq]
      exact hfindb k1
    | true =>
      dsimp only
      have hsz : 0 < 2 * m.m_size := by
        have := hm.size_pos; rw [hm.size_eq] at this; omega
      obtain ⟨r1, r2⟩ := rehash_spec hasher map1 (2 * m.m_size) hsz
      split
      · refine ⟨⟨by dsimp only; rw [r1]; omega, by dsimp only; rw [r1]; exact hsz, ?_⟩, ?_⟩
        · intro i p hp
          dsimp only at hp ⊢
          rw [r1]
          by_cases hi : i < 2 * m.m_size
          · rw [r2 i hi] at hp
            simpa using (List.mem_filter.1 hp).2
          · rw [bucketAt_of_le _ _ (by rw [r1]; omega)] at hp
            simp at hp
        · intro k1
          rw [Find_eq]
          dsimp only
          rw [r1, r2 _ (Nat.mod_lt _ hsz), findInBucket_filter, hfind1 k1]
          intro p _ hk
          simp [hk]
      · refine ⟨⟨by rw [h1]; exact hm.size_eq, by rw [h1]; exact hm.size_pos,
          by intro i p hp; rw [h1]; exact h2 i p hp⟩, ?_⟩
        intro k1
        rw [Find_eq]
        exact hfindb k1

theorem WF_Associate (hasher : K → Nat) (m : ExpandableHashMap K V) (hm : WF hasher m)
    (key : K) (value : V) : WF hasher (Associate hasher m key value) :=
  (Associate_spec hasher m hm key value).1

theorem Find_Associate_self (hasher : K → Nat) (m : ExpandableHashMap K V) (hm : WF hasher m)
    (key : K) (value : V) : Find hasher (Associate hasher m key value) key = some value := by
  rw [(Associate_spec hasher m hm key value).2 key, if_pos rfl]

theorem Find_Associate_ne (hasher : K → Nat) (m : ExpandableHashMap K V) (hm : WF hasher m)
    (key k1 : K) (value : V) (h : k1 ≠ key) :
    Find hasher (Associate hasher m key value) k1 = Find hasher m k1 := by
  rw [(Associate_spec hasher m hm key value).2 k1, if_neg h]

theorem findInBucket_modify (k k1 : K) (f : V → V) (l : List (K × V)) :
    findInBucket k1 (modifyInBucket k f l)
      = if k1 = k then (findInBucket k1 l).map f else findInBucket k1 l := by
  induction l with
  | nil => simp [modifyInBucket, findInBucket]
  | cons p rest ih =>
    by_cases hp : p.1 = k
    · by_cases h : k1 = k
      · simp [modifyInBucket, findInBucket, hp, h]
      · have h2 : ¬ k = k1 := fun e => h e.symm
        simp [modifyInBucket, findInBucket, hp, h, h2]
    · by_cases h1 : p.1 = k1
      · have h : ¬ k1 = k := fun e => hp (by rw [h1, e])
        simp [modifyInBucket, findInBucket, hp, h1, h]
      · simp [modifyInBucket, findInBucket, hp, h1, ih]

theorem modifyInBucket_keys (k : K) (f : V → V) (l : List (K × V)) :
    ∀ p ∈ modifyInBucket k f l, ∃ q ∈ l, q.1 = p.1 := by
  induction l with
  | nil => simp [modifyInBucket]
  | cons p rest ih =>
    intro q hq
    by_cases hp : p.1 = k
    · simp only [modifyInBucket, hp, if_true] at hq
      rcases List.mem_cons.1 hq with h | h
      · exact ⟨p, List.mem_cons_self _ _, by rw [h, hp]⟩
      · exact ⟨q, List.mem_cons_of_mem _ h, rfl⟩
    · simp only [modifyInBucket, hp, if_false] at hq
      rcases List.mem_cons.1 hq with h | h
      · exact ⟨p, List.mem_cons_self _ _, by rw [h]⟩
      · obtain ⟨q2, hq2, e⟩ := ih q h
        exact ⟨q2, List.mem_cons_of_mem _ hq2, e⟩

theorem modifyFound_spec (hasher : K → Nat) (m : ExpandableHashMap K V) (hm : WF hasher m)
    (key : K) (f : V → V) :
    WF hasher (modifyFound hasher m key f)
    ∧ ∀ k1, Find hasher (modifyFound hasher m key f) k1
        = if k1 = key then (Find hasher m k1).map f else Find hasher m k1 := by
  have hb : hasher key % m.m_map.length < m.m_map.length := Nat.mod_lt _ hm.size_pos
  unfold modifyFound
  dsimp only
  split
  · rename_i bucket hbk
    have hbucket : bucketAt m.m_map (hasher key % m.m_map.length) = bucket := by
      unfold bucketAt; rw [hbk]; rfl
    refine ⟨⟨by dsimp only; rw [List.length_set]; exact hm.size_eq,
      by dsimp only; rw [List.length_set]; exact hm.size_pos, ?_⟩, ?_⟩
    · intro i p hp
      dsimp only at hp ⊢
      rw [List.length_set]
      rw [bucketAt_set _ _ _ _ hb] at hp
      by_cases hi : i = hasher key % m.m_map.length
      · rw [if_pos hi] at hp
        obtain ⟨q, hq, e⟩ := modifyInBucket_keys key f bucket p hp
        rw [← e, hi]
        exact hm.placed _ q (by rw [hbucket]; exact hq)
      · rw [if_neg hi] at hp
        exact hm.placed i p hp
    · intro k1
      rw [Find_eq, Find_eq]
      dsimp only
      rw [List.length_set, bucketAt_set _ _ _ _ hb]
      by_cases hi : hasher k1 % m.m_map.length = hasher key % m.m_map.length
      · rw [if_pos hi, findInBucket_modify, hi, hbucket]
      · rw [if_neg hi]
        have : ¬ k1 = key := fun e => hi (by rw [e])
        rw [if_neg this]
  · rename_i hbk
    refine ⟨hm, ?_⟩
    intro k1
    by_cases h : k1 = key
    · rw [if_pos h, h]
      have : Find hasher m key = none := by
        unfold Find; dsimp only; rw [hbk]
      rw [this]; rfl
    · rw [if_neg h]

end ExpandableHashMap
section StreetMapLemmas

variable {Coord : Type} [LinearOrder Coord]

theorem AppendSegToMap_spec (hasher : Coord → Nat) (sm : StreetMapImpl Coord)
    (hsm : ExpandableHashMap.WF hasher sm.m_coord_seg_map) (coord : Coord)
    (seg : StreetSegment Coord) (hseg : seg.start = coord) :
    ExpandableHashMap.WF hasher (AppendSegToMap hasher sm coord seg).m_coord_seg_map
    ∧ ∀ c, GetSegmentsThatStartWith hasher (AppendSegToMap hasher sm coord seg) c
        = if c = coord then some (segmentsAt hasher sm c ++ [seg])
          else GetSegmentsThatStartWith hasher sm c := by
  unfold AppendSegToMap GetSegmentsThatStartWith segmentsAt GetSegmentsThatStartWith
  cases hf : ExpandableHashMap.Find hasher sm.m_coord_seg_map coord with
  | some segs =>
    dsimp only
    obtain ⟨h1, h2⟩ := ExpandableHashMap.modifyFound_spec hasher sm.m_coord_seg_map hsm coord
      (fun segs => segs ++ [seg])
    refine ⟨h1, ?_⟩
    intro c
    rw [h2 c]
    by_cases hc : c = coord
    · rw [if_pos hc, if_pos hc, hc, hf]; rfl
    · rw [if_neg hc, if_neg hc]
  | none =>
    dsimp only
    obtain ⟨h1, h2⟩ := ExpandableHashMap.Associate_spec hasher sm.m_coord_seg_map hsm seg.start
      [seg]
    refine ⟨h1, ?_⟩
    intro c
    rw [h2 c, hseg]
    by_cases hc : c = coord
    · rw [if_pos hc, if_pos hc, hc, hf]; rfl
    · rw [if_neg hc, if_neg hc]

/-- The effect of one segment line on the lookups of the map. -/
theorem loadSegment_spec (hasher : Coord → Nat) (name : String) (sm : StreetMapImpl Coord)
    (hsm : ExpandableHashMap.WF hasher sm.m_coord_seg_map) (line : Coord × Coord) :
    ExpandableHashMap.WF hasher (loadSegment hasher name sm line).m_coord_seg_map
    ∧ (∀ c, (GetSegmentsThatStartWith hasher sm c).isSome = true →
        (GetSegmentsThatStartWith hasher (loadSegment hasher name sm line) c).isSome = true)
    ∧ (GetSegmentsThatStartWith hasher (loadSegment hasher name sm line) line.1).isSome = true
    ∧ (GetSegmentsThatStartWith hasher (loadSegment hasher name sm line) line.2).isSome = true
    ∧ (∀ c s, s ∈ segmentsAt hasher (loadSegment hasher name sm line) c →
        s ∈ segmentsAt hasher sm c ∨ (s = ⟨line.1, line.2, name⟩ ∧ c = line.1)
          ∨ (s = ⟨line.2, line.1, name⟩ ∧ c = line.2))
    ∧ (∀ c s, s ∈ segmentsAt hasher sm c →
        s ∈ segmentsAt hasher (loadSegment hasher name sm line) c)
    ∧ (⟨line.1, line.2, name⟩ : StreetSegment Coord)
        ∈ segmentsAt hasher (loadSegment hasher name sm line) line.1
    ∧ (⟨line.2, line.1, name⟩ : StreetSegment Coord)
        ∈ segmentsAt hasher (loadSegment hasher name sm line) line.2 := by
  obtain ⟨a, b⟩ := line
  unfold loadSegment
  dsimp only
  obtain ⟨w1, f1⟩ := AppendSegToMap_spec hasher sm hsm a ⟨a, b, name⟩ rfl
  obtain ⟨w2, f2⟩ := AppendSegToMap_spec hasher _ w1 b ⟨b, a, name⟩ rfl
  have g1 : ∀ c, segmentsAt hasher (AppendSegToMap hasher sm a ⟨a, b, name⟩) c
      = if c = a then segmentsAt hasher sm c ++ [⟨a, b, name⟩] else segmentsAt hasher sm c := by
    intro c
    unfold segmentsAt
    rw [f1 c]
    split <;> rfl
  have g2 : ∀ c, segmentsAt hasher
      (AppendSegToMap hasher (AppendSegToMap hasher sm a ⟨a, b, name⟩) b ⟨b, a, name⟩) c
      = if c = b then segmentsAt hasher (AppendSegToMap hasher sm a ⟨a, b, name⟩) c
            ++ [⟨b, a, name⟩]
        else segmentsAt hasher (AppendSegToMap hasher sm a ⟨a, b, name⟩) c := by
    intro c
    unfold segmentsAt
    rw [f2 c]
    split <;> rfl
  refine ⟨w2, ?_, ?_, ?_, ?_, ?_, ?_, ?_⟩
  · intro c hc
    rw [f2 c]
    split
    · rfl
    · rw [f1 c]
      split
      · rfl
      · exact hc
  · rw [f2 a]
    split
    · rfl
    · rw [f1 a, if_pos rfl]; rfl
  · rw [f2 b, if_pos rfl]; rfl
  · intro c s hs
    rw [g2 c] at hs
    by_cases hb : c = b
    · rw [if_pos hb, List.mem_append, g1 c] at hs
      rcases hs with hs | hs
      · by_cases ha : c = a
        · rw [if_pos ha, List.mem_append] at hs
          rcases hs with hs | hs
          · exact Or.inl hs
          · exact Or.inr (Or.inl ⟨by simpa using hs, ha⟩)
        · rw [if_neg ha] at hs
          exact Or.inl hs
      · exact Or.inr (Or.inr ⟨by simpa using hs, hb⟩)
    · rw [if_neg hb, g1 c] at hs
      by_cases ha : c = a
      · rw [if_pos ha, List.mem_append] at hs
        rcases hs with hs | hs
        · exact Or.inl hs
        · exact Or.inr (Or.inl ⟨by simpa using hs, ha⟩)
      · rw [if_neg ha] at hs
        exact Or.inl hs
  · intro c s hs
    have h1 : s ∈ segmentsAt hasher (AppendSegToMap hasher sm a ⟨a, b, name⟩) c := by
      rw [g1 c]
      split
      · exact List.mem_append_left _ hs
      · exact hs
    rw [g2 c]
    split
    · exact List.mem_append_left _ h1
    · exact h1
  · have h1 : (⟨a, b, name⟩ : StreetSegment Coord)
        ∈ segmentsAt hasher (AppendSegToMap hasher sm a ⟨a, b, name⟩) a := by
      rw [g1 a, if_pos rfl]
      exact List.mem_append_right _ (List.mem_singleton_self _)
    rw [g2 a]
    split
    · exact List.mem_append_left _ h1
    · exact h1
  · rw [g2 b, if_pos rfl]
    exact List.mem_append_right _ (List.mem_singleton_self _)

theorem mem_segmentsAt (hasher : Coord → Nat) (sm : StreetMapImpl Coord) (c : Coord)
    (segs : List (StreetSegment Coord)) (h : GetSegmentsThatStartWith hasher sm c = some segs) :
    segmentsAt hasher sm c = segs := by
  unfold segmentsAt; rw [h]; rfl

/-- Induction over the segment lines that `Load` processes. -/
theorem loadInto_induction (hasher : Coord → Nat) (P : StreetMapImpl Coord → Prop)
    (records : List (StreetRecord Coord))
    (hstep : ∀ sm r line, r ∈ records → line ∈ r.segs → P sm →
      P (loadSegment hasher r.name sm line)) :
    ∀ sm, P sm → P (loadInto hasher sm records) := by
  unfold loadInto
  induction records with
  | nil => intro sm h; exact h
  | cons r rest ih =>
    intro sm h
    simp only [List.foldl_cons]
    apply ih (fun sm1 r1 line hr hl hp => hstep sm1 r1 line (List.mem_cons_of_mem _ hr) hl hp)
    have inner : ∀ (lines : List (Coord × Coord)), (∀ l ∈ lines, l ∈ r.segs) → ∀ sm1, P sm1 →
        P (lines.foldl (loadSegment hasher r.name) sm1) := by
      intro lines
      induction lines with
      | nil => intro _ sm1 h1; exact h1
      | cons l ls ihl =>
        intro hsub sm1 h1
        simp only [List.foldl_cons]
        exact ihl (fun x hx => hsub x (List.mem_cons_of_mem _ hx)) _
          (hstep sm1 r l (List.mem_cons_self _ _) (hsub l (List.mem_cons_self _ _)) h1)
    exact inner r.segs (fun _ h => h) sm h

theorem GraphOK_init (hasher : Coord → Nat) : GraphOK hasher (StreetMapImpl.init : StreetMapImpl Coord) := by
  refine ⟨ExpandableHashMap.WF_init hasher _, ?_, ?_⟩
  · intro c segs h
    simp [GetSegmentsThatStartWith, StreetMapImpl.init, ExpandableHashMap.Find_init] at h
  · intro c segs h
    simp [GetSegmentsThatStartWith, StreetMapImpl.init, ExpandableHashMap.Find_init] at h

theorem GraphOK_loadSegment (hasher : Coord → Nat) (name : String) (sm : StreetMapImpl Coord)
    (line : Coord × Coord) (h : GraphOK hasher sm) :
    GraphOK hasher (loadSegment hasher name sm line) := by
  obtain ⟨w, mono, ha, hb, hmem, _, _, _⟩ := loadSegment_spec hasher name sm h.wf line
  refine ⟨w, ?_, ?_⟩
  · intro c segs hc s hs
    rw [← mem_segmentsAt hasher _ c segs hc] at hs
    rcases hmem c s hs with h1 | ⟨h1, h2⟩ | ⟨h1, h2⟩
    · unfold segmentsAt at h1
      cases hg : GetSegmentsThatStartWith hasher sm c with
      | none => rw [hg] at h1; simp at h1
      | some old => rw [hg] at h1; exact h.keyed c old hg s h1
    · rw [h1, h2]
    · rw [h1, h2]
  · intro c segs hc s hs
    rw [← mem_segmentsAt hasher _ c segs hc] at hs
    rcases hmem c s hs with h1 | ⟨h1, _⟩ | ⟨h1, _⟩
    · unfold segmentsAt at h1
      cases hg : GetSegmentsThatStartWith hasher sm c with
      | none => rw [hg] at h1; simp at h1
      | some old => rw [hg] at h1; exact mono _ (h.closed c old hg s h1)
    · rw [h1]; exact hb
    · rw [h1]; exact ha

/-- Every map built by `Load` satisfies the graph facts. -/
theorem GraphOK_LoadRecords (hasher : Coord → Nat) (records : List (StreetRecord Coord)) :
    GraphOK hasher (LoadRecords hasher records) :=
  loadInto_induction hasher (GraphOK hasher) records
    (fun sm r line _ _ h => GraphOK_loadSegment hasher r.name sm line h) _ (GraphOK_init hasher)

/-- Every segment of a map built by `Load` comes from a segment line of a record, in one
of the two directions, and carries the name of that record. -/
theorem LoadRecords_origin (hasher : Coord → Nat) (records : List (StreetRecord Coord))
    (c : Coord) (s : StreetSegment Coord)
    (hs : s ∈ segmentsAt hasher (LoadRecords hasher records) c) :
    ∃ r ∈ records, s.name = r.name ∧ ((s.start, s.end_) ∈ r.segs ∨ (s.end_, s.start) ∈ r.segs) := by
  have key := loadInto_induction hasher
    (fun sm => ExpandableHashMap.WF hasher sm.m_coord_seg_map ∧
      ∀ c s, s ∈ segmentsAt hasher sm c →
      ∃ r ∈ records, s.name = r.name ∧ ((s.start, s.end_) ∈ r.segs ∨ (s.end_, s.start) ∈ r.segs))
    records
    (fun sm r line hr hl h => by
      obtain ⟨w, _, _, _, hmem, _, _, _⟩ := loadSegment_spec hasher r.name sm h.1 line
      refine ⟨w, ?_⟩
      intro c s hs
      rcases hmem c s hs with h1 | ⟨h1, _⟩ | ⟨h1, _⟩
      · exact h.2 c s h1
      · exact ⟨r, hr, by rw [h1], Or.inl (by rw [h1]; exact hl)⟩
      · exact ⟨r, hr, by rw [h1], Or.inr (by rw [h1]; exact hl)⟩)
    StreetMapImpl.init
    ⟨ExpandableHashMap.WF_init hasher _, by
      intro c s hs
      simp [segmentsAt, GetSegmentsThatStartWith, StreetMapImpl.init,
        ExpandableHashMap.Find_init] at hs⟩
  exact key.2 c s hs

end StreetMapLemmas
section RouterLemmas

variable {Coord : Type} [LinearOrder Coord]

theorem IsChain_append (hasher : Coord → Nat) (sm : StreetMapImpl Coord)
    (s : StreetSegment Coord) (hs : InGraph hasher sm s) :
    ∀ (route : List (StreetSegment Coord)) (a : Coord),
      IsChain hasher sm a s.start route → IsChain hasher sm a s.end_ (route ++ [s]) := by
  intro route
  induction route with
  | nil =>
    intro a h
    simp only [IsChain] at h
    simp only [List.nil_append, IsChain]
    exact ⟨h.symm, hs, trivial⟩
  | cons x rest ih =>
    intro a h
    simp only [IsChain] at h
    simp only [List.cons_append, IsChain]
    exact ⟨h.1, h.2.1, ih _ h.2.2⟩

theorem IsChain_concat (hasher : Coord → Nat) (sm : StreetMapImpl Coord) :
    ∀ (r1 r2 : List (StreetSegment Coord)) (a b c : Coord),
      IsChain hasher sm a b r1 → IsChain hasher sm b c r2 → IsChain hasher sm a c (r1 ++ r2) := by
  intro r1
  induction r1 with
  | nil =>
    intro r2 a b c h1 h2
    simp only [IsChain] at h1
    rw [h1]; simpa using h2
  | cons x rest ih =>
    intro r2 a b c h1 h2
    simp only [IsChain] at h1
    simp only [List.cons_append, IsChain]
    exact ⟨h1.1, h1.2.1, ih r2 _ b c h1.2.2 h2⟩

theorem topEntry_mem : ∀ (q : List (ℚ × Coord)) (top : ℚ × Coord),
    topEntry q = some top → top ∈ q := by
  intro q
  induction q with
  | nil => intro top h; simp [topEntry] at h
  | cons p rest ih =>
    intro top h
    simp only [topEntry] at h
    cases hr : topEntry rest with
    | none =>
      rw [hr] at h
      simp only [Option.some.injEq] at h
      rw [← h]; exact List.mem_cons_self _ _
    | some q =>
      rw [hr] at h
      simp only at h
      split at h
      · simp only [Option.some.injEq] at h
        rw [← h]; exact List.mem_cons_of_mem _ (ih q hr)
      · simp only [Option.some.injEq] at h
        rw [← h]; exact List.mem_cons_self _ _

theorem topEntry_eq_none : ∀ (q : List (ℚ × Coord)), topEntry q = none → q = [] := by
  intro q h
  cases q with
  | nil => rfl
  | cons p rest =>
    simp only [topEntry] at h
    cases hr : topEntry rest with
    | none => rw [hr] at h; simp at h
    | some q =>
      rw [hr] at h
      simp only at h
      split at h <;> simp at h

theorem PopTop_of_top (q : List (ℚ × Coord)) (top : ℚ × Coord) (h : topEntry q = some top) :
    PopTop q = q.erase top := by
  unfold PopTop; rw [h]

/-- The effect of relaxing one segment, in terms of lookups. -/
theorem relaxSegment_spec (hasher : Coord → Nat) (dist : Coord → Coord → ℚ)
    (currPos end_ : Coord) (st : SearchState Coord) (nextSeg : StreetSegment Coord)
    (hwc : ExpandableHashMap.WF hasher st.move_cost)
    (hwp : ExpandableHashMap.WF hasher st.prev_location) (c : ℚ)
    (hc : ExpandableHashMap.Find hasher st.move_cost currPos = some c) :
    (relaxSegment hasher dist currPos end_ st nextSeg = some st
      ∧ ∃ old, ExpandableHashMap.Find hasher st.move_cost nextSeg.end_ = some old
          ∧ ¬ c + dist currPos nextSeg.end_ < old)
    ∨ ∃ st1, relaxSegment hasher dist currPos end_ st nextSeg = some st1
        ∧ (∀ old, ExpandableHashMap.Find hasher st.move_cost nextSeg.end_ = some old →
            c + dist currPos nextSeg.end_ < old)
        ∧ ExpandableHashMap.WF hasher st1.move_cost
        ∧ ExpandableHashMap.WF hasher st1.prev_location
        ∧ (∀ k, ExpandableHashMap.Find hasher st1.move_cost k
            = if k = nextSeg.end_ then some (c + dist currPos nextSeg.end_)
              else ExpandableHashMap.Find hasher st.move_cost k)
        ∧ (∀ k, ExpandableHashMap.Find hasher st1.prev_location k
            = if k = nextSeg.end_ then some ⟨currPos, nextSeg.name⟩
              else ExpandableHashMap.Find hasher st.prev_location k)
        ∧ st1.search_space
            = (c + dist currPos nextSeg.end_ + dist currPos end_, nextSeg.end_) :: st.search_space
        ∧ st1.next_moves = st.next_moves := by
  unfold relaxSegment
  simp only [hc]
  cases hold : ExpandableHashMap.Find hasher st.move_cost nextSeg.end_ with
  | none =>
    right
    simp only [if_true]
    refine ⟨_, rfl, by intro old h; simp at h, ?_, ?_, ?_, ?_, rfl, rfl⟩
    · exact ExpandableHashMap.WF_Associate hasher _ hwc _ _
    · exact ExpandableHashMap.WF_Associate hasher _ hwp _ _
    · intro k; exact (ExpandableHashMap.Associate_spec hasher _ hwc _ _).2 k
    · intro k; exact (ExpandableHashMap.Associate_spec hasher _ hwp _ _).2 k
  | some old =>
    by_cases hlt : c + dist currPos nextSeg.end_ < old
    · right
      simp only [hlt, decide_True, if_true]
      refine ⟨_, rfl, ?_, ?_, ?_, ?_, ?_, rfl, rfl⟩
      · intro o h; simp only [Option.some.injEq] at h; rw [← h]; exact hlt
      · exact ExpandableHashMap.WF_Associate hasher _ hwc _ _
      · exact ExpandableHashMap.WF_Associate hasher _ hwp _ _
      · intro k; exact (ExpandableHashMap.Associate_spec hasher _ hwc _ _).2 k
      · intro k; exact (ExpandableHashMap.Associate_spec hasher _ hwp _ _).2 k
    · left
      simp only [hlt, decide_False, Bool.false_eq_true, if_false, true_and]
      exact ⟨old, rfl, hlt⟩

end RouterLemmas
section RouterMeasure

variable {Coord : Type} [LinearOrder Coord]

theorem length_filter_lt {α : Type} (p q : α → Bool) :
    ∀ (l : List α), (∀ x ∈ l, p x = true → q x = true) →
      (∃ v ∈ l, q v = true ∧ p v = false) → (l.filter p).length < (l.filter q).length := by
  intro l
  induction l with
  | nil => intro _ h; obtain ⟨v, hv, _⟩ := h; simp at hv
  | cons a rest ih =>
    intro hpq hex
    have hle : (rest.filter p).length ≤ (rest.filter q).length := by
      rw [← List.countP_eq_length_filter, ← List.countP_eq_length_filter]
      exact List.countP_mono_left (fun x hx => hpq x (List.mem_cons_of_mem _ hx))
    obtain ⟨v, hv, hqv, hpv⟩ := hex
    rcases List.mem_cons.1 hv with h | h
    · subst h
      simp only [List.filter_cons, hqv, hpv, if_true, List.length_cons]
      simp only [Bool.false_eq_true, if_false]
      omega
    · have ih1 := ih (fun x hx => hpq x (List.mem_cons_of_mem _ hx)) ⟨v, h, hqv, hpv⟩
      have ha := hpq a (List.mem_cons_self _ _)
      simp only [List.filter_cons]
      cases hpa : p a with
      | true =>
        rw [ha hpa]
        simp only [if_true, List.length_cons]
        omega
      | false =>
        cases hqa : q a with
        | true => simp only [if_true, Bool.false_eq_true, if_false, List.length_cons]; omega
        | false => simp only [Bool.false_eq_true, if_false]; exact ih1

theorem mem_mapKeys (hasher : Coord → Nat) (sm : StreetMapImpl Coord) (v : Coord)
    (h : (GetSegmentsThatStartWith hasher sm v).isSome = true) : v ∈ mapKeys sm := by
  unfold GetSegmentsThatStartWith at h
  obtain ⟨segs, hs⟩ := Option.isSome_iff_exists.1 h
  unfold mapKeys
  exact List.mem_map.2 ⟨(v, segs), ExpandableHashMap.Find_some_mem hasher _ v segs hs, rfl⟩

/-- A first cost for a map coordinate lowers the number of coordinates without cost. -/
theorem unknownCount_lt (hasher : Coord → Nat) (sm : StreetMapImpl Coord)
    (st st1 : SearchState Coord) (v : Coord) (x : ℚ)
    (hcost : ∀ k, ExpandableHashMap.Find hasher st1.move_cost k
      = if k = v then some x else ExpandableHashMap.Find hasher st.move_cost k)
    (hv : ExpandableHashMap.Find hasher st.move_cost v = none) (hmem : v ∈ mapKeys sm) :
    unknownCount hasher sm st1 < unknownCount hasher sm st := by
  unfold unknownCount
  apply length_filter_lt
  · intro k _ hk
    rw [hcost k] at hk
    by_cases h : k = v
    · rw [if_pos h] at hk; simp at hk
    · rw [if_neg h] at hk; exact hk
  · refine ⟨v, hmem, by rw [hv]; rfl, ?_⟩
    rw [hcost v, if_pos rfl]; rfl

theorem unknownCount_eq (hasher : Coord → Nat) (sm : StreetMapImpl Coord)
    (st st1 : SearchState Coord) (v : Coord) (x old : ℚ)
    (hcost : ∀ k, ExpandableHashMap.Find hasher st1.move_cost k
      = if k = v then some x else ExpandableHashMap.Find hasher st.move_cost k)
    (hv : ExpandableHashMap.Find hasher st.move_cost v = some old) :
    unknownCount hasher sm st1 = unknownCount hasher sm st := by
  unfold unknownCount
  congr 1
  apply List.filter_congr
  intro k _
  rw [hcost k]
  by_cases h : k = v
  · rw [if_pos h, h, hv]; rfl
  · rw [if_neg h]

/-- A strictly better cost for a map coordinate lowers the total of the costs. -/
theorem costTotal_lt (hasher : Coord → Nat) (sm : StreetMapImpl Coord) (N : Nat)
    (st st1 : SearchState Coord) (v : Coord) (x old : ℚ)
    (hcost : ∀ k, ExpandableHashMap.Find hasher st1.move_cost k
      = if k = v then some x else ExpandableHashMap.Find hasher st.move_cost k)
    (hv : ExpandableHashMap.Find hasher st.move_cost v = some old) (hmem : v ∈ mapKeys sm)
    (hlt : x < old) (hN : 0 < N) (hx : ∃ n : Nat, x * N = n) (hold : ∃ n : Nat, old * N = n) :
    costTotal hasher sm N st1 < costTotal hasher sm N st := by
  unfold costTotal
  obtain ⟨n1, h1⟩ := hx
  obtain ⟨n2, h2⟩ := hold
  have hNq : (0 : ℚ) < (N : ℚ) := by exact_mod_cast hN
  have hn : n1 < n2 := by
    have : (n1 : ℚ) < (n2 : ℚ) := by
      rw [← h1, ← h2]; exact mul_lt_mul_of_pos_right hlt hNq
    exact_mod_cast this
  apply List.sum_lt_sum
  · intro k _
    rw [hcost k]
    by_cases h : k = v
    · rw [if_pos h, h, hv]
      simp only [Option.getD_some, h1, h2, Nat.floor_natCast]
      omega
    · rw [if_neg h]
  · refine ⟨v, hmem, ?_⟩
    rw [hcost v, if_pos rfl, hv]
    simp only [Option.getD_some, h1, h2, Nat.floor_natCast]
    exact hn

end RouterMeasure
section RouterInvariant

variable {Coord : Type} [LinearOrder Coord]

theorem segmentsAt_keyed (hasher : Coord → Nat) (sm : StreetMapImpl Coord)
    (hG : GraphOK hasher sm) (c : Coord) (s : StreetSegment Coord)
    (hs : s ∈ segmentsAt hasher sm c) :
    s.start = c ∧ InGraph hasher sm s
      ∧ (GetSegmentsThatStartWith hasher sm s.end_).isSome = true := by
  unfold segmentsAt at hs
  cases hg : GetSegmentsThatStartWith hasher sm c with
  | none => rw [hg] at hs; simp at hs
  | some segs =>
    rw [hg] at hs
    have hk := hG.keyed c segs hg s hs
    refine ⟨hk, ?_, hG.closed c segs hg s hs⟩
    unfold InGraph segmentsAt
    rw [hk, hg]; exact hs

/-- Relaxing one segment that leaves `currPos` keeps the invariant of the search loop. -/
theorem relaxSegment_inv (hasher : Coord → Nat) (dist : Coord → Coord → ℚ)
    (sm : StreetMapImpl Coord) (start end_ : Coord) (N : Nat) (busy : Coord → Prop)
    (st : SearchState Coord) (hG : GraphOK hasher sm) (hN : 0 < N)
    (hnn : ∀ s, InGraph hasher sm s → 0 ≤ dist s.start s.end_)
    (hsc : ∀ s, InGraph hasher sm s → ∃ n : Nat, dist s.start s.end_ * N = n)
    (hinv : SearchInv hasher sm start end_ N busy st) (currPos : Coord)
    (hcur : (ExpandableHashMap.Find hasher st.move_cost currPos).isSome = true)
    (nextSeg : StreetSegment Coord) (hseg : nextSeg ∈ segmentsAt hasher sm currPos) :
    ∃ st1, relaxSegment hasher dist currPos end_ st nextSeg = some st1
      ∧ SearchInv hasher sm start end_ N busy st1
      ∧ (ExpandableHashMap.Find hasher st1.move_cost nextSeg.end_).isSome = true
      ∧ (∀ k, (ExpandableHashMap.Find hasher st.move_cost k).isSome = true →
          (ExpandableHashMap.Find hasher st1.move_cost k).isSome = true)
      ∧ MeasureLE hasher sm N st1 st
      ∧ st1.next_moves = st.next_moves := by
  obtain ⟨c, hc⟩ := Option.isSome_iff_exists.1 hcur
  obtain ⟨hstart, hin, hentry⟩ := segmentsAt_keyed hasher sm hG currPos nextSeg hseg
  have hw : 0 ≤ dist currPos nextSeg.end_ := by
    have := hnn nextSeg hin; rwa [hstart] at this
  have hws : ∃ n : Nat, dist currPos nextSeg.end_ * N = n := by
    have := hsc nextSeg hin; rwa [hstart] at this
  have hc0 : 0 ≤ c := hinv.cost_nonneg currPos c hc
  rcases relaxSegment_spec hasher dist currPos end_ st nextSeg hinv.wf_cost hinv.wf_prev c hc
    with ⟨heq, old, hold, _⟩ | ⟨st1, heq, himp, hwc, hwp, hcost, hprev, hq, hnm⟩
  · refine ⟨st, heq, hinv, by rw [hold]; rfl, fun k h => h, Or.inr (Or.inr ⟨rfl, rfl, rfl⟩), rfl⟩
  · have hmono : ∀ k, (ExpandableHashMap.Find hasher st.move_cost k).isSome = true →
        (ExpandableHashMap.Find hasher st1.move_cost k).isSome = true := by
      intro k hk
      rw [hcost k]
      split
      · rfl
      · exact hk
    have hqmono : ∀ e ∈ st.search_space, e ∈ st1.search_space := by
      intro e he; rw [hq]; exact List.mem_cons_of_mem _ he
    have hvq : ∃ r, (r, nextSeg.end_) ∈ st1.search_space :=
      ⟨_, by rw [hq]; exact List.mem_cons_self _ _⟩
    have hv_start : nextSeg.end_ ≠ start := by
      intro e
      have := himp 0 (by rw [e]; exact hinv.cost_start)
      linarith
    have hu_v : currPos ≠ nextSeg.end_ := by
      intro e
      have := himp c (by rw [← e]; exact hc)
      linarith
    have hcost_v : ExpandableHashMap.Find hasher st1.move_cost nextSeg.end_
        = some (c + dist currPos nextSeg.end_) := by rw [hcost, if_pos rfl]
    have hcost_ne : ∀ k, k ≠ nextSeg.end_ → ExpandableHashMap.Find hasher st1.move_cost k
        = ExpandableHashMap.Find hasher st.move_cost k := by
      intro k hk; rw [hcost, if_neg hk]
    have hprev_ne : ∀ k, k ≠ nextSeg.end_ → ExpandableHashMap.Find hasher st1.prev_location k
        = ExpandableHashMap.Find hasher st.prev_location k := by
      intro k hk; rw [hprev, if_neg hk]
    have hmeasure : MeasureLE hasher sm N st1 st := by
      have hmem : nextSeg.end_ ∈ mapKeys sm := mem_mapKeys hasher sm _ hentry
      cases hold : ExpandableHashMap.Find hasher st.move_cost nextSeg.end_ with
      | none => exact Or.inl (unknownCount_lt hasher sm st st1 _ _ hcost hold hmem)
      | some old =>
        refine Or.inr (Or.inl ⟨unknownCount_eq hasher sm st st1 _ _ old hcost hold, ?_⟩)
        refine costTotal_lt hasher sm N st st1 _ _ old hcost hold hmem (himp old hold) hN ?_
          (hinv.scaled _ old hold)
        obtain ⟨n1, h1⟩ := hinv.scaled currPos c hc
        obtain ⟨n2, h2⟩ := hws
        exact ⟨n1 + n2, by rw [add_mul, h1, h2]; push_cast; rfl⟩
    refine ⟨st1, heq, ?_, by rw [hcost_v]; rfl, hmono, hmeasure, hnm⟩
    refine ⟨hwc, hwp, ?_, ?_, ?_, ?_, ?_, ?_, ?_, ?_, ?_, ?_, ?_⟩
    · rw [hcost_ne start (Ne.symm hv_start)]; exact hinv.cost_start
    · obtain ⟨p, hp, hpn⟩ := hinv.prev_start
      exact ⟨p, by rw [hprev_ne start (Ne.symm hv_start)]; exact hp, hpn⟩
    · intro v x hx
      rw [hcost v] at hx
      by_cases hv : v = nextSeg.end_
      · rw [if_pos hv] at hx
        simp only [Option.some.injEq] at hx
        rw [← hx]; linarith
      · rw [if_neg hv] at hx
        exact hinv.cost_nonneg v x hx
    · intro v x hx
      rw [hcost v] at hx
      by_cases hv : v = nextSeg.end_
      · rw [if_pos hv] at hx
        simp only [Option.some.injEq] at hx
        obtain ⟨n1, h1⟩ := hinv.scaled currPos c hc
        obtain ⟨n2, h2⟩ := hws
        exact ⟨n1 + n2, by rw [← hx, add_mul, h1, h2]; push_cast; rfl⟩
      · rw [if_neg hv] at hx
        exact hinv.scaled v x hx
    · intro v hv
      rw [hprev v]
      by_cases hvv : v = nextSeg.end_
      · rw [if_pos hvv]; rfl
      · rw [if_neg hvv]
        rw [hcost_ne v hvv] at hv
        exact hinv.prev_some v hv
    · intro e he
      rw [hq] at he
      rcases List.mem_cons.1 he with h | h
      · rw [h]; simp only; rw [hcost_v]; rfl
      · exact hmono _ (hinv.queue_cost e h)
    · intro v hv
      by_cases hvv : v = nextSeg.end_
      · rw [hvv]; exact hentry
      · rw [hcost_ne v hvv] at hv
        exact hinv.has_entry v hv
    · intro v hv
      by_cases hvv : v = nextSeg.end_
      · obtain ⟨route, hr⟩ := hinv.reach currPos hcur
        rw [← hstart] at hr
        rw [hvv]
        exact ⟨route ++ [nextSeg], IsChain_append hasher sm nextSeg hin route start hr⟩
      · rw [hcost_ne v hvv] at hv
        exact hinv.reach v hv
    · intro v hv
      by_cases hvv : v = nextSeg.end_
      · rw [hvv]; exact Or.inr (Or.inl hvq)
      · rw [hcost_ne v hvv] at hv
        rcases hinv.closure v hv with h | ⟨r, hr⟩ | h
        · exact Or.inl h
        · exact Or.inr (Or.inl ⟨r, hqmono _ hr⟩)
        · exact Or.inr (Or.inr (fun s hs => hmono _ (h s hs)))
    · intro hv
      by_cases hvv : end_ = nextSeg.end_
      · rw [hvv]; exact hvq
      · rw [hcost_ne end_ hvv] at hv
        obtain ⟨r, hr⟩ := hinv.end_queued hv
        exact ⟨r, hqmono _ hr⟩
    · obtain ⟨time, hl⟩ := hinv.links
      refine ⟨Function.update time nextSeg.end_ (time currPos + 1), ?_⟩
      intro v p hvs hp
      rw [hprev v] at hp
      by_cases hvv : v = nextSeg.end_
      · rw [if_pos hvv] at hp
        simp only [Option.some.injEq] at hp
        subst hp
        dsimp only
        refine ⟨?_, c, c + dist currPos nextSeg.end_, ?_, ?_, ?_⟩
        · have : (⟨currPos, v, nextSeg.name⟩ : StreetSegment Coord) = nextSeg := by
            cases nextSeg
            simp only at hstart hvv
            simp [hstart, hvv]
          rw [this]; exact hin
        · rw [hcost_ne currPos hu_v]; exact hc
        · rw [hvv]; exact hcost_v
        · rcases lt_or_eq_of_le hw with h | h
          · left; linarith
          · right
            refine ⟨by rw [← h]; ring, ?_⟩
            rw [hvv, Function.update_same, Function.update_noteq hu_v]
            omega
      · rw [if_neg hvv] at hp
        obtain ⟨hing, cu, cv, hcu, hcv, hrel⟩ := hl v p hvs hp
        refine ⟨hing, ?_⟩
        by_cases hpv : p.m_coord = nextSeg.end_
        · refine ⟨c + dist currPos nextSeg.end_, cv, ?_, ?_, ?_⟩
          · rw [hpv]; exact hcost_v
          · rw [hcost_ne v hvv]; exact hcv
          · left
            have h1 := himp cu (by rw [← hpv]; exact hcu)
            rcases hrel with h | ⟨h, _⟩
            · linarith
            · linarith
        · refine ⟨cu, cv, ?_, ?_, ?_⟩
          · rw [hcost_ne _ hpv]; exact hcu
          · rw [hcost_ne v hvv]; exact hcv
          · rw [Function.update_noteq hpv, Function.update_noteq hvv]
            exact hrel

end RouterInvariant
section RouterLoop

variable {Coord : Type} [LinearOrder Coord]

theorem MeasureLE_trans (hasher : Coord → Nat) (sm : StreetMapImpl Coord) (N : Nat)
    (st2 st1 st : SearchState Coord) (h21 : MeasureLE hasher sm N st2 st1)
    (h10 : MeasureLE hasher sm N st1 st) : MeasureLE hasher sm N st2 st := by
  unfold MeasureLE at *
  omega

/-- Relaxing a list of segments that leave `currPos` keeps the invariant, gives every end
of these segments a cost, and does not increase the measure. -/
theorem relaxAll_inv (hasher : Coord → Nat) (dist : Coord → Coord → ℚ)
    (sm : StreetMapImpl Coord) (start end_ : Coord) (N : Nat) (busy : Coord → Prop)
    (hG : GraphOK hasher sm) (hN : 0 < N)
    (hnn : ∀ s, InGraph hasher sm s → 0 ≤ dist s.start s.end_)
    (hsc : ∀ s, InGraph hasher sm s → ∃ n : Nat, dist s.start s.end_ * N = n)
    (currPos : Coord) :
    ∀ (segs : List (StreetSegment Coord)) (st : SearchState Coord),
      SearchInv hasher sm start end_ N busy st →
      (ExpandableHashMap.Find hasher st.move_cost currPos).isSome = true →
      (∀ s ∈ segs, s ∈ segmentsAt hasher sm currPos) →
      ∃ st1, relaxAll hasher dist currPos end_ segs st = some st1
        ∧ SearchInv hasher sm start end_ N busy st1
        ∧ (∀ s ∈ segs, (ExpandableHashMap.Find hasher st1.move_cost s.end_).isSome = true)
        ∧ (∀ k, (ExpandableHashMap.Find hasher st.move_cost k).isSome = true →
            (ExpandableHashMap.Find hasher st1.move_cost k).isSome = true)
        ∧ MeasureLE hasher sm N st1 st := by
  intro segs
  induction segs with
  | nil =>
    intro st hinv _ _
    exact ⟨st, rfl, hinv, by simp, fun k h => h, Or.inr (Or.inr ⟨rfl, rfl, rfl⟩)⟩
  | cons s rest ih =>
    intro st hinv hcur hsub
    obtain ⟨st1, h1, hinv1, hs1, hmono1, hm1, _⟩ :=
      relaxSegment_inv hasher dist sm start end_ N busy st hG hN hnn hsc hinv currPos hcur s
        (hsub s (List.mem_cons_self _ _))
    obtain ⟨st2, h2, hinv2, hs2, hmono2, hm2⟩ :=
      ih st1 hinv1 (hmono1 _ hcur) (fun x hx => hsub x (List.mem_cons_of_mem _ hx))
    refine ⟨st2, by simp only [relaxAll, h1, h2], hinv2, ?_, fun k h => hmono2 k (hmono1 k h),
      MeasureLE_trans hasher sm N st2 st1 st hm2 hm1⟩
    intro x hx
    rcases List.mem_cons.1 hx with h | h
    · rw [h]; exact hmono2 _ hs1
    · exact hs2 x h

/-- One iteration of the search loop whose top entry is not `end`: the loop goes on from a
state that satisfies the invariant and has a smaller measure. -/
theorem searchLoop_step (hasher : Coord → Nat) (dist : Coord → Coord → ℚ)
    (sm : StreetMapImpl Coord) (start end_ : Coord) (N : Nat)
    (hG : GraphOK hasher sm) (hN : 0 < N)
    (hnn : ∀ s, InGraph hasher sm s → 0 ≤ dist s.start s.end_)
    (hsc : ∀ s, InGraph hasher sm s → ∃ n : Nat, dist s.start s.end_ * N = n)
    (st : SearchState Coord) (hinv : SearchInv hasher sm start end_ N (fun _ => False) st)
    (top : ℚ × Coord) (htop : topEntry st.search_space = some top) (hne : top.2 ≠ end_) :
    ∃ st2, (∀ fuel, searchLoop hasher dist sm end_ (fuel + 1) st
              = searchLoop hasher dist sm end_ fuel st2)
      ∧ SearchInv hasher sm start end_ N (fun _ => False) st2
      ∧ (unknownCount hasher sm st2 < unknownCount hasher sm st
          ∨ (unknownCount hasher sm st2 = unknownCount hasher sm st
              ∧ costTotal hasher sm N st2 < costTotal hasher sm N st)
          ∨ (unknownCount hasher sm st2 = unknownCount hasher sm st
              ∧ costTotal hasher sm N st2 = costTotal hasher sm N st
              ∧ st2.search_space.length < st.search_space.length)) := by
  have hmem : top ∈ st.search_space := topEntry_mem _ _ htop
  have hcur : (ExpandableHashMap.Find hasher st.move_cost top.2).isSome = true :=
    hinv.queue_cost top hmem
  obtain ⟨segs, hsegs⟩ := Option.isSome_iff_exists.1 (hinv.has_entry top.2 hcur)
  have hsa : segmentsAt hasher sm top.2 = segs := mem_segmentsAt hasher sm _ segs hsegs
  have hpop : PopTop st.search_space = st.search_space.erase top := PopTop_of_top _ _ htop
  have hkeep : ∀ r v, v ≠ top.2 → (r, v) ∈ st.search_space →
      (r, v) ∈ PopTop st.search_space := by
    intro r v hv hrv
    rw [hpop]
    exact (List.mem_erase_of_ne (fun e => hv (by rw [← e]))).2 hrv
  have hinv1 : SearchInv hasher sm start end_ N (fun v => v = top.2)
      ⟨PopTop st.search_space, st.prev_location, st.move_cost, segs⟩ := by
    refine ⟨hinv.wf_cost, hinv.wf_prev, hinv.cost_start, hinv.prev_start, hinv.cost_nonneg,
      hinv.scaled, hinv.prev_some, ?_, hinv.has_entry, hinv.reach, ?_, ?_, hinv.links⟩
    · intro e he
      apply hinv.queue_cost e
      rw [hpop] at he
      exact List.mem_of_mem_erase he
    · intro v hv
      by_cases hvt : v = top.2
      · exact Or.inl hvt
      · rcases hinv.closure v hv with h | ⟨r, hr⟩ | h
        · exact absurd h (fun x => x)
        · exact Or.inr (Or.inl ⟨r, hkeep r v hvt hr⟩)
        · exact Or.inr (Or.inr h)
    · intro hv
      obtain ⟨r, hr⟩ := hinv.end_queued hv
      exact ⟨r, hkeep r end_ (Ne.symm hne) hr⟩
  obtain ⟨st2, h2, hinv2, hall, _, hm⟩ :=
    relaxAll_inv hasher dist sm start end_ N (fun v => v = top.2) hG hN hnn hsc top.2 segs
      ⟨PopTop st.search_space, st.prev_location, st.move_cost, segs⟩ hinv1 hcur
      (fun s hs => by rw [hsa]; exact hs)
  refine ⟨st2, ?_, ?_, ?_⟩
  · intro fuel
    simp only [searchLoop, htop, hne, if_false, hsegs, h2]
  · refine ⟨hinv2.wf_cost, hinv2.wf_prev, hinv2.cost_start, hinv2.prev_start,
      hinv2.cost_nonneg, hinv2.scaled, hinv2.prev_some, hinv2.queue_cost, hinv2.has_entry,
      hinv2.reach, ?_, hinv2.end_queued, hinv2.links⟩
    intro v hv
    rcases hinv2.closure v hv with h | h | h
    · right; right
      intro s hs
      rw [h, hsa] at hs
      exact hall s hs
    · exact Or.inr (Or.inl h)
    · exact Or.inr (Or.inr h)
  · have hlen : (PopTop st.search_space).length + 1 = st.search_space.length := by
      rw [hpop, List.length_erase_of_mem hmem]
      have : 0 < st.search_space.length := List.length_pos_of_mem hmem
      omega
    unfold MeasureLE at hm
    have e1 : unknownCount hasher sm
        ⟨PopTop st.search_space, st.prev_location, st.move_cost, segs⟩
        = unknownCount hasher sm st := rfl
    have e2 : costTotal hasher sm N
        ⟨PopTop st.search_space, st.prev_location, st.move_cost, segs⟩
        = costTotal hasher sm N st := rfl
    rw [e1, e2] at hm
    dsimp only at hm
    omega

/-- Partial correctness of the search loop: the invariant holds in the final state; when a
route was found the top of the queue is `end`, otherwise the queue is empty. -/
theorem searchLoop_sound (hasher : Coord → Nat) (dist : Coord → Coord → ℚ)
    (sm : StreetMapImpl Coord) (start end_ : Coord) (N : Nat)
    (hG : GraphOK hasher sm) (hN : 0 < N)
    (hnn : ∀ s, InGraph hasher sm s → 0 ≤ dist s.start s.end_)
    (hsc : ∀ s, InGraph hasher sm s → ∃ n : Nat, dist s.start s.end_ * N = n) :
    ∀ (fuel : Nat) (st : SearchState Coord) (found : Bool) (final : SearchState Coord),
      SearchInv hasher sm start end_ N (fun _ => False) st →
      searchLoop hasher dist sm end_ fuel st = some (found, final) →
      SearchInv hasher sm start end_ N (fun _ => False) final
        ∧ (found = true → ∃ r, (r, end_) ∈ final.search_space)
        ∧ (found = false → final.search_space = []) := by
  intro fuel
  induction fuel with
  | zero => intro st found final _ h; simp [searchLoop] at h
  | succ fuel ih =>
    intro st found final hinv h
    cases htop : topEntry st.search_space with
    | none =>
      simp only [searchLoop, htop, Option.some.injEq, Prod.mk.injEq] at h
      obtain ⟨h1, h2⟩ := h
      subst h1; subst h2
      exact ⟨hinv, by simp, fun _ => topEntry_eq_none _ htop⟩
    | some top =>
      by_cases hne : top.2 = end_
      · simp only [searchLoop, htop, hne, if_true, Option.some.injEq, Prod.mk.injEq] at h
        obtain ⟨h1, h2⟩ := h
        subst h1; subst h2
        refine ⟨hinv, fun _ => ⟨top.1, ?_⟩, by simp⟩
        have := topEntry_mem _ _ htop
        rw [← hne]; exact this
      · obtain ⟨st2, hstep, hinv2, _⟩ :=
          searchLoop_step hasher dist sm start end_ N hG hN hnn hsc st hinv top htop hne
        rw [hstep fuel] at h
        exact ih st2 found final hinv2 h

/-- Termination of the search loop: from a state that satisfies the invariant, every large
enough fuel gives the same result. -/
theorem searchLoop_terminates (hasher : Coord → Nat) (dist : Coord → Coord → ℚ)
    (sm : StreetMapImpl Coord) (start end_ : Coord) (N : Nat)
    (hG : GraphOK hasher sm) (hN : 0 < N)
    (hnn : ∀ s, InGraph hasher sm s → 0 ≤ dist s.start s.end_)
    (hsc : ∀ s, InGraph hasher sm s → ∃ n : Nat, dist s.start s.end_ * N = n) :
    ∀ (a b c : Nat) (st : SearchState Coord),
      SearchInv hasher sm start end_ N (fun _ => False) st →
      unknownCount hasher sm st = a → costTotal hasher sm N st = b →
      st.search_space.length = c →
      ∃ fuel0 res, ∀ fuel, fuel0 ≤ fuel → searchLoop hasher dist sm end_ fuel st = some res := by
  intro a
  induction a using Nat.strong_induction_on with
  | _ a iha =>
    intro b
    induction b using Nat.strong_induction_on with
    | _ b ihb =>
      intro c
      induction c using Nat.strong_induction_on with
      | _ c ihc =>
        intro st hinv ha hb hc
        cases htop : topEntry st.search_space with
        | none =>
          refine ⟨1, (false, st), ?_⟩
          intro fuel hf
          obtain ⟨f, rfl⟩ : ∃ f, fuel = f + 1 := ⟨fuel - 1, by omega⟩
          simp only [searchLoop, htop]
        | some top =>
          by_cases hne : top.2 = end_
          · refine ⟨1, (true, st), ?_⟩
            intro fuel hf
            obtain ⟨f, rfl⟩ : ∃ f, fuel = f + 1 := ⟨fuel - 1, by omega⟩
            simp only [searchLoop, htop, hne, if_true]
          · obtain ⟨st2, hstep, hinv2, hdec⟩ :=
              searchLoop_step hasher dist sm start end_ N hG hN hnn hsc st hinv top htop hne
            have hrec : ∃ fuel0 res, ∀ fuel, fuel0 ≤ fuel →
                searchLoop hasher dist sm end_ fuel st2 = some res := by
              rcases hdec with h | ⟨h1, h2⟩ | ⟨h1, h2, h3⟩
              · exact iha _ (by omega) _ _ st2 hinv2 rfl rfl rfl
              · exact ihb _ (by omega) _ st2 hinv2 (by omega) rfl rfl
              · exact ihc _ (by omega) st2 hinv2 (by omega) (by omega) rfl
            obtain ⟨fuel0, res, hres⟩ := hrec
            refine ⟨fuel0 + 1, res, ?_⟩
            intro fuel hf
            obtain ⟨f, rfl⟩ : ∃ f, fuel = f + 1 := ⟨fuel - 1, by omega⟩
            rw [hstep f]
            exact hres f (by omega)

end RouterLoop
section RouterResult

variable {Coord : Type} [LinearOrder Coord]

theorem scaled_of_den_dvd (w : ℚ) (hw : 0 ≤ w) (N : Nat) (hd : w.den ∣ N) :
    ∃ n : Nat, w * N = n := by
  obtain ⟨k, rfl⟩ := hd
  refine ⟨w.num.toNat * k, ?_⟩
  have h1 : ((w.num.toNat : ℤ) : ℚ) = (w.num : ℚ) := by
    rw [Int.toNat_of_nonneg (Rat.num_nonneg.2 hw)]
  push_cast
  rw [← mul_assoc, Rat.mul_den_eq_num]
  have h2 : ((w.num.toNat : ℕ) : ℚ) = ((w.num.toNat : ℤ) : ℚ) := by push_cast; rfl
  rw [h2, h1]

/-- The segment lengths of a map have a common denominator. -/
theorem exists_scale (hasher : Coord → Nat) (dist : Coord → Coord → ℚ)
    (sm : StreetMapImpl Coord)
    (hnn : ∀ s, InGraph hasher sm s → 0 ≤ dist s.start s.end_) :
    ∃ N : Nat, 0 < N ∧ ∀ s, InGraph hasher sm s → ∃ n : Nat, dist s.start s.end_ * N = n := by
  let dens : List Nat :=
    ((ExpandableHashMap.allPairs sm.m_coord_seg_map.m_map).flatMap
      (fun p => p.2.map (fun s => dist s.start s.end_))).map (fun w => w.den)
  refine ⟨dens.prod, ?_, ?_⟩
  · apply List.prod_pos
    intro d hd
    obtain ⟨w, _, rfl⟩ := List.mem_map.1 hd
    exact w.den_pos
  · intro s hs
    apply scaled_of_den_dvd _ (hnn s hs)
    apply List.dvd_prod
    apply List.mem_map.2
    refine ⟨dist s.start s.end_, ?_, rfl⟩
    unfold InGraph segmentsAt GetSegmentsThatStartWith at hs
    cases hf : ExpandableHashMap.Find hasher sm.m_coord_seg_map s.start with
    | none => rw [hf] at hs; simp at hs
    | some segs =>
      rw [hf] at hs
      apply List.mem_flatMap.2
      exact ⟨(s.start, segs), ExpandableHashMap.Find_some_mem hasher _ _ _ hf,
        List.mem_map.2 ⟨s, hs, rfl⟩⟩

/-- The state before the search loop satisfies the invariant. -/
theorem initialSearchState_inv (hasher : Coord → Nat) (sm : StreetMapImpl Coord)
    (start end_ : Coord) (N : Nat)
    (hstart : (GetSegmentsThatStartWith hasher sm start).isSome = true) :
    SearchInv hasher sm start end_ N (fun _ => False) (initialSearchState hasher start) := by
  have hc := ExpandableHashMap.Associate_spec hasher
    (ExpandableHashMap.init ExpandableHashMap.DEFAULT_MAX_LOAD : ExpandableHashMap Coord ℚ)
    (ExpandableHashMap.WF_init hasher _) start 0
  have hp := ExpandableHashMap.Associate_spec hasher
    (ExpandableHashMap.init ExpandableHashMap.DEFAULT_MAX_LOAD :
      ExpandableHashMap Coord (StreetPair Coord))
    (ExpandableHashMap.WF_init hasher _) start ⟨start, ""⟩
  have hcost : ∀ k, ExpandableHashMap.Find hasher (initialSearchState hasher start).move_cost k
      = if k = start then some 0 else none := by
    intro k
    have := hc.2 k
    rw [ExpandableHashMap.Find_init] at this
    exact this
  have hprev : ∀ k, ExpandableHashMap.Find hasher (initialSearchState hasher start).prev_location k
      = if k = start then some ⟨start, ""⟩ else none := by
    intro k
    have := hp.2 k
    rw [ExpandableHashMap.Find_init] at this
    exact this
  have honly : ∀ v, (ExpandableHashMap.Find hasher
      (initialSearchState hasher start).move_cost v).isSome = true → v = start := by
    intro v hv
    rw [hcost v] at hv
    by_contra h
    rw [if_neg h] at hv
    simp at hv
  have hq : (initialSearchState hasher start).search_space = [(0, start)] := rfl
  refine ⟨hc.1, hp.1, by rw [hcost, if_pos rfl], ⟨⟨start, ""⟩, by rw [hprev, if_pos rfl], rfl⟩,
    ?_, ?_, ?_, ?_, ?_, ?_, ?_, ?_, ?_⟩
  · intro v c h
    rw [hcost v] at h
    split at h
    · simp only [Option.some.injEq] at h; rw [← h]
    · simp at h
  · intro v c h
    rw [hcost v] at h
    split at h
    · simp only [Option.some.injEq] at h; exact ⟨0, by rw [← h]; simp⟩
    · simp at h
  · intro v hv
    rw [honly v hv, hprev, if_pos rfl]; rfl
  · intro e he
    rw [hq] at he
    simp only [List.mem_singleton] at he
    rw [he, hcost, if_pos rfl]; rfl
  · intro v hv
    rw [honly v hv]; exact hstart
  · intro v hv
    rw [honly v hv]; exact ⟨[], rfl⟩
  · intro v hv
    rw [honly v hv, hq]
    exact Or.inr (Or.inl ⟨0, List.mem_singleton_self _⟩)
  · intro hv
    rw [honly end_ hv, hq]
    exact ⟨0, List.mem_singleton_self _⟩
  · refine ⟨fun _ => 0, ?_⟩
    intro v p hv h
    rw [hprev v, if_neg hv] at h
    simp at h

/-- With an empty queue, every coordinate reachable from one that has a cost has a cost. -/
theorem cost_of_chain (hasher : Coord → Nat) (sm : StreetMapImpl Coord) (start end_ : Coord)
    (N : Nat) (st : SearchState Coord)
    (hinv : SearchInv hasher sm start end_ N (fun _ => False) st)
    (hq : st.search_space = []) :
    ∀ (route : List (StreetSegment Coord)) (a b : Coord),
      (ExpandableHashMap.Find hasher st.move_cost a).isSome = true →
      IsChain hasher sm a b route →
      (ExpandableHashMap.Find hasher st.move_cost b).isSome = true := by
  intro route
  induction route with
  | nil => intro a b ha h; simp only [IsChain] at h; rw [← h]; exact ha
  | cons s rest ih =>
    intro a b ha h
    simp only [IsChain] at h
    obtain ⟨h1, h2, h3⟩ := h
    apply ih s.end_ b _ h3
    rcases hinv.closure a ha with hb | ⟨r, hr⟩ | hc
    · exact absurd hb (fun x => x)
    · rw [hq] at hr; simp at hr
    · apply hc s
      unfold InGraph at h2
      rw [h1] at h2
      exact h2

theorem searchLoop_fuel_mono (hasher : Coord → Nat) (dist : Coord → Coord → ℚ)
    (sm : StreetMapImpl Coord) (end_ : Coord) :
    ∀ (fuel : Nat) (st : SearchState Coord) (res : Bool × SearchState Coord),
      searchLoop hasher dist sm end_ fuel st = some res →
      searchLoop hasher dist sm end_ (fuel + 1) st = some res := by
  intro fuel
  induction fuel with
  | zero => intro st res h; simp [searchLoop] at h
  | succ fuel ih =>
    intro st res h
    rw [searchLoop] at h ⊢
    cases htop : topEntry st.search_space with
    | none => rw [htop] at h; simpa using h
    | some top =>
      rw [htop] at h
      dsimp only at h ⊢
      split
      · rename_i he; rw [if_pos he] at h; exact h
      · rename_i he
        rw [if_neg he] at h
        split at h
        · simp at h
        · exact ih _ _ h

theorem buildRoute_fuel_mono (hasher : Coord → Nat) (dist : Coord → Coord → ℚ)
    (prev_location : ExpandableHashMap Coord (StreetPair Coord)) :
    ∀ (fuel : Nat) (endCoord : Coord) (pair : StreetPair Coord)
      (route : List (StreetSegment Coord)) (total : ℚ) (res : List (StreetSegment Coord) × ℚ),
      buildRoute hasher dist prev_location fuel endCoord pair route total = some res →
      buildRoute hasher dist prev_location (fuel + 1) endCoord pair route total = some res := by
  intro fuel
  induction fuel with
  | zero => intro e p r t res h; simp [buildRoute] at h
  | succ fuel ih =>
    intro e p r t res h
    rw [buildRoute] at h ⊢
    split
    · rename_i hn
      rw [if_pos hn] at h
      dsimp only at h ⊢
      split at h
      · simp at h
      · exact ih _ _ _ _ _ h
    · rename_i hn
      rw [if_neg hn] at h
      exact h

end RouterResult
section RouterBuild

variable {Coord : Type} [LinearOrder Coord]

theorem routeLength_append (dist : Coord → Coord → ℚ) (r1 r2 : List (StreetSegment Coord)) :
    routeLength dist (r1 ++ r2) = routeLength dist r1 + routeLength dist r2 := by
  unfold routeLength
  rw [List.map_append, List.sum_append]

/-- Termination of the walk along the predecessors, from any coordinate that has a
predecessor entry. -/
theorem buildRoute_terminates (hasher : Coord → Nat) (dist : Coord → Coord → ℚ)
    (sm : StreetMapImpl Coord) (start end_ : Coord) (N : Nat) (hN : 0 < N)
    (st : SearchState Coord) (hinv : SearchInv hasher sm start end_ N (fun _ => False) st) :
    ∀ (v : Coord) (p : StreetPair Coord) (route : List (StreetSegment Coord)) (total : ℚ),
      ExpandableHashMap.Find hasher st.prev_location v = some p →
      ∃ fuel0 res, ∀ fuel, fuel0 ≤ fuel →
        buildRoute hasher dist st.prev_location fuel v p route total = some res := by
  obtain ⟨time, hl⟩ := hinv.links
  have hNq : (0 : ℚ) < (N : ℚ) := by exact_mod_cast hN
  have key : ∀ (a b : Nat) (v : Coord) (p : StreetPair Coord) (cv : ℚ)
      (route : List (StreetSegment Coord)) (total : ℚ),
      ExpandableHashMap.Find hasher st.prev_location v = some p →
      ExpandableHashMap.Find hasher st.move_cost v = some cv →
      ⌊cv * N⌋₊ = a → time v = b →
      ∃ fuel0 res, ∀ fuel, fuel0 ≤ fuel →
        buildRoute hasher dist st.prev_location fuel v p route total = some res := by
    intro a
    induction a using Nat.strong_induction_on with
    | _ a iha =>
      intro b
      induction b using Nat.strong_induction_on with
      | _ b ihb =>
        intro v p cv route total hp hcv ha hb
        by_cases hname : p.m_name = ""
        · refine ⟨1, (route, total), ?_⟩
          intro fuel hf
          obtain ⟨f, rfl⟩ : ∃ f, fuel = f + 1 := ⟨fuel - 1, by omega⟩
          simp only [buildRoute, hname, ne_eq, not_true_eq_false, if_false]
        · have hvs : v ≠ start := by
            intro e
            obtain ⟨p0, hp0, hn0⟩ := hinv.prev_start
            rw [e, hp0] at hp
            simp only [Option.some.injEq] at hp
            rw [← hp] at hname
            exact hname hn0
          obtain ⟨_, cu, cv1, hcu, hcv1, hrel⟩ := hl v p hvs hp
          rw [hcv] at hcv1
          simp only [Option.some.injEq] at hcv1
          subst hcv1
          obtain ⟨p1, hp1⟩ := Option.isSome_iff_exists.1
            (hinv.prev_some p.m_coord (by rw [hcu]; rfl))
          have hrec : ∃ fuel0 res, ∀ fuel, fuel0 ≤ fuel →
              buildRoute hasher dist st.prev_location fuel p.m_coord p1
                ((⟨p.m_coord, v, p.m_name⟩ : StreetSegment Coord) :: route)
                (total + dist p.m_coord v) = some res := by
            rcases hrel with h | ⟨h1, h2⟩
            · obtain ⟨n1, e1⟩ := hinv.scaled _ cu hcu
              obtain ⟨n2, e2⟩ := hinv.scaled _ cv hcv
              have hn : n1 < n2 := by
                have : (n1 : ℚ) < (n2 : ℚ) := by
                  rw [← e1, ← e2]; exact mul_lt_mul_of_pos_right h hNq
                exact_mod_cast this
              have hlt : ⌊cu * N⌋₊ < a := by
                rw [← ha, e1, e2, Nat.floor_natCast, Nat.floor_natCast]; exact hn
              exact iha _ hlt _ _ p1 cu _ _ hp1 hcu rfl rfl
            · exact ihb _ (by omega) _ p1 cu _ _ hp1 hcu (by rw [h1]; exact ha) rfl
          obtain ⟨fuel0, res, hres⟩ := hrec
          refine ⟨fuel0 + 1, res, ?_⟩
          intro fuel hf
          obtain ⟨f, rfl⟩ : ∃ f, fuel = f + 1 := ⟨fuel - 1, by omega⟩
          simp only [buildRoute, ne_eq, hname, not_false_eq_true, if_true, hp1]
          exact hres f (by omega)
  intro v p route total hp
  obtain ⟨cv, hcv⟩ : ∃ cv, ExpandableHashMap.Find hasher st.move_cost v = some cv := by
    by_cases hvs : v = start
    · exact ⟨0, by rw [hvs]; exact hinv.cost_start⟩
    · obtain ⟨_, _, cv, _, hcv, _⟩ := hl v p hvs hp
      exact ⟨cv, hcv⟩
  exact key _ _ v p cv route total hp hcv rfl rfl

/-- What the walk along the predecessors returns: the chain of graph segments it has put
in front of `route`, whose length it has added to the total; when no street of the graph has
the empty name, the chain begins at `start`. -/
theorem buildRoute_sound (hasher : Coord → Nat) (dist : Coord → Coord → ℚ)
    (sm : StreetMapImpl Coord) (start end_ : Coord) (N : Nat)
    (st : SearchState Coord) (hinv : SearchInv hasher sm start end_ N (fun _ => False) st) :
    ∀ (fuel : Nat) (v : Coord) (p : StreetPair Coord) (route : List (StreetSegment Coord))
      (total : ℚ) (res : List (StreetSegment Coord) × ℚ),
      ExpandableHashMap.Find hasher st.prev_location v = some p →
      buildRoute hasher dist st.prev_location fuel v p route total = some res →
      ∃ chain x, res.1 = chain ++ route ∧ res.2 = total + routeLength dist chain
        ∧ IsChain hasher sm x v chain
        ∧ (chain = [] → p.m_name = "")
        ∧ ((∀ s, InGraph hasher sm s → s.name ≠ "") → x = start) := by
  obtain ⟨time, hl⟩ := hinv.links
  intro fuel
  induction fuel with
  | zero => intro v p route total res _ h; simp [buildRoute] at h
  | succ fuel ih =>
    intro v p route total res hp h
    rw [buildRoute] at h
    by_cases hname : p.m_name = ""
    · rw [if_neg (by simpa using hname)] at h
      simp only [Option.some.injEq] at h
      refine ⟨[], v, by rw [← h]; rfl, by rw [← h]; simp [routeLength], rfl, fun _ => hname, ?_⟩
      intro hne
      by_contra hvs
      obtain ⟨hin, _⟩ := hl v p hvs hp
      exact hne _ hin hname
    · rw [if_pos (by simpa using hname)] at h
      dsimp only at h
      have hvs : v ≠ start := by
        intro e
        obtain ⟨p0, hp0, hn0⟩ := hinv.prev_start
        rw [e, hp0] at hp
        simp only [Option.some.injEq] at hp
        rw [← hp] at hname
        exact hname hn0
      obtain ⟨hin, _⟩ := hl v p hvs hp
      cases hp1 : ExpandableHashMap.Find hasher st.prev_location p.m_coord with
      | none => rw [hp1] at h; simp at h
      | some p1 =>
        rw [hp1] at h
        obtain ⟨chain, x, h1, h2, h3, _, h5⟩ := ih _ p1 _ _ res hp1 h
        refine ⟨chain ++ [⟨p.m_coord, v, p.m_name⟩], x, by rw [h1]; simp, ?_, ?_, by simp, h5⟩
        · rw [h2, routeLength_append]
          simp only [routeLength, List.map_cons, List.map_nil, List.sum_cons, List.sum_nil]
          ring
        · exact IsChain_append hasher sm ⟨p.m_coord, v, p.m_name⟩ hin chain x h3

end RouterBuild
section RouterMain

variable {Coord : Type} [LinearOrder Coord]

theorem GeneratePointToPointRoute_eq (hasher : Coord → Nat) (dist : Coord → Coord → ℚ)
    (sm : StreetMapImpl Coord) (fuel : Nat) (start end_ : Coord)
    (hstart : (GetSegmentsThatStartWith hasher sm start).isSome = true)
    (hend : (GetSegmentsThatStartWith hasher sm end_).isSome = true) :
    GeneratePointToPointRoute hasher dist sm fuel start end_
      = match searchLoop hasher dist sm end_ fuel (initialSearchState hasher start) with
        | none => none
        | some (false, _) => some ⟨DeliveryResult.NO_ROUTE, [], 0⟩
        | some (true, st) =>
          match ExpandableHashMap.Find hasher st.prev_location end_ with
          | none => none
          | some start_pos_seg_pair =>
            match buildRoute hasher dist st.prev_location fuel end_ start_pos_seg_pair [] 0 with
            | none => none
            | some (route, total) => some ⟨DeliveryResult.DELIVERY_SUCCESS, route, total⟩ := by
  unfold GeneratePointToPointRoute
  have h1 : (GetSegmentsThatStartWith hasher sm start).isNone = false := by
    rw [Option.isNone_eq_false_iff]; exact Option.isSome_iff_ne_none.1 hstart |> fun h => by
      simpa [Option.isSome_iff_ne_none] using h
  have h2 : (GetSegmentsThatStartWith hasher sm end_).isNone = false := by
    rw [Option.isNone_eq_false_iff]; exact Option.isSome_iff_ne_none.1 hend |> fun h => by
      simpa [Option.isSome_iff_ne_none] using h
  simp only [h1, h2, Bool.false_eq_true, or_self, if_false]

theorem GeneratePointToPointRoute_fuel_succ (hasher : Coord → Nat) (dist : Coord → Coord → ℚ)
    (sm : StreetMapImpl Coord) (fuel : Nat) (start end_ : Coord) (r : RouteResult Coord)
    (h : GeneratePointToPointRoute hasher dist sm fuel start end_ = some r) :
    GeneratePointToPointRoute hasher dist sm (fuel + 1) start end_ = some r := by
  unfold GeneratePointToPointRoute at h ⊢
  split
  · rename_i hb; rw [if_pos hb] at h; exact h
  · rename_i hb
    rw [if_neg hb] at h
    cases hs : searchLoop hasher dist sm end_ fuel (initialSearchState hasher start) with
    | none => rw [hs] at h; simp at h
    | some res =>
      rw [hs] at h
      rw [searchLoop_fuel_mono hasher dist sm end_ fuel _ res hs]
      obtain ⟨found, st⟩ := res
      cases found with
      | false => exact h
      | true =>
        dsimp only at h ⊢
        cases hp : ExpandableHashMap.Find hasher st.prev_location end_ with
        | none => rw [hp] at h; simp at h
        | some p =>
          rw [hp] at h
          dsimp only at h ⊢
          cases hb2 : buildRoute hasher dist st.prev_location fuel end_ p [] 0 with
          | none => rw [hb2] at h; simp at h
          | some res2 =>
            rw [hb2] at h
            rw [buildRoute_fuel_mono hasher dist _ fuel _ _ _ _ res2 hb2]
            exact h

theorem GeneratePointToPointRoute_fuel_add (hasher : Coord → Nat) (dist : Coord → Coord → ℚ)
    (sm : StreetMapImpl Coord) (fuel : Nat) (start end_ : Coord) (r : RouteResult Coord)
    (h : GeneratePointToPointRoute hasher dist sm fuel start end_ = some r) :
    ∀ k, GeneratePointToPointRoute hasher dist sm (fuel + k) start end_ = some r := by
  intro k
  induction k with
  | zero => exact h
  | succ k ih => exact GeneratePointToPointRoute_fuel_succ hasher dist sm _ start end_ r ih

/-- Two runs that both return, whatever their fuel, return the same result. -/
theorem GeneratePointToPointRoute_unique (hasher : Coord → Nat) (dist : Coord → Coord → ℚ)
    (sm : StreetMapImpl Coord) (fuel1 fuel2 : Nat) (start end_ : Coord)
    (r1 r2 : RouteResult Coord)
    (h1 : GeneratePointToPointRoute hasher dist sm fuel1 start end_ = some r1)
    (h2 : GeneratePointToPointRoute hasher dist sm fuel2 start end_ = some r2) : r1 = r2 := by
  have e1 := GeneratePointToPointRoute_fuel_add hasher dist sm fuel1 start end_ r1 h1 fuel2
  have e2 := GeneratePointToPointRoute_fuel_add hasher dist sm fuel2 start end_ r2 h2 fuel1
  rw [Nat.add_comm] at e2
  rw [e1] at e2
  exact Option.some.inj e2

/-- Partial correctness of the router on a loaded map with non-negative segment lengths,
for endpoints that have entries. -/
theorem GeneratePointToPointRoute_sound (hasher : Coord → Nat) (dist : Coord → Coord → ℚ)
    (sm : StreetMapImpl Coord) (hG : GraphOK hasher sm)
    (hnn : ∀ s, InGraph hasher sm s → 0 ≤ dist s.start s.end_)
    (fuel : Nat) (start end_ : Coord)
    (hstart : (GetSegmentsThatStartWith hasher sm start).isSome = true)
    (hend : (GetSegmentsThatStartWith hasher sm end_).isSome = true)
    (r : RouteResult Coord)
    (hr : GeneratePointToPointRoute hasher dist sm fuel start end_ = some r) :
    (r.status = DeliveryResult.DELIVERY_SUCCESS ∧ Reachable hasher sm start end_
      ∧ r.total_dist_travelled = routeLength dist r.route
      ∧ ∃ x, IsChain hasher sm x end_ r.route
          ∧ ((∀ s, InGraph hasher sm s → s.name ≠ "") → x = start))
    ∨ (r.status = DeliveryResult.NO_ROUTE ∧ ¬ Reachable hasher sm start end_
        ∧ r.route = [] ∧ r.total_dist_travelled = 0) := by
  obtain ⟨N, hN, hsc⟩ := exists_scale hasher dist sm hnn
  have hinit := initialSearchState_inv hasher sm start end_ N hstart
  rw [GeneratePointToPointRoute_eq hasher dist sm fuel start end_ hstart hend] at hr
  cases hs : searchLoop hasher dist sm end_ fuel (initialSearchState hasher start) with
  | none => rw [hs] at hr; simp at hr
  | some res =>
    rw [hs] at hr
    obtain ⟨found, st⟩ := res
    obtain ⟨hinv, hfound, hnot⟩ :=
      searchLoop_sound hasher dist sm start end_ N hG hN hnn hsc fuel _ found st hinit hs
    cases found with
    | false =>
      simp only [Option.some.injEq] at hr
      right
      refine ⟨by rw [← hr], ?_, by rw [← hr], by rw [← hr]⟩
      rintro ⟨route, hroute⟩
      have hq := hnot rfl
      have hc := cost_of_chain hasher sm start end_ N st hinv hq route start end_
        (by rw [hinv.cost_start]; rfl) hroute
      obtain ⟨x, hx⟩ := hinv.end_queued hc
      rw [hq] at hx
      simp at hx
    | true =>
      dsimp only at hr
      obtain ⟨x, hx⟩ := hfound rfl
      have hcend := hinv.queue_cost _ hx
      cases hp : ExpandableHashMap.Find hasher st.prev_location end_ with
      | none => rw [hp] at hr; simp at hr
      | some p =>
        rw [hp] at hr
        dsimp only at hr
        cases hb : buildRoute hasher dist st.prev_location fuel end_ p [] 0 with
        | none => rw [hb] at hr; simp at hr
        | some res2 =>
          rw [hb] at hr
          obtain ⟨route, total⟩ := res2
          simp only [Option.some.injEq] at hr
          obtain ⟨chain, y, h1, h2, h3, _, h5⟩ :=
            buildRoute_sound hasher dist sm start end_ N st hinv fuel end_ p [] 0 _ hp hb
          simp only [List.append_nil] at h1
          simp only [zero_add] at h2
          left
          refine ⟨by rw [← hr], hinv.reach end_ hcend, by rw [← hr]; simp only; rw [h1, h2],
            y, by rw [← hr]; simp only; rw [h1]; exact h3, h5⟩

/-- Termination of the router on a loaded map with non-negative segment lengths, for
endpoints that have entries: every large enough fuel gives the same result. -/
theorem GeneratePointToPointRoute_total (hasher : Coord → Nat) (dist : Coord → Coord → ℚ)
    (sm : StreetMapImpl Coord) (hG : GraphOK hasher sm)
    (hnn : ∀ s, InGraph hasher sm s → 0 ≤ dist s.start s.end_) (start end_ : Coord)
    (hstart : (GetSegmentsThatStartWith hasher sm start).isSome = true)
    (hend : (GetSegmentsThatStartWith hasher sm end_).isSome = true) :
    ∃ fuel0 r, ∀ fuel, fuel0 ≤ fuel →
      GeneratePointToPointRoute hasher dist sm fuel start end_ = some r := by
  obtain ⟨N, hN, hsc⟩ := exists_scale hasher dist sm hnn
  have hinit := initialSearchState_inv hasher sm start end_ N hstart
  obtain ⟨f1, res, hres⟩ := searchLoop_terminates hasher dist sm start end_ N hG hN hnn hsc
    _ _ _ _ hinit rfl rfl rfl
  obtain ⟨found, st⟩ := res
  obtain ⟨hinv, hfound, _⟩ :=
    searchLoop_sound hasher dist sm start end_ N hG hN hnn hsc f1 _ found st hinit
      (hres f1 (Nat.le_refl _))
  cases found with
  | false =>
    refine ⟨f1, ⟨DeliveryResult.NO_ROUTE, [], 0⟩, ?_⟩
    intro fuel hf
    rw [GeneratePointToPointRoute_eq hasher dist sm fuel start end_ hstart hend, hres fuel hf]
  | true =>
    obtain ⟨x, hx⟩ := hfound rfl
    obtain ⟨p, hp⟩ := Option.isSome_iff_exists.1
      (hinv.prev_some end_ (hinv.queue_cost _ hx))
    obtain ⟨f2, res2, hres2⟩ :=
      buildRoute_terminates hasher dist sm start end_ N hN st hinv end_ p [] 0 hp
    refine ⟨max f1 f2, ⟨DeliveryResult.DELIVERY_SUCCESS, res2.1, res2.2⟩, ?_⟩
    intro fuel hf
    rw [GeneratePointToPointRoute_eq hasher dist sm fuel start end_ hstart hend,
      hres fuel (le_trans (le_max_left _ _) hf)]
    dsimp only
    rw [hp]
    dsimp only
    rw [hres2 fuel (le_trans (le_max_right _ _) hf)]

theorem IsChain_facts (hasher : Coord → Nat) (sm : StreetMapImpl Coord) :
    ∀ (route : List (StreetSegment Coord)) (a b : Coord), IsChain hasher sm a b route →
      List.Chain' (fun s t => s.end_ = t.start) route
      ∧ (∀ s ∈ route, InGraph hasher sm s)
      ∧ (route ≠ [] → route.head?.map (fun s => s.start) = some a
          ∧ route.getLast?.map (fun s => s.end_) = some b)
      ∧ (route = [] → a = b) := by
  intro route
  induction route with
  | nil => intro a b h; simp only [IsChain] at h; simp [h]
  | cons s rest ih =>
    intro a b h
    simp only [IsChain] at h
    obtain ⟨h1, h2, h3⟩ := h
    obtain ⟨i1, i2, i3, i4⟩ := ih s.end_ b h3
    refine ⟨?_, ?_, ?_, by simp⟩
    · cases rest with
      | nil => simp
      | cons t rest2 =>
        simp only [List.chain'_cons]
        refine ⟨?_, i1⟩
        have := (i3 (by simp)).1
        simpa using this.symm
    · intro x hx
      rcases List.mem_cons.1 hx with e | e
      · rw [e]; exact h2
      · exact i2 x e
    · intro _
      refine ⟨by simp [h1], ?_⟩
      cases rest with
      | nil => simp [i4 rfl]
      | cons t rest2 =>
        have := (i3 (by simp)).2
        rw [List.getLast?_cons_cons]
        exact this

end RouterMain
section RouterNamesLemmas

variable {Coord : Type} [LinearOrder Coord]

theorem relaxSegment_names (hasher : Coord → Nat) (dist : Coord → Coord → ℚ)
    (sm : StreetMapImpl Coord) (start currPos end_ : Coord) (st st1 : SearchState Coord)
    (nextSeg : StreetSegment Coord) (hseg : ∃ c, nextSeg ∈ segmentsAt hasher sm c)
    (hinv : NameInv hasher sm start st)
    (h : relaxSegment hasher dist currPos end_ st nextSeg = some st1) :
    NameInv hasher sm start st1 := by
  cases hc : ExpandableHashMap.Find hasher st.move_cost currPos with
  | none => simp [relaxSegment, hc] at h
  | some c =>
    rcases relaxSegment_spec hasher dist currPos end_ st nextSeg hinv.wf_cost hinv.wf_prev c hc
      with ⟨heq, _⟩ | ⟨st2, heq, _, hwc, hwp, _, hprev, _, hnm⟩
    · rw [heq] at h
      simp only [Option.some.injEq] at h
      rw [← h]; exact hinv
    · rw [heq] at h
      simp only [Option.some.injEq] at h
      subst h
      refine ⟨hwc, hwp, by rw [hnm]; exact hinv.moves, ?_⟩
      intro v p hv hp
      rw [hprev v] at hp
      by_cases hvv : v = nextSeg.end_
      · rw [if_pos hvv] at hp
        simp only [Option.some.injEq] at hp
        obtain ⟨c1, hc1⟩ := hseg
        exact ⟨c1, nextSeg, hc1, by rw [← hp]⟩
      · rw [if_neg hvv] at hp
        exact hinv.names v p hv hp

theorem relaxAll_names (hasher : Coord → Nat) (dist : Coord → Coord → ℚ)
    (sm : StreetMapImpl Coord) (start currPos end_ : Coord) :
    ∀ (segs : List (StreetSegment Coord)) (st st1 : SearchState Coord),
      (∀ s ∈ segs, ∃ c, s ∈ segmentsAt hasher sm c) → NameInv hasher sm start st →
      relaxAll hasher dist currPos end_ segs st = some st1 → NameInv hasher sm start st1 := by
  intro segs
  induction segs with
  | nil =>
    intro st st1 _ hinv h
    simp only [relaxAll, Option.some.injEq] at h
    rw [← h]; exact hinv
  | cons s rest ih =>
    intro st st1 hsegs hinv h
    rw [relaxAll] at h
    cases h1 : relaxSegment hasher dist currPos end_ st s with
    | none => rw [h1] at h; simp at h
    | some st2 =>
      rw [h1] at h
      exact ih st2 st1 (fun x hx => hsegs x (List.mem_cons_of_mem _ hx))
        (relaxSegment_names hasher dist sm start currPos end_ st st2 s
          (hsegs s (List.mem_cons_self _ _)) hinv h1) h

theorem searchLoop_names (hasher : Coord → Nat) (dist : Coord → Coord → ℚ)
    (sm : StreetMapImpl Coord) (start end_ : Coord) :
    ∀ (fuel : Nat) (st : SearchState Coord) (found : Bool) (final : SearchState Coord),
      NameInv hasher sm start st →
      searchLoop hasher dist sm end_ fuel st = some (found, final) →
      NameInv hasher sm start final := by
  intro fuel
  induction fuel with
  | zero => intro st found final _ h; simp [searchLoop] at h
  | succ fuel ih =>
    intro st found final hinv h
    rw [searchLoop] at h
    cases htop : topEntry st.search_space with
    | none =>
      rw [htop] at h
      simp only [Option.some.injEq, Prod.mk.injEq] at h
      rw [← h.2]; exact hinv
    | some top =>
      rw [htop] at h
      dsimp only at h
      by_cases hne : top.2 = end_
      · rw [if_pos hne] at h
        simp only [Option.some.injEq, Prod.mk.injEq] at h
        rw [← h.2]; exact hinv
      · rw [if_neg hne] at h
        have hmoves : ∀ s ∈ (match GetSegmentsThatStartWith hasher sm top.2 with
            | some segs => segs
            | none => st.next_moves), ∃ c, s ∈ segmentsAt hasher sm c := by
          intro s hs
          cases hg : GetSegmentsThatStartWith hasher sm top.2 with
          | none => rw [hg] at hs; exact hinv.moves s hs
          | some segs =>
            rw [hg] at hs
            exact ⟨top.2, by rw [mem_segmentsAt hasher sm _ segs hg]; exact hs⟩
        split at h
        · simp at h
        · rename_i st2 hst2
          have hinv1 : NameInv hasher sm start
              ⟨PopTop st.search_space, st.prev_location, st.move_cost,
                match GetSegmentsThatStartWith hasher sm top.2 with
                | some segs => segs
                | none => st.next_moves⟩ :=
            ⟨hinv.wf_cost, hinv.wf_prev, hmoves, hinv.names⟩
          exact ih st2 found final
            (relaxAll_names hasher dist sm start top.2 end_ _ _ st2 hmoves hinv1 hst2) h

theorem initialSearchState_names (hasher : Coord → Nat) (sm : StreetMapImpl Coord)
    (start : Coord) : NameInv hasher sm start (initialSearchState hasher start) := by
  have hc := ExpandableHashMap.Associate_spec hasher
    (ExpandableHashMap.init ExpandableHashMap.DEFAULT_MAX_LOAD : ExpandableHashMap Coord ℚ)
    (ExpandableHashMap.WF_init hasher _) start 0
  have hp := ExpandableHashMap.Associate_spec hasher
    (ExpandableHashMap.init ExpandableHashMap.DEFAULT_MAX_LOAD :
      ExpandableHashMap Coord (StreetPair Coord))
    (ExpandableHashMap.WF_init hasher _) start ⟨start, ""⟩
  refine ⟨hc.1, hp.1, by intro s hs; simp [initialSearchState] at hs, ?_⟩
  intro v p hv h
  have := hp.2 v
  rw [ExpandableHashMap.Find_init, if_neg hv] at this
  have h2 : ExpandableHashMap.Find hasher (initialSearchState hasher start).prev_location v
      = none := this
  rw [h2] at h
  simp at h

theorem buildRoute_length (hasher : Coord → Nat) (dist : Coord → Coord → ℚ)
    (prev_location : ExpandableHashMap Coord (StreetPair Coord)) :
    ∀ (fuel : Nat) (endCoord : Coord) (pair : StreetPair Coord)
      (route : List (StreetSegment Coord)) (total : ℚ) (res : List (StreetSegment Coord) × ℚ),
      buildRoute hasher dist prev_location fuel endCoord pair route total = some res →
      route.length ≤ res.1.length ∧ (pair.m_name ≠ "" → route.length < res.1.length) := by
  intro fuel
  induction fuel with
  | zero => intro e p r t res h; simp [buildRoute] at h
  | succ fuel ih =>
    intro e p r t res h
    rw [buildRoute] at h
    by_cases hn : p.m_name ≠ ""
    · rw [if_pos hn] at h
      dsimp only at h
      split at h
      · simp at h
      · have := (ih _ _ _ _ res h).1
        simp only [List.length_cons] at this
        exact ⟨by omega, fun _ => by omega⟩
    · rw [if_neg hn] at h
      simp only [Option.some.injEq] at h
      rw [← h]
      exact ⟨Nat.le_refl _, fun h2 => absurd h2 hn⟩

/-- A run of the router that does not answer BAD_COORD had entries for both endpoints. -/
theorem entries_of_not_bad_coord (hasher : Coord → Nat) (dist : Coord → Coord → ℚ)
    (sm : StreetMapImpl Coord) (fuel : Nat) (start end_ : Coord) (r : RouteResult Coord)
    (hr : GeneratePointToPointRoute hasher dist sm fuel start end_ = some r)
    (hs : r.status ≠ DeliveryResult.BAD_COORD) :
    (GetSegmentsThatStartWith hasher sm start).isSome = true
      ∧ (GetSegmentsThatStartWith hasher sm end_).isSome = true := by
  constructor
  · cases h : GetSegmentsThatStartWith hasher sm start with
    | some _ => rfl
    | none =>
      exfalso
      unfold GeneratePointToPointRoute at hr
      rw [h] at hr
      simp only [Option.isNone_none, or_true, if_true, Option.some.injEq] at hr
      rw [← hr] at hs
      exact hs rfl
  · cases h : GetSegmentsThatStartWith hasher sm end_ with
    | some _ => rfl
    | none =>
      exfalso
      unfold GeneratePointToPointRoute at hr
      rw [h] at hr
      simp only [Option.isNone_none, true_or, if_true, Option.some.injEq] at hr
      rw [← hr] at hs
      exact hs rfl

end RouterNamesLemmas
/-! ## The router: claims C1, C4 to C8 -/

theorem detourDist_nonneg (a b : Nat) : 0 ≤ detourDist a b := by
  unfold detourDist
  exact_mod_cast add_nonneg (abs_nonneg _) (abs_nonneg _)

theorem detourDist_symm (a b : Nat) : detourDist a b = detourDist b a := by
  unfold detourDist
  rw [abs_sub_comm (detourPos a).1, abs_sub_comm (detourPos a).2]

theorem detourDist_triangle (a b c : Nat) : detourDist a c ≤ detourDist a b + detourDist b c := by
  unfold detourDist
  have h1 := abs_sub_le (detourPos a).1 (detourPos b).1 (detourPos c).1
  have h2 := abs_sub_le (detourPos a).2 (detourPos b).2 (detourPos c).2
  exact_mod_cast (by omega :
    |(detourPos a).1 - (detourPos c).1| + |(detourPos a).2 - (detourPos c).2|
      ≤ |(detourPos a).1 - (detourPos b).1| + |(detourPos a).2 - (detourPos b).2|
        + (|(detourPos b).1 - (detourPos c).1| + |(detourPos b).2 - (detourPos c).2|))

theorem detourMap_names (s : StreetSegment Nat) (hs : InGraph exampleHasher detourMap s) :
    s.name ≠ "" := by
  obtain ⟨r, hr, hn, _⟩ := LoadRecords_origin exampleHasher detourRecords s.start s hs
  rw [hn]
  simp only [detourRecords, List.mem_cons, List.mem_singleton, List.not_mem_nil, or_false] at hr
  rcases hr with h | h <;> rw [h] <;> decide

/-- Claim C1, at the failing input: on the detour map, with the grid distance (non-negative,
symmetric, with the triangle inequality), the router answers the query from 0 to 3 with the
route along street Y, of length 12, although the chain along street X has length 10. -/
theorem router_returns_detour :
    (∀ a b, 0 ≤ detourDist a b) ∧ (∀ a b, detourDist a b = detourDist b a)
    ∧ (∀ a b c, detourDist a c ≤ detourDist a b + detourDist b c)
    ∧ (∀ fuel, GeneratePointToPointRoute exampleHasher detourDist detourMap (fuel + 3) 0 3
        = some ⟨DeliveryResult.DELIVERY_SUCCESS, [⟨0, 2, "Y"⟩, ⟨2, 3, "Y"⟩], 12⟩)
    ∧ IsChain exampleHasher detourMap 0 3 [⟨0, 1, "X"⟩, ⟨1, 3, "X"⟩]
    ∧ routeLength detourDist [⟨0, 1, "X"⟩, ⟨1, 3, "X"⟩] = 10 := by
  refine ⟨detourDist_nonneg, detourDist_symm, detourDist_triangle, ?_, ?_, ?_⟩
  · intro fuel
    rw [Nat.add_comm]
    exact GeneratePointToPointRoute_fuel_add exampleHasher detourDist detourMap 3 0 3 _
      (by decide!) fuel
  · simp only [IsChain, InGraph, and_true]
    decide!
  · decide!

/-- Claim C4: when `start` or `end` has no entry in the street map, the router returns
BAD_COORD, with an empty route and a total distance of 0; this holds for every map, every
distance function and every fuel. -/
theorem GeneratePointToPointRoute_bad_coord {Coord : Type} [LinearOrder Coord]
    (hasher : Coord → Nat) (dist : Coord → Coord → ℚ) (sm : StreetMapImpl Coord) (fuel : Nat)
    (start end_ : Coord)
    (h : GetSegmentsThatStartWith hasher sm start = none
      ∨ GetSegmentsThatStartWith hasher sm end_ = none) :
    GeneratePointToPointRoute hasher dist sm fuel start end_
      = some ⟨DeliveryResult.BAD_COORD, [], 0⟩ := by
  unfold GeneratePointToPointRoute
  rcases h with h | h <;> simp [h]

/-- Claim C4, witness: coordinate 7 has no entry in the detour map. -/
theorem GeneratePointToPointRoute_bad_coord_witness :
    GetSegmentsThatStartWith exampleHasher detourMap 7 = none
    ∧ GeneratePointToPointRoute exampleHasher detourDist detourMap 0 7 3
        = some ⟨DeliveryResult.BAD_COORD, [], 0⟩ :=
  ⟨by decide!, GeneratePointToPointRoute_bad_coord exampleHasher detourDist detourMap 0 7 3
    (Or.inl (by decide!))⟩

/-- Claim C5: on a map built by `Load` whose segment lengths are non-negative, for `start`
and `end` that both have entries, the router returns: every large enough fuel gives one and
the same result `r`, no fuel gives another one, `r` is DELIVERY_SUCCESS exactly when `end`
can be reached from `start` along graph segments (the empty chain when they are equal), and
otherwise `r` is NO_ROUTE with an empty route. -/
theorem GeneratePointToPointRoute_success_iff_reachable {Coord : Type} [LinearOrder Coord]
    (hasher : Coord → Nat) (dist : Coord → Coord → ℚ) (records : List (StreetRecord Coord))
    (start end_ : Coord)
    (hnn : ∀ s, InGraph hasher (LoadRecords hasher records) s → 0 ≤ dist s.start s.end_)
    (hstart : (GetSegmentsThatStartWith hasher (LoadRecords hasher records) start).isSome = true)
    (hend : (GetSegmentsThatStartWith hasher (LoadRecords hasher records) end_).isSome = true) :
    ∃ fuel0 r,
      (∀ fuel, fuel0 ≤ fuel →
        GeneratePointToPointRoute hasher dist (LoadRecords hasher records) fuel start end_
          = some r)
      ∧ (∀ fuel r1,
          GeneratePointToPointRoute hasher dist (LoadRecords hasher records) fuel start end_
            = some r1 → r1 = r)
      ∧ (r.status = DeliveryResult.DELIVERY_SUCCESS
          ↔ Reachable hasher (LoadRecords hasher records) start end_)
      ∧ (¬ Reachable hasher (LoadRecords hasher records) start end_ →
          r.status = DeliveryResult.NO_ROUTE ∧ r.route = []) := by
  have hG := GraphOK_LoadRecords hasher records
  obtain ⟨fuel0, r, hr⟩ :=
    GeneratePointToPointRoute_total hasher dist _ hG hnn start end_ hstart hend
  have hr0 := hr fuel0 (Nat.le_refl _)
  refine ⟨fuel0, r, hr, ?_, ?_, ?_⟩
  · intro fuel r1 h1
    exact GeneratePointToPointRoute_unique hasher dist _ fuel fuel0 start end_ r1 r h1 hr0
  · rcases GeneratePointToPointRoute_sound hasher dist _ hG hnn fuel0 start end_ hstart hend r hr0
      with ⟨h1, h2, _⟩ | ⟨h1, h2, _⟩
    · exact ⟨fun _ => h2, fun _ => h1⟩
    · constructor
      · intro h; rw [h1] at h; exact absurd h (by decide)
      · intro h; exact absurd h h2
  · intro hnr
    rcases GeneratePointToPointRoute_sound hasher dist _ hG hnn fuel0 start end_ hstart hend r hr0
      with ⟨_, h2, _⟩ | ⟨h1, _, h3, _⟩
    · exact absurd h2 hnr
    · exact ⟨h1, h3⟩

/-- Claim C5, witness: the query from 0 to 3 on the detour map. -/
theorem GeneratePointToPointRoute_success_iff_reachable_witness :
    ∃ fuel0 r,
      (∀ fuel, fuel0 ≤ fuel →
        GeneratePointToPointRoute exampleHasher detourDist (LoadRecords exampleHasher detourRecords)
          fuel 0 3 = some r)
      ∧ (∀ fuel r1,
          GeneratePointToPointRoute exampleHasher detourDist
            (LoadRecords exampleHasher detourRecords) fuel 0 3 = some r1 → r1 = r)
      ∧ (r.status = DeliveryResult.DELIVERY_SUCCESS
          ↔ Reachable exampleHasher (LoadRecords exampleHasher detourRecords) 0 3)
      ∧ (¬ Reachable exampleHasher (LoadRecords exampleHasher detourRecords) 0 3 →
          r.status = DeliveryResult.NO_ROUTE ∧ r.route = []) :=
  GeneratePointToPointRoute_success_iff_reachable exampleHasher detourDist detourRecords 0 3
    (fun s _ => detourDist_nonneg _ _) (by decide!) (by decide!)

/-- Claim C6, counterexample: a query from a coordinate to itself returns DELIVERY_SUCCESS
with the empty route. -/
theorem route_empty_from_a_coordinate_to_itself :
    (GetSegmentsThatStartWith exampleHasher detourMap 0).isSome = true
    ∧ GeneratePointToPointRoute exampleHasher detourDist detourMap 1 0 0
        = some ⟨DeliveryResult.DELIVERY_SUCCESS, [], 0⟩ := by
  constructor <;> decide!

/-- Claim C6, amended: on a map built by `Load` in which no street has the empty name, a
run of the router from `start` to a different `end` that returns DELIVERY_SUCCESS returns a
non-empty route. -/
theorem route_nonempty_of_success {Coord : Type} [LinearOrder Coord]
    (hasher : Coord → Nat) (dist : Coord → Coord → ℚ) (records : List (StreetRecord Coord))
    (fuel : Nat) (start end_ : Coord) (r : RouteResult Coord)
    (hname : ∀ s, InGraph hasher (LoadRecords hasher records) s → s.name ≠ "")
    (hse : start ≠ end_)
    (hr : GeneratePointToPointRoute hasher dist (LoadRecords hasher records) fuel start end_
      = some r)
    (hs : r.status = DeliveryResult.DELIVERY_SUCCESS) : r.route ≠ [] := by
  have hG := GraphOK_LoadRecords hasher records
  obtain ⟨hstart, hend⟩ := entries_of_not_bad_coord hasher dist _ fuel start end_ r hr
    (by rw [hs]; decide)
  rw [GeneratePointToPointRoute_eq hasher dist _ fuel start end_ hstart hend] at hr
  cases hsl : searchLoop hasher dist (LoadRecords hasher records) end_ fuel
      (initialSearchState hasher start) with
  | none => rw [hsl] at hr; simp at hr
  | some res =>
    rw [hsl] at hr
    obtain ⟨found, st⟩ := res
    have hinv := searchLoop_names hasher dist _ start end_ fuel _ found st
      (initialSearchState_names hasher _ start) hsl
    cases found with
    | false =>
      simp only [Option.some.injEq] at hr
      rw [← hr] at hs
      simp at hs
    | true =>
      dsimp only at hr
      cases hp : ExpandableHashMap.Find hasher st.prev_location end_ with
      | none => rw [hp] at hr; simp at hr
      | some p =>
        rw [hp] at hr
        dsimp only at hr
        cases hb : buildRoute hasher dist st.prev_location fuel end_ p [] 0 with
        | none => rw [hb] at hr; simp at hr
        | some res2 =>
          rw [hb] at hr
          simp only [Option.some.injEq] at hr
          obtain ⟨c, s, hsc, hsn⟩ := hinv.names end_ p (Ne.symm hse) hp
          have hpn : p.m_name ≠ "" := by
            rw [← hsn]
            exact hname s (segmentsAt_keyed hasher _ hG c s hsc).2.1
          have hlen := (buildRoute_length hasher dist _ fuel end_ p [] 0 res2 hb).2 hpn
          intro hempty
          rw [← hr] at hempty
          simp only at hempty
          rw [hempty] at hlen
          simp at hlen

/-- Claim C6, witness of the amended claim: the query from 0 to 3 on the detour map. -/
theorem route_nonempty_of_success_witness :
    GeneratePointToPointRoute exampleHasher detourDist (LoadRecords exampleHasher detourRecords)
        3 0 3 = some ⟨DeliveryResult.DELIVERY_SUCCESS, [⟨0, 2, "Y"⟩, ⟨2, 3, "Y"⟩], 12⟩
    ∧ ([⟨0, 2, "Y"⟩, ⟨2, 3, "Y"⟩] : List (StreetSegment Nat)) ≠ [] :=
  ⟨by decide!,
    route_nonempty_of_success exampleHasher detourDist detourRecords 3 0 3
      ⟨DeliveryResult.DELIVERY_SUCCESS, [⟨0, 2, "Y"⟩, ⟨2, 3, "Y"⟩], 12⟩
      detourMap_names (by decide) (by decide!) rfl⟩
/-- Claim C7: on a map built by `Load` with non-negative segment lengths in which no street
has the empty name, for `start` different from `end`, the route of a successful run is a
contiguous chain (each segment ends where the next one starts), its first segment starts at
`start`, its last segment ends at `end`, and every segment of it is stored in the graph. -/
theorem route_is_chain_of_graph_segments {Coord : Type} [LinearOrder Coord]
    (hasher : Coord → Nat) (dist : Coord → Coord → ℚ) (records : List (StreetRecord Coord))
    (fuel : Nat) (start end_ : Coord) (r : RouteResult Coord)
    (hnn : ∀ s, InGraph hasher (LoadRecords hasher records) s → 0 ≤ dist s.start s.end_)
    (hname : ∀ s, InGraph hasher (LoadRecords hasher records) s → s.name ≠ "")
    (hse : start ≠ end_)
    (hr : GeneratePointToPointRoute hasher dist (LoadRecords hasher records) fuel start end_
      = some r)
    (hs : r.status = DeliveryResult.DELIVERY_SUCCESS) :
    List.Chain' (fun s t => s.end_ = t.start) r.route
    ∧ r.route.head?.map (fun s => s.start) = some start
    ∧ r.route.getLast?.map (fun s => s.end_) = some end_
    ∧ ∀ s ∈ r.route, InGraph hasher (LoadRecords hasher records) s := by
  have hG := GraphOK_LoadRecords hasher records
  have hentries := entries_of_not_bad_coord hasher dist _ fuel start end_ r hr
    (by rw [hs]; decide)
  rcases GeneratePointToPointRoute_sound hasher dist _ hG hnn fuel start end_ hentries.1
      hentries.2 r hr with ⟨_, _, _, x, hx, hxs⟩ | ⟨h1, _⟩
  · rw [hxs hname] at hx
    obtain ⟨c1, c2, c3, c4⟩ := IsChain_facts hasher _ r.route start end_ hx
    have hne : r.route ≠ [] := fun e => hse (c4 e)
    exact ⟨c1, (c3 hne).1, (c3 hne).2, c2⟩
  · rw [h1] at hs; exact absurd hs (by decide)

/-- Claim C7, witness: the query from 3 to 0 on the detour map. -/
theorem route_is_chain_of_graph_segments_witness :
    GeneratePointToPointRoute exampleHasher detourDist (LoadRecords exampleHasher detourRecords)
        4 3 0 = some ⟨DeliveryResult.DELIVERY_SUCCESS, [⟨3, 1, "X"⟩, ⟨1, 0, "X"⟩], 10⟩
    ∧ List.Chain' (fun s t => s.end_ = t.start)
        ([⟨3, 1, "X"⟩, ⟨1, 0, "X"⟩] : List (StreetSegment Nat))
    ∧ ([⟨3, 1, "X"⟩, ⟨1, 0, "X"⟩] : List (StreetSegment Nat)).head?.map (fun s => s.start)
        = some 3
    ∧ ([⟨3, 1, "X"⟩, ⟨1, 0, "X"⟩] : List (StreetSegment Nat)).getLast?.map (fun s => s.end_)
        = some 0
    ∧ ∀ s ∈ ([⟨3, 1, "X"⟩, ⟨1, 0, "X"⟩] : List (StreetSegment Nat)),
        InGraph exampleHasher (LoadRecords exampleHasher detourRecords) s :=
  ⟨by decide!,
    route_is_chain_of_graph_segments exampleHasher detourDist detourRecords 4 3 0
      ⟨DeliveryResult.DELIVERY_SUCCESS, [⟨3, 1, "X"⟩, ⟨1, 0, "X"⟩], 10⟩
      (fun s _ => detourDist_nonneg _ _) detourMap_names (by decide) (by decide!) rfl⟩

/-- Claim C8, at the failing input: on the detour map (symmetric, as built by `Load`) with
the symmetric grid distance, routing succeeds both ways between 0 and 3, with total distance
12 from 0 to 3 and total distance 10 from 3 to 0. -/
theorem router_distance_depends_on_direction :
    (∀ a b, detourDist a b = detourDist b a)
    ∧ (∀ fuel, GeneratePointToPointRoute exampleHasher detourDist detourMap (fuel + 3) 0 3
        = some ⟨DeliveryResult.DELIVERY_SUCCESS, [⟨0, 2, "Y"⟩, ⟨2, 3, "Y"⟩], 12⟩)
    ∧ (∀ fuel, GeneratePointToPointRoute exampleHasher detourDist detourMap (fuel + 4) 3 0
        = some ⟨DeliveryResult.DELIVERY_SUCCESS, [⟨3, 1, "X"⟩, ⟨1, 0, "X"⟩], 10⟩) := by
  refine ⟨detourDist_symm, ?_, ?_⟩
  · intro fuel
    rw [Nat.add_comm]
    exact GeneratePointToPointRoute_fuel_add exampleHasher detourDist detourMap 3 0 3 _
      (by decide!) fuel
  · intro fuel
    rw [Nat.add_comm]
    exact GeneratePointToPointRoute_fuel_add exampleHasher detourDist detourMap 4 3 0 _
      (by decide!) fuel
section OptimizerLemmas

variable {Coord : Type}

theorem tail_dropLast_closed (d1 d2 : DeliveryRequest Coord)
    (mid : List (DeliveryRequest Coord)) : (d1 :: mid ++ [d2]).tail.dropLast = mid := by
  simp [List.dropLast_concat]

/-- The span drawn by the `do ... while` loop lies strictly inside the tour. -/
theorem pickSpan_spec (rand : Nat → Nat) (num_stops num_middle_stops : Nat)
    (hn : 0 < num_middle_stops) :
    ∀ (fuel calls s e calls1 : Nat),
      pickSpan rand num_stops num_middle_stops fuel calls = some (s, e, calls1) →
      1 ≤ s ∧ s < e ∧ e ≤ num_middle_stops := by
  intro fuel
  induction fuel with
  | zero => intro calls s e calls1 h; simp [pickSpan] at h
  | succ fuel ih =>
    intro calls s e calls1 h
    have hm1 : rand calls % num_middle_stops < num_middle_stops := Nat.mod_lt _ hn
    have hm2 : rand (calls + 1) % num_middle_stops < num_middle_stops := Nat.mod_lt _ hn
    have hend1 : (if rand (calls + 1) % num_middle_stops + 1 = num_middle_stops + 1
        then rand (calls + 1) % num_middle_stops + 1 - 1
        else rand (calls + 1) % num_middle_stops + 1)
        = rand (calls + 1) % num_middle_stops + 1 := by
      rw [if_neg (by omega)]
    rw [pickSpan] at h
    simp only [hend1] at h
    by_cases hgt : rand calls % num_middle_stops + 1 > rand (calls + 1) % num_middle_stops + 1
    · simp only [hgt, if_true] at h
      split at h
      · exact ih _ _ _ _ h
      · rename_i hcond
        simp only [Option.some.injEq, Prod.mk.injEq] at h
        obtain ⟨h1, h2, _⟩ := h
        have hne : s ≠ e := by
          intro he
          apply hcond
          left
          rw [h1, h2]; exact he
        omega
    · simp only [hgt, if_false] at h
      split at h
      · exact ih _ _ _ _ h
      · rename_i hcond
        simp only [Option.some.injEq, Prod.mk.injEq] at h
        obtain ⟨h1, h2, _⟩ := h
        have hne : s ≠ e := by
          intro he
          apply hcond
          left
          rw [h1, h2]; exact he
        omega

/-- Reversing a span strictly inside a tour gives a tour of the same deliveries. -/
theorem flipSpan_tour (depot : Coord) (deliveries path : List (DeliveryRequest Coord))
    (hp : IsTour depot deliveries path) (s e : Nat) (hs : 1 ≤ s) (hse : s < e)
    (he : e ≤ deliveries.length) : IsTour depot deliveries (flipSpan path s e) := by
  obtain ⟨mid, rfl, hperm⟩ := hp
  have hlen : mid.length = deliveries.length := hperm.length_eq
  obtain ⟨s1, rfl⟩ : ∃ s1, s = s1 + 1 := ⟨s - 1, by omega⟩
  refine ⟨mid.take s1 ++ ((mid.drop s1).take (e - s1)).reverse ++ mid.drop e, ?_, ?_⟩
  · unfold flipSpan
    have e1 : e + 1 - (s1 + 1) = e - s1 := by omega
    rw [e1]
    simp only [List.cons_append, List.take_succ_cons, List.drop_succ_cons]
    rw [List.take_append_of_le_length (by omega), List.drop_append_of_le_length (by omega),
      List.drop_append_of_le_length (by omega),
      List.take_append_of_le_length (by rw [List.length_drop]; omega)]
    simp
  · have hsplit : mid = mid.take s1 ++ ((mid.drop s1).take (e - s1) ++ mid.drop e) := by
      have h1 : (mid.drop s1).drop (e - s1) = mid.drop e := by
        rw [List.drop_drop]; congr 1; omega
      rw [← h1, List.take_append_drop, List.take_append_drop]
    refine List.Perm.trans ?_ (hsplit ▸ hperm)
    rw [List.append_assoc]
    exact List.Perm.append_left _ (List.Perm.append_right _ (List.reverse_perm _))

theorem closed_take (d1 d2 : DeliveryRequest Coord) (mid : List (DeliveryRequest Coord))
    (n : Nat) (h : n ≤ mid.length) : (d1 :: mid ++ [d2]).take (n + 1) = d1 :: mid.take n := by
  simp only [List.cons_append, List.take_succ_cons]
  rw [List.take_append_of_le_length h]

theorem closed_drop (d1 d2 : DeliveryRequest Coord) (mid : List (DeliveryRequest Coord))
    (n : Nat) (h : n ≤ mid.length) :
    (d1 :: mid ++ [d2]).drop (n + 1) = mid.drop n ++ [d2] := by
  simp only [List.cons_append, List.drop_succ_cons]
  rw [List.drop_append_of_le_length h]

/-- Moving a span strictly inside a tour to a position inside what is left gives a tour of
the same deliveries. -/
theorem moveSpan_tour (depot : Coord) (deliveries path : List (DeliveryRequest Coord))
    (hp : IsTour depot deliveries path) (s e np : Nat) (hs : 1 ≤ s) (hse : s < e)
    (he : e ≤ deliveries.length) (hnp1 : 1 ≤ np) (hnp2 : np + (e - s) ≤ deliveries.length) :
    IsTour depot deliveries (moveSpan path s e np) := by
  obtain ⟨mid, rfl, hperm⟩ := hp
  have hlen : mid.length = deliveries.length := hperm.length_eq
  obtain ⟨s1, rfl⟩ : ∃ s1, s = s1 + 1 := ⟨s - 1, by omega⟩
  obtain ⟨n1, rfl⟩ : ∃ n1, np = n1 + 1 := ⟨np - 1, by omega⟩
  refine ⟨(mid.take s1 ++ mid.drop e).take n1 ++ (mid.drop s1).take (e - s1)
      ++ (mid.take s1 ++ mid.drop e).drop n1, ?_, ?_⟩
  · unfold moveSpan
    have e1 : e + 1 - (s1 + 1) = e - s1 := by omega
    have hl : n1 ≤ (mid.take s1 ++ mid.drop e).length := by
      rw [List.length_append, List.length_take, List.length_drop]
      omega
    have hB : ((depotEntry depot :: mid ++ [depotEntry depot]).drop (s1 + 1)).take (e - s1)
        = (mid.drop s1).take (e - s1) := by
      rw [closed_drop _ _ _ _ (by omega),
        List.take_append_of_le_length (by rw [List.length_drop]; omega)]
    have hE : (depotEntry depot :: mid ++ [depotEntry depot]).take (s1 + 1)
        ++ (depotEntry depot :: mid ++ [depotEntry depot]).drop (e + 1)
        = depotEntry depot :: (mid.take s1 ++ mid.drop e) ++ [depotEntry depot] := by
      rw [closed_take _ _ _ _ (by omega), closed_drop _ _ _ _ (by omega)]
      simp
    dsimp only
    rw [e1, hB, hE, closed_take _ _ _ _ hl, closed_drop _ _ _ _ hl]
    simp
  · have hsplit : mid = mid.take s1 ++ ((mid.drop s1).take (e - s1) ++ mid.drop e) := by
      have h1 : (mid.drop s1).drop (e - s1) = mid.drop e := by
        rw [List.drop_drop]; congr 1; omega
      rw [← h1, List.take_append_drop, List.take_append_drop]
    refine List.Perm.trans ?_ (hsplit ▸ hperm)
    have hAC : ((mid.take s1 ++ mid.drop e).take n1 ++ (mid.take s1 ++ mid.drop e).drop n1)
        = mid.take s1 ++ mid.drop e := List.take_append_drop _ _
    have p1 : ((mid.take s1 ++ mid.drop e).take n1 ++ (mid.drop s1).take (e - s1)
          ++ (mid.take s1 ++ mid.drop e).drop n1).Perm
        ((mid.drop s1).take (e - s1) ++ ((mid.take s1 ++ mid.drop e).take n1
            ++ (mid.take s1 ++ mid.drop e).drop n1)) := by
      rw [List.append_assoc]
      exact List.perm_append_comm_assoc _ _ _
    rw [hAC] at p1
    exact p1.trans (List.perm_append_comm_assoc _ _ _)

end OptimizerLemmas
section OptimizerInvariant

variable {Coord : Type}

/-- What one proposed move does to the working tour and to the history. -/
theorem annealStep_spec (dist : Coord → Coord → ℚ) (expFn : ℚ → ℚ) (rng : RandomSource)
    (fuel num_stops num_middle_stops : Nat) (temperature : ℚ) (st st1 : AnnealState Coord)
    (h : annealStep dist expFn rng fuel num_stops num_middle_stops temperature st = some st1) :
    ∃ s e c temp,
      pickSpan rng.rand num_stops num_middle_stops fuel st.rand_calls = some (s, e, c)
      ∧ (temp = flipSpan st.delivery_path s e
          ∨ (temp = moveSpan st.delivery_path s e
                (rng.rand (c + 1) % (num_stops - (e - s) - 2) + 1)
              ∧ num_stops - (e - s) - 2 ≠ 0))
      ∧ (st1.delivery_path = temp ∨ st1.delivery_path = st.delivery_path)
      ∧ st1.history = (temp, st1.delivery_path) :: st.history := by
  unfold annealStep at h
  cases hpick : pickSpan rng.rand num_stops num_middle_stops fuel st.rand_calls with
  | none => rw [hpick] at h; simp at h
  | some res =>
    obtain ⟨s, e, c⟩ := res
    rw [hpick] at h
    dsimp only at h
    by_cases hflip : rng.rand c % 2 ≠ 0
    · have hd : decide (rng.rand c % 2 ≠ 0) = true := decide_eq_true hflip
      simp only [hd, not_true_eq_false, false_and, if_false, if_true] at h
      refine ⟨s, e, c, flipSpan st.delivery_path s e, rfl, Or.inl rfl, ?_⟩
      split at h
      · simp only [Option.some.injEq] at h; rw [← h]; exact ⟨Or.inl rfl, rfl⟩
      · split at h
        · split at h
          · simp only [Option.some.injEq] at h; rw [← h]; exact ⟨Or.inl rfl, rfl⟩
          · simp only [Option.some.injEq] at h; rw [← h]; exact ⟨Or.inr rfl, rfl⟩
        · simp only [Option.some.injEq] at h; rw [← h]; exact ⟨Or.inr rfl, rfl⟩
    · have hd : decide (rng.rand c % 2 ≠ 0) = false := decide_eq_false hflip
      simp only [hd, Bool.false_eq_true, not_false_eq_true, true_and, if_false] at h
      by_cases hroom : num_stops - (e - s) - 2 = 0
      · rw [if_pos hroom] at h; simp at h
      · rw [if_neg hroom] at h
        refine ⟨s, e, c, moveSpan st.delivery_path s e
          (rng.rand (c + 1) % (num_stops - (e - s) - 2) + 1), rfl, Or.inr ⟨rfl, hroom⟩, ?_⟩
        split at h
        · simp only [Option.some.injEq] at h; rw [← h]; exact ⟨Or.inl rfl, rfl⟩
        · split at h
          · split at h
            · simp only [Option.some.injEq] at h; rw [← h]; exact ⟨Or.inl rfl, rfl⟩
            · simp only [Option.some.injEq] at h; rw [← h]; exact ⟨Or.inr rfl, rfl⟩
          · simp only [Option.some.injEq] at h; rw [← h]; exact ⟨Or.inr rfl, rfl⟩

end OptimizerInvariant
section OptimizerLoops

variable {Coord : Type}

theorem annealStep_inv (dist : Coord → Coord → ℚ) (expFn : ℚ → ℚ) (rng : RandomSource)
    (fuel : Nat) (temperature : ℚ) (depot : Coord) (deliveries : List (DeliveryRequest Coord))
    (hn : 0 < deliveries.length) (st st1 : AnnealState Coord)
    (hinv : TourInv depot deliveries st)
    (h : annealStep dist expFn rng fuel (deliveries.length + 2) deliveries.length temperature st
      = some st1) : TourInv depot deliveries st1 := by
  obtain ⟨s, e, c, temp, hpick, htemp, hpath, hhist⟩ :=
    annealStep_spec dist expFn rng fuel _ _ temperature st st1 h
  obtain ⟨hs, hse, he⟩ := pickSpan_spec rng.rand _ _ hn fuel _ s e c hpick
  have htour : IsTour depot deliveries temp := by
    rcases htemp with ht | ⟨ht, hroom⟩
    · rw [ht]; exact flipSpan_tour depot deliveries _ hinv.1 s e hs hse he
    · rw [ht]
      have hlt : rng.rand (c + 1) % (deliveries.length + 2 - (e - s) - 2)
          < deliveries.length + 2 - (e - s) - 2 := Nat.mod_lt _ (Nat.pos_of_ne_zero hroom)
      exact moveSpan_tour depot deliveries _ hinv.1 s e _ hs hse he (by omega) (by omega)
  have hpath1 : IsTour depot deliveries st1.delivery_path := by
    rcases hpath with hp | hp
    · rw [hp]; exact htour
    · rw [hp]; exact hinv.1
  refine ⟨hpath1, ?_⟩
  intro m hm
  rw [hhist] at hm
  rcases List.mem_cons.1 hm with e1 | e1
  · rw [e1]; exact ⟨htour, hpath1⟩
  · exact hinv.2 m e1

theorem epochLoop_inv (dist : Coord → Coord → ℚ) (expFn : ℚ → ℚ) (rng : RandomSource)
    (fuel max_paths_before_cont : Nat) (temperature : ℚ) (depot : Coord)
    (deliveries : List (DeliveryRequest Coord)) (hn : 0 < deliveries.length) :
    ∀ (remaining : Nat) (st st1 : AnnealState Coord), TourInv depot deliveries st →
      epochLoop dist expFn rng fuel (deliveries.length + 2) deliveries.length
        max_paths_before_cont temperature remaining st = some st1 →
      TourInv depot deliveries st1 := by
  intro remaining
  induction remaining with
  | zero =>
    intro st st1 hinv h
    simp only [epochLoop, Option.some.injEq] at h
    rw [← h]; exact hinv
  | succ remaining ih =>
    intro st st1 hinv h
    rw [epochLoop] at h
    cases hstep : annealStep dist expFn rng fuel (deliveries.length + 2) deliveries.length
        temperature st with
    | none => rw [hstep] at h; simp at h
    | some st2 =>
      rw [hstep] at h
      have hinv2 := annealStep_inv dist expFn rng fuel temperature depot deliveries hn st st2
        hinv hstep
      dsimp only at h
      split at h
      · simp only [Option.some.injEq] at h
        rw [← h]; exact hinv2
      · exact ih st2 st1 hinv2 h

theorem annealLoop_inv (dist : Coord → Coord → ℚ) (expFn : ℚ → ℚ) (rng : RandomSource)
    (fuel max_paths_temp max_paths_before_cont : Nat) (depot : Coord)
    (deliveries : List (DeliveryRequest Coord)) (hn : 0 < deliveries.length) :
    ∀ (remaining : Nat) (temperature : ℚ) (st st1 : AnnealState Coord),
      TourInv depot deliveries st →
      annealLoop dist expFn rng fuel (deliveries.length + 2) deliveries.length max_paths_temp
        max_paths_before_cont remaining temperature st = some st1 →
      TourInv depot deliveries st1 := by
  intro remaining
  induction remaining with
  | zero =>
    intro temperature st st1 hinv h
    simp only [annealLoop, Option.some.injEq] at h
    rw [← h]; exact hinv
  | succ remaining ih =>
    intro temperature st st1 hinv h
    rw [annealLoop] at h
    cases hep : epochLoop dist expFn rng fuel (deliveries.length + 2) deliveries.length
        max_paths_before_cont temperature max_paths_temp
        ⟨st.delivery_path, st.curr_path_len, 0, st.rand_calls, st.uniform_calls, st.history⟩ with
    | none => rw [hep] at h; simp at h
    | some st2 =>
      rw [hep] at h
      have hinv2 := epochLoop_inv dist expFn rng fuel max_paths_before_cont temperature depot
        deliveries hn max_paths_temp
        ⟨st.delivery_path, st.curr_path_len, 0, st.rand_calls, st.uniform_calls, st.history⟩ st2
        ⟨hinv.1, hinv.2⟩ hep
      exact ih _ st2 st1 hinv2 h

theorem IsTour_facts (depot : Coord) (deliveries path : List (DeliveryRequest Coord))
    (h : IsTour depot deliveries path) :
    path.head? = some ⟨"", depot⟩ ∧ path.getLast? = some ⟨"", depot⟩
      ∧ path.tail.dropLast.Perm deliveries := by
  obtain ⟨mid, rfl, hperm⟩ := h
  refine ⟨rfl, ?_, ?_⟩
  · have : depotEntry depot :: mid ++ [depotEntry depot]
        = (depotEntry depot :: mid) ++ [depotEntry depot] := rfl
    rw [this, List.getLast?_append]
    rfl
  · rw [tail_dropLast_closed]; exact hperm

/-- The final working tour of `OptimizeDeliveryOrder` and its history. -/
theorem OptimizeDeliveryOrder_tour (dist : Coord → Coord → ℚ) (expFn : ℚ → ℚ)
    (rng : RandomSource) (fuel : Nat) (depot : Coord) (deliveries : List (DeliveryRequest Coord))
    (r : OptimizeResult Coord)
    (h : OptimizeDeliveryOrder dist expFn rng fuel depot deliveries = some r) :
    ∃ st : AnnealState Coord, TourInv depot deliveries st
      ∧ r.deliveries = st.delivery_path.tail.dropLast ∧ r.history = st.history := by
  have hinit : TourInv depot deliveries
      ⟨(⟨"", depot⟩ :: deliveries) ++ [⟨"", depot⟩],
        crowLength dist ((⟨"", depot⟩ :: deliveries) ++ [⟨"", depot⟩]), 0, 0, 0, []⟩ :=
    ⟨⟨deliveries, rfl, List.Perm.refl _⟩, by intro m hm; simp at hm⟩
  unfold OptimizeDeliveryOrder at h
  dsimp only at h
  by_cases hlen : deliveries.length > 1
  · rw [if_pos hlen] at h
    have hlen2 : ((⟨"", depot⟩ :: deliveries) ++ [(⟨"", depot⟩ : DeliveryRequest Coord)]).length
        = deliveries.length + 2 := by simp
    rw [hlen2] at h
    have hsub : deliveries.length + 2 - 2 = deliveries.length := by omega
    rw [hsub] at h
    split at h
    · simp at h
    · rename_i st hst
      simp only [Option.some.injEq] at h
      refine ⟨st, ?_, by rw [← h], by rw [← h]⟩
      exact annealLoop_inv dist expFn rng fuel _ _ depot deliveries (by omega) _ _ _ st hinit hst
  · rw [if_neg hlen] at h
    simp only [Option.some.injEq] at h
    exact ⟨_, hinit, by rw [← h], by rw [← h]⟩

/-- On a list of at most one delivery the annealing is skipped. -/
theorem OptimizeDeliveryOrder_short_eq (dist : Coord → Coord → ℚ)
    (expFn : ℚ → ℚ) (rng : RandomSource) (fuel : Nat) (depot : Coord)
    (deliveries : List (DeliveryRequest Coord)) (h : deliveries.length ≤ 1) :
    OptimizeDeliveryOrder dist expFn rng fuel depot deliveries
      = some ⟨deliveries,
          crowLength dist ((⟨"", depot⟩ :: deliveries) ++ [⟨"", depot⟩]),
          crowLength dist ((⟨"", depot⟩ :: deliveries) ++ [⟨"", depot⟩]), 0, 0, []⟩ := by
  unfold OptimizeDeliveryOrder
  dsimp only
  rw [if_neg (by omega)]
  dsimp only
  rw [tail_dropLast_closed]

/-- The list that `OptimizeDeliveryOrder` returns is a permutation of its input. -/
theorem OptimizeDeliveryOrder_perm (dist : Coord → Coord → ℚ) (expFn : ℚ → ℚ)
    (rng : RandomSource) (fuel : Nat) (depot : Coord) (deliveries : List (DeliveryRequest Coord))
    (r : OptimizeResult Coord)
    (h : OptimizeDeliveryOrder dist expFn rng fuel depot deliveries = some r) :
    r.deliveries.Perm deliveries := by
  obtain ⟨st, hinv, hd, _⟩ := OptimizeDeliveryOrder_tour dist expFn rng fuel depot deliveries r h
  rw [hd]
  exact (IsTour_facts depot deliveries _ hinv.1).2.2

end OptimizerLoops

/-! ## The optimizer: claims C9 and C10 -/

/-- Claim C9: for a deliveries list with 0 or 1 entries, `OptimizeDeliveryOrder` returns
whatever the fuel and the random source, leaves `deliveries` as it is, sets `old_crow_dist`
and `new_crow_dist` to one and the same value (the length of the closed tour through the
depot), makes no random draw and proposes no move. -/
theorem OptimizeDeliveryOrder_short_list {Coord : Type} (dist : Coord → Coord → ℚ)
    (expFn : ℚ → ℚ) (rng : RandomSource) (fuel : Nat) (depot : Coord)
    (deliveries : List (DeliveryRequest Coord)) (h : deliveries.length ≤ 1) :
    OptimizeDeliveryOrder dist expFn rng fuel depot deliveries
      = some ⟨deliveries,
          crowLength dist ((⟨"", depot⟩ :: deliveries) ++ [⟨"", depot⟩]),
          crowLength dist ((⟨"", depot⟩ :: deliveries) ++ [⟨"", depot⟩]), 0, 0, []⟩ :=
  OptimizeDeliveryOrder_short_eq dist expFn rng fuel depot deliveries h

/-- Claim C9, witness: one delivery at coordinate 3 of the detour map, depot 0. -/
theorem OptimizeDeliveryOrder_short_list_witness :
    OptimizeDeliveryOrder detourDist (fun _ => 0) alternatingSource 0 0 [⟨"pizza", 3⟩]
      = some ⟨[⟨"pizza", 3⟩], 20, 20, 0, 0, []⟩ := by
  have h := OptimizeDeliveryOrder_short_list detourDist (fun _ => 0) alternatingSource 0 0
    [⟨"pizza", 3⟩] (by decide)
  rw [h]
  decide!

/-- Claim C10: whenever `OptimizeDeliveryOrder` returns, for any depot, deliveries, fuel
and random draws, the returned list is a permutation of the input list (same requests with
the same multiplicities, hence the same length), and for every move proposed during the run
both the candidate tour and the working tour after the acceptance test begin with the depot
stand-in, end with the depot stand-in, and hold between the two exactly the input deliveries
in some order (so the stand-in occurs inside only if it is itself one of the requests). -/
theorem OptimizeDeliveryOrder_permutation {Coord : Type} (dist : Coord → Coord → ℚ)
    (expFn : ℚ → ℚ) (rng : RandomSource) (fuel : Nat) (depot : Coord)
    (deliveries : List (DeliveryRequest Coord)) (r : OptimizeResult Coord)
    (h : OptimizeDeliveryOrder dist expFn rng fuel depot deliveries = some r) :
    r.deliveries.Perm deliveries ∧ r.deliveries.length = deliveries.length
    ∧ ∀ m ∈ r.history,
        (m.1.head? = some ⟨"", depot⟩ ∧ m.1.getLast? = some ⟨"", depot⟩
          ∧ m.1.tail.dropLast.Perm deliveries)
        ∧ (m.2.head? = some ⟨"", depot⟩ ∧ m.2.getLast? = some ⟨"", depot⟩
          ∧ m.2.tail.dropLast.Perm deliveries) := by
  obtain ⟨st, hinv, hd, hh⟩ := OptimizeDeliveryOrder_tour dist expFn rng fuel depot deliveries r h
  have hperm : r.deliveries.Perm deliveries :=
    OptimizeDeliveryOrder_perm dist expFn rng fuel depot deliveries r h
  refine ⟨hperm, hperm.length_eq, ?_⟩
  intro m hm
  rw [hh] at hm
  exact ⟨IsTour_facts depot deliveries _ (hinv.2 m hm).1,
    IsTour_facts depot deliveries _ (hinv.2 m hm).2⟩
section OptimizerTotality

variable {Coord : Type}

theorem pickSpan_alternating (fuel calls : Nat) (hc : calls % 2 = 0) :
    pickSpan alternatingSource.rand 4 2 (fuel + 1) calls = some (1, 2, calls + 2) := by
  have h0 : alternatingSource.rand calls = 0 := hc
  have h1 : alternatingSource.rand (calls + 1) = 1 := by
    show (calls + 1) % 2 = 1
    omega
  rw [pickSpan, h0, h1]
  norm_num

/-- With the alternating source and two deliveries, every proposed move is made: the span
is found at the first draw and the number of draws stays even. -/
theorem annealStep_alternating (dist : Coord → Coord → ℚ) (expFn : ℚ → ℚ) (fuel : Nat)
    (temperature : ℚ) (st : AnnealState Coord) (hc : st.rand_calls % 2 = 0) :
    ∃ st1, annealStep dist expFn alternatingSource (fuel + 1) 4 2 temperature st = some st1
      ∧ st1.rand_calls % 2 = 0 := by
  have h2 : alternatingSource.rand (st.rand_calls + 2) % 2 = 0 := by
    show (st.rand_calls + 2) % 2 % 2 = 0
    omega
  unfold annealStep
  rw [pickSpan_alternating fuel st.rand_calls hc]
  simp only [h2, ne_eq, not_true_eq_false, decide_False, Bool.false_eq_true, if_false]
  norm_num
  split_ifs <;> exact ⟨_, rfl, by simp only; omega⟩

theorem epochLoop_alternating (dist : Coord → Coord → ℚ) (expFn : ℚ → ℚ) (fuel : Nat)
    (max_paths_before_cont : Nat) (temperature : ℚ) :
    ∀ (remaining : Nat) (st : AnnealState Coord), st.rand_calls % 2 = 0 →
      ∃ st1, epochLoop dist expFn alternatingSource (fuel + 1) 4 2 max_paths_before_cont
          temperature remaining st = some st1 ∧ st1.rand_calls % 2 = 0 := by
  intro remaining
  induction remaining with
  | zero => intro st hc; exact ⟨st, rfl, hc⟩
  | succ remaining ih =>
    intro st hc
    obtain ⟨st1, h1, hc1⟩ := annealStep_alternating dist expFn fuel temperature st hc
    rw [epochLoop, h1]
    dsimp only
    split
    · exact ⟨st1, rfl, hc1⟩
    · exact ih st1 hc1

theorem annealLoop_alternating (dist : Coord → Coord → ℚ) (expFn : ℚ → ℚ) (fuel : Nat)
    (max_paths_temp max_paths_before_cont : Nat) :
    ∀ (remaining : Nat) (temperature : ℚ) (st : AnnealState Coord), st.rand_calls % 2 = 0 →
      ∃ st1, annealLoop dist expFn alternatingSource (fuel + 1) 4 2 max_paths_temp
          max_paths_before_cont remaining temperature st = some st1 := by
  intro remaining
  induction remaining with
  | zero => intro temperature st _; exact ⟨st, rfl⟩
  | succ remaining ih =>
    intro temperature st hc
    obtain ⟨st1, h1, hc1⟩ := epochLoop_alternating dist expFn fuel max_paths_before_cont
      temperature max_paths_temp
      ⟨st.delivery_path, st.curr_path_len, 0, st.rand_calls, st.uniform_calls, st.history⟩ hc
    rw [annealLoop, h1]
    exact ih _ st1 hc1

/-- With the alternating source, `OptimizeDeliveryOrder` returns on every list of two
deliveries, for every positive fuel. -/
theorem OptimizeDeliveryOrder_alternating (dist : Coord → Coord → ℚ) (expFn : ℚ → ℚ)
    (fuel : Nat) (hf : 0 < fuel) (depot : Coord) (a b : DeliveryRequest Coord) :
    ∃ r, OptimizeDeliveryOrder dist expFn alternatingSource fuel depot [a, b] = some r := by
  obtain ⟨f, rfl⟩ : ∃ f, fuel = f + 1 := ⟨fuel - 1, by omega⟩
  obtain ⟨st1, h1⟩ := annealLoop_alternating dist expFn f (max_iterations * 4)
    (max_iterations * 4) max_iterations (1 / 2)
    ⟨[⟨"", depot⟩, a, b, ⟨"", depot⟩], crowLength dist [⟨"", depot⟩, a, b, ⟨"", depot⟩], 0, 0, 0, []⟩
    rfl
  refine ⟨⟨st1.delivery_path.tail.dropLast, crowLength dist [⟨"", depot⟩, a, b, ⟨"", depot⟩],
    crowLength dist st1.delivery_path, st1.rand_calls, st1.uniform_calls, st1.history⟩, ?_⟩
  unfold OptimizeDeliveryOrder
  simp only [List.length_cons, List.length_nil, List.cons_append, List.nil_append,
    List.length_singleton]
  norm_num
  rw [h1]

end OptimizerTotality

/-- Claim C10, witness: two deliveries, depot 0 and the alternating source, for which the
optimizer returns. -/
theorem OptimizeDeliveryOrder_permutation_witness :
    ∃ r, OptimizeDeliveryOrder detourDist (fun _ => 0) alternatingSource 1 0
        [⟨"pizza", 3⟩, ⟨"salad", 1⟩] = some r
      ∧ r.deliveries.Perm [⟨"pizza", 3⟩, ⟨"salad", 1⟩]
      ∧ r.deliveries.length = ([⟨"pizza", 3⟩, ⟨"salad", 1⟩] : List (DeliveryRequest Nat)).length
      ∧ ∀ m ∈ r.history,
          (m.1.head? = some ⟨"", 0⟩ ∧ m.1.getLast? = some ⟨"", 0⟩
            ∧ m.1.tail.dropLast.Perm [⟨"pizza", 3⟩, ⟨"salad", 1⟩])
          ∧ (m.2.head? = some ⟨"", 0⟩ ∧ m.2.getLast? = some ⟨"", 0⟩
            ∧ m.2.tail.dropLast.Perm [⟨"pizza", 3⟩, ⟨"salad", 1⟩]) := by
  obtain ⟨r, hr⟩ := OptimizeDeliveryOrder_alternating detourDist (fun _ => 0) 1 (by decide) 0
    ⟨"pizza", 3⟩ ⟨"salad", 1⟩
  exact ⟨r, hr, OptimizeDeliveryOrder_permutation detourDist (fun _ => 0) alternatingSource 1 0
    [⟨"pizza", 3⟩, ⟨"salad", 1⟩] r hr⟩
section PlannerLemmas

variable {Coord : Type} [LinearOrder Coord]

theorem AddDelivery_fuel_succ (hasher : Coord → Nat) (dist : Coord → Coord → ℚ)
    (sm : StreetMapImpl Coord) (fuel : Nat) (new_distance : ℚ)
    (total_path : List (StreetSegment Coord)) (start end_ : Coord)
    (x : DeliveryResult × List (StreetSegment Coord) × ℚ)
    (h : AddDelivery hasher dist sm fuel new_distance total_path start end_ = some x) :
    AddDelivery hasher dist sm (fuel + 1) new_distance total_path start end_ = some x := by
  unfold AddDelivery at h ⊢
  cases hr : GeneratePointToPointRoute hasher dist sm fuel start end_ with
  | none => rw [hr] at h; simp at h
  | some r =>
    rw [hr] at h
    rw [GeneratePointToPointRoute_fuel_succ hasher dist sm fuel start end_ r hr]
    exact h

theorem addLegs_fuel_succ (hasher : Coord → Nat) (dist : Coord → Coord → ℚ)
    (sm : StreetMapImpl Coord) (fuel : Nat) :
    ∀ (legs : List (Coord × Coord)) (total_path : List (StreetSegment Coord)) (total : ℚ)
      (x : DeliveryResult × List (StreetSegment Coord) × ℚ),
      addLegs hasher dist sm fuel legs total_path total = some x →
      addLegs hasher dist sm (fuel + 1) legs total_path total = some x := by
  intro legs
  induction legs with
  | nil => intro total_path total x h; exact h
  | cons leg rest ih =>
    intro total_path total x h
    rw [addLegs] at h ⊢
    cases ha : AddDelivery hasher dist sm fuel 0 total_path leg.1 leg.2 with
    | none => rw [ha] at h; simp at h
    | some y =>
      rw [ha] at h
      rw [AddDelivery_fuel_succ hasher dist sm fuel 0 total_path leg.1 leg.2 y ha]
      obtain ⟨status, path1, total1⟩ := y
      dsimp only at h ⊢
      split
      · rename_i hs; rw [if_pos hs] at h; exact h
      · rename_i hs; rw [if_neg hs] at h; exact ih _ _ _ h

theorem planOptimized_fuel_succ (hasher : Coord → Nat) (dist : Coord → Coord → ℚ)
    (geo : Geometry Coord) (sm : StreetMapImpl Coord) (fuel : Nat) (depot : Coord)
    (optimized_deliveries : List (DeliveryRequest Coord)) (commands : List DeliveryCommand)
    (r : PlanResult)
    (h : planOptimized hasher dist geo sm fuel depot optimized_deliveries commands = some r) :
    planOptimized hasher dist geo sm (fuel + 1) depot optimized_deliveries commands = some r := by
  unfold planOptimized at h ⊢
  cases optimized_deliveries with
  | nil => simp at h
  | cons d rest =>
    dsimp only at h ⊢
    cases ha : addLegs hasher dist sm fuel
        (consecutivePairs ((depot :: List.map (fun d => d.location) (d :: rest)) ++ [depot])) [] 0 with
    | none => rw [ha] at h; simp at h
    | some y =>
      rw [ha] at h
      rw [addLegs_fuel_succ hasher dist sm fuel _ _ _ y ha]
      exact h

theorem planOptimized_fuel_add (hasher : Coord → Nat) (dist : Coord → Coord → ℚ)
    (geo : Geometry Coord) (sm : StreetMapImpl Coord) (fuel : Nat) (depot : Coord)
    (optimized_deliveries : List (DeliveryRequest Coord)) (commands : List DeliveryCommand)
    (r : PlanResult)
    (h : planOptimized hasher dist geo sm fuel depot optimized_deliveries commands = some r) :
    ∀ k, planOptimized hasher dist geo sm (fuel + k) depot optimized_deliveries commands
      = some r := by
  intro k
  induction k with
  | zero => exact h
  | succ k ih => exact planOptimized_fuel_succ hasher dist geo sm _ depot _ _ r ih

/-- Two runs of the planner after the optimizer that both return, whatever their fuel,
return the same plan. -/
theorem planOptimized_unique (hasher : Coord → Nat) (dist : Coord → Coord → ℚ)
    (geo : Geometry Coord) (sm : StreetMapImpl Coord) (fuel1 fuel2 : Nat) (depot : Coord)
    (optimized_deliveries : List (DeliveryRequest Coord)) (commands : List DeliveryCommand)
    (r1 r2 : PlanResult)
    (h1 : planOptimized hasher dist geo sm fuel1 depot optimized_deliveries commands = some r1)
    (h2 : planOptimized hasher dist geo sm fuel2 depot optimized_deliveries commands = some r2) :
    r1 = r2 := by
  have e1 := planOptimized_fuel_add hasher dist geo sm fuel1 depot _ _ r1 h1 fuel2
  have e2 := planOptimized_fuel_add hasher dist geo sm fuel2 depot _ _ r2 h2 fuel1
  rw [Nat.add_comm] at e2
  rw [e1] at e2
  exact Option.some.inj e2

theorem GenerateDeliveryPlan_eq (hasher : Coord → Nat) (dist : Coord → Coord → ℚ)
    (geo : Geometry Coord) (expFn : ℚ → ℚ) (rng : RandomSource) (sm : StreetMapImpl Coord)
    (fuel : Nat) (depot : Coord) (deliveries : List (DeliveryRequest Coord))
    (commands : List DeliveryCommand) (o : OptimizeResult Coord)
    (ho : OptimizeDeliveryOrder dist expFn rng fuel depot deliveries = some o) :
    GenerateDeliveryPlan hasher dist geo expFn rng sm fuel depot deliveries commands
      = planOptimized hasher dist geo sm fuel depot o.deliveries commands := by
  unfold GenerateDeliveryPlan
  rw [ho]

end PlannerLemmas

theorem perm_pair_cases {α : Type} (a b : α) (l : List α) (h : l.Perm [a, b]) :
    l = [a, b] ∨ l = [b, a] := by
  have hlen : l.length = 2 := h.length_eq
  match l, hlen with
  | [x, y], _ =>
    have hx : x ∈ [a, b] := h.subset (List.mem_cons_self _ _)
    simp only [List.mem_cons, List.mem_singleton, List.not_mem_nil, or_false] at hx
    rcases hx with hx | hx
    · subst hx
      have := (List.perm_cons x).1 h
      rw [List.perm_singleton.1 this]
      exact Or.inl rfl
    · subst hx
      have h2 : [x, y].Perm [x, a] := h.trans (List.Perm.swap _ _ _)
      have := (List.perm_cons x).1 h2
      rw [List.perm_singleton.1 this]
      exact Or.inr rfl

/-! ## The planner: claims C2 and C3 -/

/-- Claim C2, at the failing input: on the line map with depot 0 and the single delivery of
a pizza at 1, the plan succeeds for every random source; both legs (0 to 1 and 1 to 0) have
length 1, yet the plan reports a total distance of 1. -/
theorem plan_reports_last_leg_only :
    (∀ (expFn : ℚ → ℚ) (rng : RandomSource) (fuel : Nat),
      GenerateDeliveryPlan exampleHasher lineDist lineGeometry expFn rng lineMap (fuel + 2) 0
          [⟨"pizza", 1⟩] []
        = some ⟨DeliveryResult.DELIVERY_SUCCESS,
            [DeliveryCommand.Proceed "east" "Main" 1, DeliveryCommand.Deliver "pizza",
              DeliveryCommand.Proceed "west" "Main" 1], 1⟩)
    ∧ (∀ fuel, GeneratePointToPointRoute exampleHasher lineDist lineMap (fuel + 2) 0 1
        = some ⟨DeliveryResult.DELIVERY_SUCCESS, [⟨0, 1, "Main"⟩], 1⟩)
    ∧ (∀ fuel, GeneratePointToPointRoute exampleHasher lineDist lineMap (fuel + 2) 1 0
        = some ⟨DeliveryResult.DELIVERY_SUCCESS, [⟨1, 0, "Main"⟩], 1⟩) := by
  refine ⟨?_, ?_, ?_⟩
  · intro expFn rng fuel
    unfold GenerateDeliveryPlan
    rw [OptimizeDeliveryOrder_short_eq lineDist expFn rng (fuel + 2) 0 [⟨"pizza", 1⟩]
      (by decide)]
    dsimp only
    rw [Nat.add_comm]
    exact planOptimized_fuel_add exampleHasher lineDist lineGeometry lineMap 2 0 _ _ _
      (by decide!) fuel
  · intro fuel
    rw [Nat.add_comm]
    exact GeneratePointToPointRoute_fuel_add exampleHasher lineDist lineMap 2 0 1 _
      (by decide!) fuel
  · intro fuel
    rw [Nat.add_comm]
    exact GeneratePointToPointRoute_fuel_add exampleHasher lineDist lineMap 2 1 0 _
      (by decide!) fuel

/-- Claim C3, at the failing input: on the line map with depot 0 and two requests at the
same location 1, a pizza and a salad, every plan that is returned, whatever the random draws
and the fuel, is a success whose commands hold one Deliver command only; the other item is
never delivered. -/
theorem plan_delivers_one_of_two_at_same_location (expFn : ℚ → ℚ) (rng : RandomSource)
    (fuel : Nat) (r : PlanResult)
    (h : GenerateDeliveryPlan exampleHasher lineDist lineGeometry expFn rng lineMap fuel 0
      [⟨"pizza", 1⟩, ⟨"salad", 1⟩] [] = some r) :
    r.status = DeliveryResult.DELIVERY_SUCCESS
    ∧ (r.commands = [DeliveryCommand.Proceed "east" "Main" 1, DeliveryCommand.Deliver "pizza",
          DeliveryCommand.Proceed "west" "Main" 1]
      ∨ r.commands = [DeliveryCommand.Proceed "east" "Main" 1, DeliveryCommand.Deliver "salad",
          DeliveryCommand.Proceed "west" "Main" 1]) := by
  unfold GenerateDeliveryPlan at h
  cases ho : OptimizeDeliveryOrder lineDist expFn rng fuel 0
      [⟨"pizza", 1⟩, ⟨"salad", 1⟩] with
  | none => rw [ho] at h; simp at h
  | some o =>
    rw [ho] at h
    dsimp only at h
    have hperm := OptimizeDeliveryOrder_perm lineDist expFn rng fuel 0 _ o ho
    rcases perm_pair_cases _ _ _ hperm with hd | hd
    · rw [hd] at h
      have e := planOptimized_unique exampleHasher lineDist lineGeometry lineMap fuel 2 0 _ _ r
        ⟨DeliveryResult.DELIVERY_SUCCESS,
          [DeliveryCommand.Proceed "east" "Main" 1, DeliveryCommand.Deliver "pizza",
            DeliveryCommand.Proceed "west" "Main" 1], 1⟩ h (by decide!)
      rw [e]
      exact ⟨rfl, Or.inl rfl⟩
    · rw [hd] at h
      have e := planOptimized_unique exampleHasher lineDist lineGeometry lineMap fuel 2 0 _ _ r
        ⟨DeliveryResult.DELIVERY_SUCCESS,
          [DeliveryCommand.Proceed "east" "Main" 1, DeliveryCommand.Deliver "salad",
            DeliveryCommand.Proceed "west" "Main" 1], 1⟩ h (by decide!)
      rw [e]
      exact ⟨rfl, Or.inr rfl⟩

/-- Claim C3, witness: with the alternating source and fuel 2 the plan is returned. -/
theorem plan_delivers_one_of_two_at_same_location_witness :
    ∃ r, GenerateDeliveryPlan exampleHasher lineDist lineGeometry (fun _ => 0) alternatingSource
        lineMap 2 0 [⟨"pizza", 1⟩, ⟨"salad", 1⟩] [] = some r
      ∧ r.status = DeliveryResult.DELIVERY_SUCCESS
      ∧ (r.commands = [DeliveryCommand.Proceed "east" "Main" 1, DeliveryCommand.Deliver "pizza",
            DeliveryCommand.Proceed "west" "Main" 1]
        ∨ r.commands = [DeliveryCommand.Proceed "east" "Main" 1,
            DeliveryCommand.Deliver "salad", DeliveryCommand.Proceed "west" "Main" 1]) := by
  obtain ⟨o, ho⟩ := OptimizeDeliveryOrder_alternating lineDist (fun _ => 0) 2 (by decide) 0
    ⟨"pizza", 1⟩ ⟨"salad", 1⟩
  have hperm := OptimizeDeliveryOrder_perm lineDist (fun _ => 0) alternatingSource 2 0 _ o ho
  have e := GenerateDeliveryPlan_eq exampleHasher lineDist lineGeometry (fun _ => 0)
    alternatingSource lineMap 2 0 [⟨"pizza", 1⟩, ⟨"salad", 1⟩] [] o ho
  have hex : ∃ r, GenerateDeliveryPlan exampleHasher lineDist lineGeometry (fun _ => 0)
      alternatingSource lineMap 2 0 [⟨"pizza", 1⟩, ⟨"salad", 1⟩] [] = some r := by
    rcases perm_pair_cases _ _ _ hperm with hd | hd
    · rw [hd] at e
      exact ⟨⟨DeliveryResult.DELIVERY_SUCCESS,
        [DeliveryCommand.Proceed "east" "Main" 1, DeliveryCommand.Deliver "pizza",
          DeliveryCommand.Proceed "west" "Main" 1], 1⟩, e.trans (by decide!)⟩
    · rw [hd] at e
      exact ⟨⟨DeliveryResult.DELIVERY_SUCCESS,
        [DeliveryCommand.Proceed "east" "Main" 1, DeliveryCommand.Deliver "salad",
          DeliveryCommand.Proceed "west" "Main" 1], 1⟩, e.trans (by decide!)⟩
  obtain ⟨r, hr⟩ := hex
  exact ⟨r, hr, plan_delivers_one_of_two_at_same_location (fun _ => 0) alternatingSource 2 r hr⟩
section LoadSymmetry

variable {Coord : Type} [LinearOrder Coord]

/-- A fresh map is symmetric. -/
theorem SymmetricMap_init (hasher : Coord → Nat) :
    SymmetricMap hasher (StreetMapImpl.init : StreetMapImpl Coord) := by
  intro c s hs
  simp [segmentsAt, GetSegmentsThatStartWith, StreetMapImpl.init,
    ExpandableHashMap.Find_init] at hs

/-- Loading one segment line keeps the map symmetric. -/
theorem SymmetricMap_loadSegment (hasher : Coord → Nat) (name : String)
    (sm : StreetMapImpl Coord) (line : Coord × Coord)
    (hwf : ExpandableHashMap.WF hasher sm.m_coord_seg_map) (h : SymmetricMap hasher sm) :
    SymmetricMap hasher (loadSegment hasher name sm line) := by
  obtain ⟨_, _, _, _, hmem, hkeep, hfwd, hbwd⟩ := loadSegment_spec hasher name sm hwf line
  intro c s hs
  rcases hmem c s hs with h1 | ⟨h1, _⟩ | ⟨h1, _⟩
  · exact hkeep _ _ (h c s h1)
  · rw [h1]; exact hbwd
  · rw [h1]; exact hfwd

/-- Every map built by `Load` from street records is symmetric. -/
theorem LoadRecords_symmetric (hasher : Coord → Nat) (records : List (StreetRecord Coord)) :
    SymmetricMap hasher (LoadRecords hasher records) := by
  have key := loadInto_induction hasher
    (fun sm => GraphOK hasher sm ∧ SymmetricMap hasher sm) records
    (fun sm r line _ _ h =>
      ⟨GraphOK_loadSegment hasher r.name sm line h.1,
        SymmetricMap_loadSegment hasher r.name sm line h.1.wf h.2⟩)
    StreetMapImpl.init ⟨GraphOK_init hasher, SymmetricMap_init hasher⟩
  exact key.2

/-- What a symmetric map with entries filed under the start returns for a coordinate. -/
theorem adjacency_of_invariants (hasher : Coord → Nat) (sm : StreetMapImpl Coord)
    (hG : GraphOK hasher sm) (hS : SymmetricMap hasher sm) (c : Coord)
    (segs : List (StreetSegment Coord)) (h : GetSegmentsThatStartWith hasher sm c = some segs) :
    ∀ s ∈ segs, s.start = c
      ∧ (∃ back, GetSegmentsThatStartWith hasher sm s.end_ = some back
          ∧ (⟨s.end_, s.start, s.name⟩ : StreetSegment Coord) ∈ back) := by
  intro s hs
  have hin : s ∈ segmentsAt hasher sm c := by
    rw [mem_segmentsAt hasher _ c segs h]; exact hs
  refine ⟨hG.keyed c segs h s hs, ?_⟩
  obtain ⟨back, hback⟩ := Option.isSome_iff_exists.1 (hG.closed c segs h s hs)
  refine ⟨back, hback, ?_⟩
  have := hS c s hin
  rwa [mem_segmentsAt hasher _ _ back hback] at this

end LoadSymmetry

section LoadTextSymmetry

/-- Every line that `Load` reads keeps the map well formed and symmetric. -/
theorem loadLine_invariants (hasher : GeoCoord → Nat) (st : LoadState) (input_ln : String)
    (h : GraphOK hasher st.sm ∧ SymmetricMap hasher st.sm) :
    GraphOK hasher (loadLine hasher st input_ln).sm
      ∧ SymmetricMap hasher (loadLine hasher st input_ln).sm := by
  unfold loadLine
  dsimp only
  by_cases h1 : st.line_num = 1
  · rw [if_pos h1]; exact h
  · rw [if_neg h1]
    by_cases h2 : st.line_num = 2
    · rw [if_pos h2]
      cases extractInt input_ln <;> exact h
    · rw [if_neg h2]
      exact ⟨GraphOK_loadSegment hasher _ _ _ h.1,
        SymmetricMap_loadSegment hasher _ _ _ h.1.wf h.2⟩

/-- The map that `Load` builds from any lines, starting from a fresh map, is well formed
and symmetric. -/
theorem Load_invariants (hasher : GeoCoord → Nat) (lines : List String) :
    GraphOK hasher (Load hasher StreetMapImpl.init (some lines)).2
      ∧ SymmetricMap hasher (Load hasher StreetMapImpl.init (some lines)).2 := by
  have key : ∀ (ls : List String) (st : LoadState),
      GraphOK hasher st.sm ∧ SymmetricMap hasher st.sm →
      GraphOK hasher (ls.foldl (loadLine hasher) st).sm
        ∧ SymmetricMap hasher (ls.foldl (loadLine hasher) st).sm := by
    intro ls
    induction ls with
    | nil => intro st h; exact h
    | cons l rest ih =>
      intro st h
      rw [List.foldl_cons]
      exact ih _ (loadLine_invariants hasher st l h)
  exact key lines ⟨1, 0, "", StreetMapImpl.init⟩ ⟨GraphOK_init hasher, SymmetricMap_init hasher⟩

end LoadTextSymmetry

/-- Claim C15: after `Load`, the adjacency map is symmetric and correctly keyed: every
segment returned by `GetSegmentsThatStartWith` for a coordinate `c` starts at `c`, the
segment in the other direction, under the same name, is returned for its end, and so the end
of every segment has an entry. This holds for the map built from any sequence of street
records, and for the map that `Load` builds from the lines of any file, well-formed or not. -/
theorem Load_adjacency_symmetric_and_keyed {Coord : Type} [LinearOrder Coord]
    (hasher : Coord → Nat) (records : List (StreetRecord Coord))
    (textHash : GeoCoord → Nat) (lines : List String) :
    (∀ c segs, GetSegmentsThatStartWith hasher (LoadRecords hasher records) c = some segs →
      ∀ s ∈ segs, s.start = c
        ∧ (∃ back,
            GetSegmentsThatStartWith hasher (LoadRecords hasher records) s.end_ = some back
            ∧ (⟨s.end_, s.start, s.name⟩ : StreetSegment Coord) ∈ back))
    ∧ (∀ c segs,
        GetSegmentsThatStartWith textHash (Load textHash StreetMapImpl.init (some lines)).2 c
          = some segs →
        ∀ s ∈ segs, s.start = c
          ∧ (∃ back,
              GetSegmentsThatStartWith textHash
                (Load textHash StreetMapImpl.init (some lines)).2 s.end_ = some back
              ∧ (⟨s.end_, s.start, s.name⟩ : StreetSegment GeoCoord) ∈ back)) :=
  ⟨adjacency_of_invariants hasher _ (GraphOK_LoadRecords hasher records)
      (LoadRecords_symmetric hasher records),
    adjacency_of_invariants textHash _ (Load_invariants textHash lines).1
      (Load_invariants textHash lines).2⟩

/-- Claim C15, witness: the segments stored for coordinate 3 of the detour map, and those
stored for the coordinate (0, 1) after the file with the lines "Main", "1", "0 0 0 1". -/
theorem Load_adjacency_symmetric_and_keyed_witness :
    (GetSegmentsThatStartWith exampleHasher (LoadRecords exampleHasher detourRecords) 3
        = some [⟨3, 1, "X"⟩, ⟨3, 2, "Y"⟩]
      ∧ ∀ s ∈ ([⟨3, 1, "X"⟩, ⟨3, 2, "Y"⟩] : List (StreetSegment Nat)), s.start = 3
        ∧ (∃ back, GetSegmentsThatStartWith exampleHasher
              (LoadRecords exampleHasher detourRecords) s.end_ = some back
            ∧ (⟨s.end_, s.start, s.name⟩ : StreetSegment Nat) ∈ back))
    ∧ (GetSegmentsThatStartWith textHasher
          (Load textHasher StreetMapImpl.init (some ["Main", "1", "0 0 0 1"])).2
          (GeoCoord.ofTexts "0" "1")
        = some [⟨GeoCoord.ofTexts "0" "1", GeoCoord.ofTexts "0" "0", "Main"⟩]
      ∧ ∀ s ∈ ([⟨GeoCoord.ofTexts "0" "1", GeoCoord.ofTexts "0" "0", "Main"⟩] :
            List (StreetSegment GeoCoord)), s.start = GeoCoord.ofTexts "0" "1"
        ∧ (∃ back, GetSegmentsThatStartWith textHasher
              (Load textHasher StreetMapImpl.init (some ["Main", "1", "0 0 0 1"])).2 s.end_
              = some back
            ∧ (⟨s.end_, s.start, s.name⟩ : StreetSegment GeoCoord) ∈ back)) :=
  ⟨⟨by decide!,
      (Load_adjacency_symmetric_and_keyed exampleHasher detourRecords textHasher
        ["Main", "1", "0 0 0 1"]).1 3 _ (by decide!)⟩,
    ⟨by decide!,
      (Load_adjacency_symmetric_and_keyed exampleHasher detourRecords textHasher
        ["Main", "1", "0 0 0 1"]).2 (GeoCoord.ofTexts "0" "1") _ (by decide!)⟩⟩
section LoadText

/-- One line in the position of a segment line: its two segments are added. -/
theorem loadLine_segment (hasher : GeoCoord → Nat) (st : LoadState) (input_ln : String)
    (h1 : st.line_num ≠ 1) (h2 : st.line_num ≠ 2) :
    loadLine hasher st input_ln
      = ⟨if st.num_segs ≠ 0 ∧ st.line_num + 1 - 2 = st.num_segs then 0 else st.line_num + 1,
          st.num_segs, st.name, loadSegment hasher st.name st.sm (readSegmentLine input_ln)⟩ := by
  unfold loadLine
  simp only [if_neg h1, if_neg h2]

/-- The segment lines of a record with count `k`, from the state the count line leaves
behind: all of them are loaded, and the next line is a name line again. -/
theorem loadLine_segments (hasher : GeoCoord → Nat) (k : Int) (hk : 1 ≤ k) (name : String) :
    ∀ (segLines : List String) (sm : StreetMapImpl GeoCoord) (ln : Int),
      segLines ≠ [] → (segLines.length : Int) ≤ k →
      ln = (if segLines.length = 1 then 0 else k - (segLines.length : Int) + 3) →
      segLines.foldl (loadLine hasher) ⟨ln, k, name, sm⟩
        = ⟨1, k, name,
            segLines.foldl (fun sm1 l => loadSegment hasher name sm1 (readSegmentLine l)) sm⟩ := by
  intro segLines
  induction segLines with
  | nil => intro sm ln hne; exact absurd rfl hne
  | cons l rest ih =>
    intro sm ln _ hlen hln
    simp only [List.length_cons, Nat.cast_add, Nat.cast_one] at hlen
    have h1 : ln ≠ 1 := by
      rw [hln]; split
      · decide
      · simp only [List.length_cons, Nat.cast_add, Nat.cast_one]; omega
    have h2 : ln ≠ 2 := by
      rw [hln]; split
      · decide
      · simp only [List.length_cons, Nat.cast_add, Nat.cast_one]; omega
    rw [List.foldl_cons, loadLine_segment hasher _ l h1 h2]
    dsimp only
    cases rest with
    | nil =>
      have hl0 : ln = 0 := by rw [hln]; simp
      have hno : ¬ (k ≠ 0 ∧ ln + 1 - 2 = k) := by
        rw [hl0]; intro h; omega
      rw [if_neg hno, hl0]
      rfl
    | cons l2 rest2 =>
      have hl : ln = k - ((rest2.length : Int) + 1 + 1) + 3 := by
        rw [hln]; simp
      simp only [List.length_cons, Nat.cast_add, Nat.cast_one] at hlen
      refine ih _ _ (List.cons_ne_nil _ _)
        (by simp only [List.length_cons, Nat.cast_add, Nat.cast_one]; omega) ?_
      by_cases hr : rest2 = []
      · subst hr
        simp only [List.length_nil, Nat.cast_zero, zero_add] at hl
        have hyes : k ≠ 0 ∧ ln + 1 - 2 = k := ⟨by omega, by omega⟩
        rw [if_pos hyes]
        simp
      · have hpos : 0 < rest2.length := List.length_pos.2 hr
        have hno : ¬ (k ≠ 0 ∧ ln + 1 - 2 = k) := by
          intro h; omega
        rw [if_neg hno]
        have hne1 : ¬ ((l2 :: rest2).length = 1) := by
          simp only [List.length_cons]; omega
        rw [if_neg hne1]
        simp only [List.length_cons, Nat.cast_add, Nat.cast_one]
        omega

/-- The lines of one well-formed record, read from a state that expects a name line: the
segments of the record are loaded and the next line is a name line again. -/
theorem loadLine_record (hasher : GeoCoord → Nat) (first : List String)
    (r : StreetRecord GeoCoord) (henc : EncodesRecord first r) (hseg : r.segs ≠ []) (k0 : Int)
    (name0 : String) (sm : StreetMapImpl GeoCoord) :
    ∃ k, first.foldl (loadLine hasher) ⟨1, k0, name0, sm⟩
      = ⟨1, k, r.name, r.segs.foldl (loadSegment hasher r.name) sm⟩ := by
  obtain ⟨countLine, segLines, hfirst, hcount, hsegs⟩ := henc
  have hne : segLines ≠ [] := by
    intro h0
    rw [h0] at hsegs
    exact hseg hsegs
  have hpos : 0 < segLines.length := List.length_pos.2 hne
  refine ⟨(segLines.length : Int), ?_⟩
  rw [hfirst, List.foldl_cons, List.foldl_cons]
  have hname : loadLine hasher ⟨1, k0, name0, sm⟩ r.name = ⟨2, k0, r.name, sm⟩ := by
    unfold loadLine
    dsimp only
    have hno : ¬ (k0 ≠ 0 ∧ (1 : Int) + 1 - 2 = k0) := by intro h; omega
    simp only [if_true, if_neg hno]
    rfl
  have hcnt : loadLine hasher ⟨2, k0, r.name, sm⟩ countLine
      = ⟨if segLines.length = 1 then 0 else (segLines.length : Int) - (segLines.length : Int) + 3,
          (segLines.length : Int), r.name, sm⟩ := by
    unfold loadLine
    have e21 : ¬ ((2 : Int) = 1) := by decide
    simp only [if_neg e21, if_true, hcount]
    by_cases h1 : segLines.length = 1
    · have hyes : ((segLines.length : Int) ≠ 0 ∧ (2 : Int) + 1 - 2 = (segLines.length : Int)) :=
        ⟨by omega, by omega⟩
      simp only [if_pos hyes, if_pos h1]
    · have hno : ¬ ((segLines.length : Int) ≠ 0 ∧ (2 : Int) + 1 - 2 = (segLines.length : Int)) := by
        intro h; omega
      simp only [if_neg hno, if_neg h1]
      congr 1
      omega
  rw [hname, hcnt,
    loadLine_segments hasher (segLines.length : Int) (by omega) r.name segLines sm _ hne
      (le_refl _) rfl,
    hsegs, List.foldl_map]

/-- The lines of a sequence of well-formed records are loaded record by record. -/
theorem loadLine_records (hasher : GeoCoord → Nat) :
    ∀ (records : List (StreetRecord GeoCoord)) (lines : List String) (k0 : Int) (name0 : String)
      (sm : StreetMapImpl GeoCoord), EncodesRecords lines records →
      (∀ r ∈ records, r.segs ≠ []) →
      (lines.foldl (loadLine hasher) ⟨1, k0, name0, sm⟩).sm = loadInto hasher sm records := by
  intro records
  induction records with
  | nil =>
    intro lines k0 name0 sm h _
    simp only [EncodesRecords] at h
    rw [h]
    rfl
  | cons r rest ih =>
    intro lines k0 name0 sm h hsegs
    obtain ⟨first, later, hl, hr, hrest⟩ := h
    obtain ⟨k, hk⟩ := loadLine_record hasher first r hr (hsegs r (List.mem_cons_self _ _)) k0
      name0 sm
    rw [hl, List.foldl_append, hk,
      ih later k r.name _ hrest (fun r1 h1 => hsegs r1 (List.mem_cons_of_mem _ h1))]
    rfl

end LoadText

/-- Claim C16, counterexample: the lines "Main", "2", "0 0 0 1" announce two segment lines
and hold one, so they are the text of no sequence of records; yet `Load` returns true and the
map holds the segment of that line in both directions. -/
theorem Load_accepts_a_short_record :
    (∀ records, ¬ EncodesRecords ["Main", "2", "0 0 0 1"] records)
    ∧ (Load textHasher StreetMapImpl.init (some ["Main", "2", "0 0 0 1"])).1 = true
    ∧ GetSegmentsThatStartWith textHasher
        (Load textHasher StreetMapImpl.init (some ["Main", "2", "0 0 0 1"])).2
        (GeoCoord.ofTexts "0" "0")
        = some [⟨GeoCoord.ofTexts "0" "0", GeoCoord.ofTexts "0" "1", "Main"⟩]
    ∧ GetSegmentsThatStartWith textHasher
        (Load textHasher StreetMapImpl.init (some ["Main", "2", "0 0 0 1"])).2
        (GeoCoord.ofTexts "0" "1")
        = some [⟨GeoCoord.ofTexts "0" "1", GeoCoord.ofTexts "0" "0", "Main"⟩] := by
  refine ⟨?_, rfl, by decide!, by decide!⟩
  intro records h
  cases records with
  | nil => simp [EncodesRecords] at h
  | cons r rest =>
    obtain ⟨first, later, hl, ⟨countLine, segLines, hfirst, hcount, _⟩, _⟩ := h
    rw [hfirst] at hl
    simp only [List.cons_append, List.cons.injEq] at hl
    obtain ⟨_, hc, hrest⟩ := hl
    rw [← hc] at hcount
    have h2 : extractInt "2" = some 2 := by decide!
    rw [h2] at hcount
    have hlen := congrArg List.length hrest
    simp only [List.length_cons, List.length_nil, List.length_append] at hlen
    simp only [Option.some.injEq] at hcount
    omega

/-- Claim C16, amended: `Load` returns false only when the map data file cannot be opened,
and then it leaves the map as it was. On every file that opens it returns true, whatever the
lines hold. When the lines are the text of a sequence of well-formed records that each have
at least one segment line, the map afterwards is the one built from the segments of these
records. -/
theorem Load_returns_true_on_every_opened_file (hasher : GeoCoord → Nat)
    (sm : StreetMapImpl GeoCoord) (lines : List String) (records : List (StreetRecord GeoCoord))
    (henc : EncodesRecords lines records) (hsegs : ∀ r ∈ records, r.segs ≠ []) :
    Load hasher sm none = (false, sm)
    ∧ (∀ anyLines, (Load hasher sm (some anyLines)).1 = true)
    ∧ Load hasher sm (some lines) = (true, loadInto hasher sm records) := by
  refine ⟨rfl, fun _ => rfl, ?_⟩
  unfold Load
  dsimp only
  rw [loadLine_records hasher records lines 0 "" sm henc hsegs]

/-- Claim C16, amended, witness: the record of street Main with its one segment line. -/
theorem Load_returns_true_on_every_opened_file_witness :
    Load textHasher StreetMapImpl.init none = (false, StreetMapImpl.init)
    ∧ (∀ anyLines, (Load textHasher StreetMapImpl.init (some anyLines)).1 = true)
    ∧ Load textHasher StreetMapImpl.init (some ["Main", "1", "0 0 0 1"])
        = (true, loadInto textHasher StreetMapImpl.init
            [⟨"Main", [(GeoCoord.ofTexts "0" "0", GeoCoord.ofTexts "0" "1")]⟩]) :=
  Load_returns_true_on_every_opened_file textHasher StreetMapImpl.init ["Main", "1", "0 0 0 1"]
    [⟨"Main", [(GeoCoord.ofTexts "0" "0", GeoCoord.ofTexts "0" "1")]⟩]
    ⟨["Main", "1", "0 0 0 1"], [], rfl, ⟨"1", ["0 0 0 1"], rfl, by decide!, by decide!⟩, rfl⟩
    (by intro r hr; rw [List.mem_singleton] at hr; rw [hr]; simp)
section CrowLength

variable {Coord : Type}

/-- The loops that add up the distance over consecutive entries compute the sum over the
pairs of neighbours. -/
theorem crowLength_eq_sum (dist : Coord → Coord → ℚ) (path : List (DeliveryRequest Coord)) :
    crowLength dist path
      = (((path.map (fun d => d.location)).zip (path.map (fun d => d.location)).tail).map
          (fun p => dist p.1 p.2)).sum := by
  induction path with
  | nil => simp [crowLength]
  | cons a rest ih =>
    cases rest with
    | nil => simp [crowLength]
    | cons b rest1 =>
      rw [crowLength, ih]
      simp

/-- The length of a path that starts and ends with the stand-in for the depot is the tour
length of the stops in between. -/
theorem crowLength_tour (dist : Coord → Coord → ℚ) (depot : Coord)
    (stops : List (DeliveryRequest Coord)) :
    crowLength dist ((⟨"", depot⟩ :: stops) ++ [⟨"", depot⟩]) = tourLength dist depot stops := by
  rw [crowLength_eq_sum]
  simp [tourLength]

end CrowLength

section OptimizerResult

variable {Coord : Type}

/-- The result of `OptimizeDeliveryOrder` in terms of the final working tour. -/
theorem OptimizeDeliveryOrder_final (dist : Coord → Coord → ℚ) (expFn : ℚ → ℚ)
    (rng : RandomSource) (fuel : Nat) (depot : Coord) (deliveries : List (DeliveryRequest Coord))
    (r : OptimizeResult Coord)
    (h : OptimizeDeliveryOrder dist expFn rng fuel depot deliveries = some r) :
    ∃ st : AnnealState Coord, TourInv depot deliveries st
      ∧ r.deliveries = st.delivery_path.tail.dropLast
      ∧ r.old_crow_dist = crowLength dist ((⟨"", depot⟩ :: deliveries) ++ [⟨"", depot⟩])
      ∧ r.new_crow_dist = crowLength dist st.delivery_path := by
  have hinit : TourInv depot deliveries
      ⟨(⟨"", depot⟩ :: deliveries) ++ [⟨"", depot⟩],
        crowLength dist ((⟨"", depot⟩ :: deliveries) ++ [⟨"", depot⟩]), 0, 0, 0, []⟩ :=
    ⟨⟨deliveries, rfl, List.Perm.refl _⟩, by intro m hm; simp at hm⟩
  unfold OptimizeDeliveryOrder at h
  dsimp only at h
  by_cases hlen : deliveries.length > 1
  · rw [if_pos hlen] at h
    have hlen2 : ((⟨"", depot⟩ :: deliveries) ++ [(⟨"", depot⟩ : DeliveryRequest Coord)]).length
        = deliveries.length + 2 := by simp
    rw [hlen2] at h
    have hsub : deliveries.length + 2 - 2 = deliveries.length := by omega
    rw [hsub] at h
    split at h
    · simp at h
    · rename_i st hst
      simp only [Option.some.injEq] at h
      refine ⟨st, ?_, by rw [← h], by rw [← h], by rw [← h]⟩
      exact annealLoop_inv dist expFn rng fuel _ _ depot deliveries (by omega) _ _ _ st hinit hst
  · rw [if_neg hlen] at h
    simp only [Option.some.injEq] at h
    exact ⟨_, hinit, by rw [← h], by rw [← h], by rw [← h]⟩

end OptimizerResult

/-- Claim C11: whenever `OptimizeDeliveryOrder` returns, `old_crow_dist` is the length of the
closed tour depot, input stops in input order, depot, and `new_crow_dist` is the length of
the closed tour depot, returned stops in returned order, depot; the length of a tour is the
sum of the straight-line distances between consecutive entries. -/
theorem OptimizeDeliveryOrder_crow_distances {Coord : Type} (dist : Coord → Coord → ℚ)
    (expFn : ℚ → ℚ) (rng : RandomSource) (fuel : Nat) (depot : Coord)
    (deliveries : List (DeliveryRequest Coord)) (r : OptimizeResult Coord)
    (h : OptimizeDeliveryOrder dist expFn rng fuel depot deliveries = some r) :
    r.old_crow_dist = tourLength dist depot deliveries
      ∧ r.new_crow_dist = tourLength dist depot r.deliveries := by
  obtain ⟨st, hinv, hdel, hold, hnew⟩ :=
    OptimizeDeliveryOrder_final dist expFn rng fuel depot deliveries r h
  obtain ⟨mid, hpath, _⟩ := hinv.1
  refine ⟨by rw [hold, crowLength_tour], ?_⟩
  rw [hnew, hdel, hpath, tail_dropLast_closed]
  exact crowLength_tour dist depot mid

/-- Claim C11, witness: two deliveries on the detour map with the alternating random
source. -/
theorem OptimizeDeliveryOrder_crow_distances_witness :
    ∃ r, OptimizeDeliveryOrder detourDist (fun _ => 0) alternatingSource 1 0
        [⟨"pizza", 3⟩, ⟨"salad", 1⟩] = some r
      ∧ r.old_crow_dist = tourLength detourDist 0 [⟨"pizza", 3⟩, ⟨"salad", 1⟩]
      ∧ r.new_crow_dist = tourLength detourDist 0 r.deliveries := by
  obtain ⟨r, hr⟩ := OptimizeDeliveryOrder_alternating detourDist (fun _ => 0) 1 (by decide) 0
    ⟨"pizza", 3⟩ ⟨"salad", 1⟩
  exact ⟨r, hr, OptimizeDeliveryOrder_crow_distances detourDist (fun _ => 0) alternatingSource 1 0
    _ r hr⟩
section PlanLegs

variable {Coord : Type} [LinearOrder Coord]

/-- Routing a run of legs that all succeed leaves `addLegs` at the legs after them. -/
theorem addLegs_prefix (hasher : Coord → Nat) (dist : Coord → Coord → ℚ)
    (sm : StreetMapImpl Coord) (fuel : Nat) :
    ∀ (pre : List (Coord × Coord)) (total_path : List (StreetSegment Coord)) (total : ℚ),
      (∀ l ∈ pre, ∃ r, GeneratePointToPointRoute hasher dist sm fuel l.1 l.2 = some r
        ∧ r.status = DeliveryResult.DELIVERY_SUCCESS) →
      ∃ tp t, ∀ rest, addLegs hasher dist sm fuel (pre ++ rest) total_path total
        = addLegs hasher dist sm fuel rest tp t := by
  intro pre
  induction pre with
  | nil => intro total_path total _; exact ⟨total_path, total, fun _ => rfl⟩
  | cons l pre ih =>
    intro total_path total hpre
    obtain ⟨r, hr, hs⟩ := hpre l (List.mem_cons_self _ _)
    obtain ⟨tp, t, h⟩ := ih (total_path ++ r.route) (r.total_dist_travelled + 0)
      (fun l1 hl1 => hpre l1 (List.mem_cons_of_mem _ hl1))
    refine ⟨tp, t, fun rest => ?_⟩
    rw [List.cons_append, addLegs, AddDelivery, hr]
    simp only [hs, ne_eq, not_true_eq_false, if_false]
    exact h rest

/-- The first leg that fails ends `addLegs` with the status and the distance the router
returned for it, whatever legs follow. -/
theorem addLegs_first_failure (hasher : Coord → Nat) (dist : Coord → Coord → ℚ)
    (sm : StreetMapImpl Coord) (fuel : Nat) (pre post : List (Coord × Coord))
    (leg : Coord × Coord) (rf : RouteResult Coord)
    (hpre : ∀ l ∈ pre, ∃ r, GeneratePointToPointRoute hasher dist sm fuel l.1 l.2 = some r
      ∧ r.status = DeliveryResult.DELIVERY_SUCCESS)
    (hleg : GeneratePointToPointRoute hasher dist sm fuel leg.1 leg.2 = some rf)
    (hfail : rf.status ≠ DeliveryResult.DELIVERY_SUCCESS) :
    ∃ tp, addLegs hasher dist sm fuel (pre ++ leg :: post) [] 0
      = some (rf.status, tp, rf.total_dist_travelled) := by
  obtain ⟨tp, t, h⟩ := addLegs_prefix hasher dist sm fuel pre [] 0 hpre
  refine ⟨tp, ?_⟩
  rw [h, addLegs, AddDelivery, hleg]
  simp only [hfail, ne_eq, not_false_eq_true, if_true]

/-- The plan when the first failing leg is known. -/
theorem planOptimized_first_failure (hasher : Coord → Nat) (dist : Coord → Coord → ℚ)
    (geo : Geometry Coord) (sm : StreetMapImpl Coord) (fuel : Nat) (depot : Coord)
    (optimized_deliveries : List (DeliveryRequest Coord)) (commands : List DeliveryCommand)
    (pre post : List (Coord × Coord)) (leg : Coord × Coord) (rf : RouteResult Coord)
    (hne : optimized_deliveries ≠ [])
    (hlegs : consecutivePairs
        ((depot :: optimized_deliveries.map (fun d => d.location)) ++ [depot])
      = pre ++ leg :: post)
    (hpre : ∀ l ∈ pre, ∃ r, GeneratePointToPointRoute hasher dist sm fuel l.1 l.2 = some r
      ∧ r.status = DeliveryResult.DELIVERY_SUCCESS)
    (hleg : GeneratePointToPointRoute hasher dist sm fuel leg.1 leg.2 = some rf)
    (hfail : rf.status ≠ DeliveryResult.DELIVERY_SUCCESS) :
    planOptimized hasher dist geo sm fuel depot optimized_deliveries commands
      = some ⟨rf.status, commands, rf.total_dist_travelled⟩ := by
  obtain ⟨tp, h⟩ := addLegs_first_failure hasher dist sm fuel pre post leg rf hpre hleg hfail
  cases optimized_deliveries with
  | nil => exact absurd rfl hne
  | cons d rest =>
    unfold planOptimized
    dsimp only
    rw [hlegs, h]
    simp only [hfail, ne_eq, not_false_eq_true, if_true]

end PlanLegs

/-- Claim C12: for every non-empty deliveries list, when the legs of the plan, taken in the
waypoint order depot, stop_1, ..., stop_N, depot of the optimized stops, are `pre`, then
`leg`, then `post`, every leg of `pre` routes with DELIVERY_SUCCESS and the router returns
`rf` with another status on `leg`, `GenerateDeliveryPlan` returns the status of `rf`, which is
BAD_COORD or NO_ROUTE, with the distance of `rf`, and the commands vector is as on entry.
Nothing is assumed of the legs of `post`: none of them is routed. -/
theorem GenerateDeliveryPlan_first_failing_leg {Coord : Type} [LinearOrder Coord]
    (hasher : Coord → Nat) (dist : Coord → Coord → ℚ) (geo : Geometry Coord) (expFn : ℚ → ℚ)
    (rng : RandomSource) (sm : StreetMapImpl Coord) (fuel : Nat) (depot : Coord)
    (deliveries : List (DeliveryRequest Coord)) (commands : List DeliveryCommand)
    (o : OptimizeResult Coord) (pre post : List (Coord × Coord)) (leg : Coord × Coord)
    (rf : RouteResult Coord)
    (hne : deliveries ≠ [])
    (ho : OptimizeDeliveryOrder dist expFn rng fuel depot deliveries = some o)
    (hlegs : consecutivePairs ((depot :: o.deliveries.map (fun d => d.location)) ++ [depot])
      = pre ++ leg :: post)
    (hpre : ∀ l ∈ pre, ∃ r, GeneratePointToPointRoute hasher dist sm fuel l.1 l.2 = some r
      ∧ r.status = DeliveryResult.DELIVERY_SUCCESS)
    (hleg : GeneratePointToPointRoute hasher dist sm fuel leg.1 leg.2 = some rf)
    (hfail : rf.status ≠ DeliveryResult.DELIVERY_SUCCESS) :
    GenerateDeliveryPlan hasher dist geo expFn rng sm fuel depot deliveries commands
        = some ⟨rf.status, commands, rf.total_dist_travelled⟩
      ∧ (rf.status = DeliveryResult.BAD_COORD ∨ rf.status = DeliveryResult.NO_ROUTE) := by
  have hperm := OptimizeDeliveryOrder_perm dist expFn rng fuel depot deliveries o ho
  have hne1 : o.deliveries ≠ [] := by
    intro h0
    rw [h0] at hperm
    exact hne (List.Perm.eq_nil (List.Perm.symm hperm))
  refine ⟨?_, ?_⟩
  · rw [GenerateDeliveryPlan_eq hasher dist geo expFn rng sm fuel depot deliveries commands o ho]
    exact planOptimized_first_failure hasher dist geo sm fuel depot o.deliveries commands pre post
      leg rf hne1 hlegs hpre hleg hfail
  · cases hs : rf.status with
    | DELIVERY_SUCCESS => exact absurd hs hfail
    | NO_ROUTE => exact Or.inr rfl
    | BAD_COORD => exact Or.inl rfl
section TwoDeliveries

variable {Coord : Type}

/-- With two deliveries and a symmetric distance, a proposed move never changes the working
tour nor its recorded length. -/
theorem annealStep_pair (dist : Coord → Coord → ℚ) (hsymm : ∀ x y, dist x y = dist y x)
    (expFn : ℚ → ℚ) (rng : RandomSource) (fuel : Nat) (temperature : ℚ)
    (d a b : DeliveryRequest Coord) (st st1 : AnnealState Coord)
    (hpath : st.delivery_path = [d, a, b, d])
    (hlen : st.curr_path_len = crowLength dist [d, a, b, d])
    (h : annealStep dist expFn rng fuel 4 2 temperature st = some st1) :
    st1.delivery_path = [d, a, b, d] ∧ st1.curr_path_len = crowLength dist [d, a, b, d] := by
  unfold annealStep at h
  cases hp : pickSpan rng.rand 4 2 fuel st.rand_calls with
  | none => rw [hp] at h; simp at h
  | some x =>
    obtain ⟨s, e, calls⟩ := x
    obtain ⟨h1, h2, h3⟩ := pickSpan_spec rng.rand 4 2 (by decide) fuel st.rand_calls s e calls hp
    have hs : s = 1 := by omega
    have he : e = 2 := by omega
    subst hs he
    rw [hp] at h
    have hflipped : flipSpan [d, a, b, d] 1 2 = [d, b, a, d] := rfl
    have hmoved : ∀ k, moveSpan [d, a, b, d] 1 2 (k % 1 + 1) = [d, a, b, d] := by
      intro k
      rw [Nat.mod_one]
      rfl
    have hsame : crowLength dist [d, b, a, d] = crowLength dist [d, a, b, d] := by
      simp only [crowLength]
      rw [hsymm d.location b.location, hsymm b.location a.location, hsymm a.location d.location]
      ring
    have hzero : ∀ flip : Bool, ∀ k,
        crowLength dist (if flip then flipSpan st.delivery_path 1 2
          else moveSpan st.delivery_path 1 2 (k % 1 + 1)) - st.curr_path_len = 0 := by
      intro flip k
      rw [hpath, hlen]
      cases flip
      · simp only [Bool.false_eq_true, if_false, hmoved, sub_self]
      · simp only [if_true, hflipped, hsame, sub_self]
    dsimp only at h
    have h41 : 4 - (2 - 1) - 2 = 1 := rfl
    rw [h41] at h
    split at h
    · rename_i hbad
      exact absurd hbad.2 (by decide)
    · rw [hzero] at h
      simp only [lt_self_iff_false, if_false, gt_iff_lt, Option.some.injEq] at h
      rw [← h]
      exact ⟨hpath, hlen⟩

/-- The period loop keeps the working tour of two deliveries. -/
theorem epochLoop_pair (dist : Coord → Coord → ℚ) (hsymm : ∀ x y, dist x y = dist y x)
    (expFn : ℚ → ℚ) (rng : RandomSource) (fuel max_paths_before_cont : Nat) (temperature : ℚ)
    (d a b : DeliveryRequest Coord) :
    ∀ (remaining : Nat) (st st1 : AnnealState Coord),
      st.delivery_path = [d, a, b, d] → st.curr_path_len = crowLength dist [d, a, b, d] →
      epochLoop dist expFn rng fuel 4 2 max_paths_before_cont temperature remaining st = some st1 →
      st1.delivery_path = [d, a, b, d] ∧ st1.curr_path_len = crowLength dist [d, a, b, d] := by
  intro remaining
  induction remaining with
  | zero =>
    intro st st1 hp hl h
    simp only [epochLoop, Option.some.injEq] at h
    rw [← h]; exact ⟨hp, hl⟩
  | succ n ih =>
    intro st st1 hp hl h
    rw [epochLoop] at h
    cases hs : annealStep dist expFn rng fuel 4 2 temperature st with
    | none => rw [hs] at h; simp at h
    | some st2 =>
      rw [hs] at h
      have h2 := annealStep_pair dist hsymm expFn rng fuel temperature d a b st st2 hp hl hs
      dsimp only at h
      split at h
      · simp only [Option.some.injEq] at h
        rw [← h]; exact h2
      · exact ih st2 st1 h2.1 h2.2 h

/-- The annealing loop keeps the working tour of two deliveries. -/
theorem annealLoop_pair (dist : Coord → Coord → ℚ) (hsymm : ∀ x y, dist x y = dist y x)
    (expFn : ℚ → ℚ) (rng : RandomSource) (fuel max_paths_temp max_paths_before_cont : Nat)
    (d a b : DeliveryRequest Coord) :
    ∀ (remaining : Nat) (temperature : ℚ) (st st1 : AnnealState Coord),
      st.delivery_path = [d, a, b, d] → st.curr_path_len = crowLength dist [d, a, b, d] →
      annealLoop dist expFn rng fuel 4 2 max_paths_temp max_paths_before_cont remaining
        temperature st = some st1 →
      st1.delivery_path = [d, a, b, d] ∧ st1.curr_path_len = crowLength dist [d, a, b, d] := by
  intro remaining
  induction remaining with
  | zero =>
    intro temperature st st1 hp hl h
    simp only [annealLoop, Option.some.injEq] at h
    rw [← h]; exact ⟨hp, hl⟩
  | succ n ih =>
    intro temperature st st1 hp hl h
    rw [annealLoop] at h
    split at h
    · simp at h
    · rename_i st2 hs
      have h2 := epochLoop_pair dist hsymm expFn rng fuel max_paths_before_cont temperature d a b
        max_paths_temp
        ⟨st.delivery_path, st.curr_path_len, 0, st.rand_calls, st.uniform_calls, st.history⟩
        st2 hp hl hs
      exact ih _ st2 st1 h2.1 h2.2 h

/-- With a symmetric distance, two deliveries come back from `OptimizeDeliveryOrder` in
their input order. -/
theorem OptimizeDeliveryOrder_pair (dist : Coord → Coord → ℚ)
    (hsymm : ∀ x y, dist x y = dist y x) (expFn : ℚ → ℚ) (rng : RandomSource) (fuel : Nat)
    (depot : Coord) (a b : DeliveryRequest Coord) (r : OptimizeResult Coord)
    (h : OptimizeDeliveryOrder dist expFn rng fuel depot [a, b] = some r) :
    r.deliveries = [a, b] := by
  unfold OptimizeDeliveryOrder at h
  dsimp only at h
  have hlen : ([a, b] : List (DeliveryRequest Coord)).length > 1 := by simp
  rw [if_pos hlen] at h
  split at h
  · simp at h
  · rename_i st hst
    simp only [Option.some.injEq] at h
    have := annealLoop_pair dist hsymm expFn rng fuel _ _ ⟨"", depot⟩ a b _ _ _ st rfl rfl hst
    rw [← h, this.1]
    rfl

end TwoDeliveries

/-- The distance of the line map is symmetric. -/
theorem lineDist_symm (a b : Nat) : lineDist a b = lineDist b a := by
  unfold lineDist
  exact abs_sub_comm _ _

/-- Claim C12, witness: on the line map with depot 0 and deliveries at 1 and at 7, the leg
from 0 to 1 routes, the leg from 1 to 7 fails with BAD_COORD, and the leg from 7 to 0 is
never routed; the commands vector stays as passed in. -/
theorem GenerateDeliveryPlan_first_failing_leg_witness :
    GenerateDeliveryPlan exampleHasher lineDist lineGeometry (fun _ => 0) alternatingSource
        lineMap 3 0 [⟨"pizza", 1⟩, ⟨"salad", 7⟩] [DeliveryCommand.Deliver "earlier"]
      = some ⟨DeliveryResult.BAD_COORD, [DeliveryCommand.Deliver "earlier"], 0⟩
    ∧ (DeliveryResult.BAD_COORD = DeliveryResult.BAD_COORD
        ∨ DeliveryResult.BAD_COORD = DeliveryResult.NO_ROUTE) := by
  obtain ⟨o, ho⟩ := OptimizeDeliveryOrder_alternating lineDist (fun _ => 0) 3 (by decide) 0
    ⟨"pizza", 1⟩ ⟨"salad", 7⟩
  have hd := OptimizeDeliveryOrder_pair lineDist lineDist_symm (fun _ => 0) alternatingSource 3 0
    ⟨"pizza", 1⟩ ⟨"salad", 7⟩ o ho
  exact GenerateDeliveryPlan_first_failing_leg exampleHasher lineDist lineGeometry (fun _ => 0)
    alternatingSource lineMap 3 0 [⟨"pizza", 1⟩, ⟨"salad", 7⟩] [DeliveryCommand.Deliver "earlier"]
    o [(0, 1)] [(7, 0)] (1, 7) ⟨DeliveryResult.BAD_COORD, [], 0⟩ (by simp) ho
    (by rw [hd]; rfl)
    (by
      intro l hl
      rw [List.mem_singleton] at hl
      rw [hl]
      exact ⟨⟨DeliveryResult.DELIVERY_SUCCESS, [⟨0, 1, "Main"⟩], 1⟩, by decide!, rfl⟩)
    (by decide!) (by decide)
section ReachableLemmas

variable {Coord : Type} [LinearOrder Coord]

/-- In a symmetric map every chain can be walked back. -/
theorem Reachable_symm (hasher : Coord → Nat) (sm : StreetMapImpl Coord)
    (hS : SymmetricMap hasher sm) :
    ∀ (route : List (StreetSegment Coord)) (a b : Coord), IsChain hasher sm a b route →
      Reachable hasher sm b a := by
  intro route
  induction route with
  | nil =>
    intro a b h
    simp only [IsChain] at h
    exact ⟨[], by simp only [IsChain]; exact h.symm⟩
  | cons s rest ih =>
    intro a b h
    simp only [IsChain] at h
    obtain ⟨hstart, hin, hrest⟩ := h
    obtain ⟨back, hback⟩ := ih s.end_ b hrest
    have hflip : InGraph hasher sm (⟨s.end_, s.start, s.name⟩ : StreetSegment Coord) :=
      hS s.start s hin
    have := IsChain_append hasher sm ⟨s.end_, s.start, s.name⟩ hflip back b hback
    rw [← hstart]
    exact ⟨_, this⟩

/-- Chains can be put one after the other. -/
theorem Reachable_trans (hasher : Coord → Nat) (sm : StreetMapImpl Coord) (a b c : Coord)
    (h1 : Reachable hasher sm a b) (h2 : Reachable hasher sm b c) : Reachable hasher sm a c := by
  obtain ⟨r1, hr1⟩ := h1
  obtain ⟨r2, hr2⟩ := h2
  exact ⟨r1 ++ r2, IsChain_concat hasher sm r1 r2 a b c hr1 hr2⟩

/-- Along the waypoints that follow a coordinate reachable from the depot, when one of them
is not reachable from the depot, there is a first leg that leaves the part of the map
reachable from the depot; the legs before it stay inside it. -/
theorem first_leg_leaving (E R : Coord → Prop) :
    ∀ (ws : List Coord) (cur : Coord), E cur → R cur → (∀ w ∈ ws, E w) → (∃ w ∈ ws, ¬ R w) →
      ∃ pre leg post, consecutivePairs (cur :: ws) = pre ++ leg :: post
        ∧ (∀ l ∈ pre, E l.1 ∧ E l.2 ∧ R l.1 ∧ R l.2)
        ∧ E leg.1 ∧ E leg.2 ∧ R leg.1 ∧ ¬ R leg.2 := by
  intro ws
  induction ws with
  | nil => intro cur _ _ _ h; obtain ⟨w, hw, _⟩ := h; simp at hw
  | cons w rest ih =>
    intro cur hE hR hall hex
    by_cases hw : R w
    · have hex1 : ∃ w1 ∈ rest, ¬ R w1 := by
        obtain ⟨w1, hw1, hn⟩ := hex
        rcases List.mem_cons.1 hw1 with h | h
        · rw [h] at hn; exact absurd hw hn
        · exact ⟨w1, h, hn⟩
      obtain ⟨pre, leg, post, hsplit, hpre, hleg⟩ := ih w (hall w (List.mem_cons_self _ _)) hw
        (fun w1 h1 => hall w1 (List.mem_cons_of_mem _ h1)) hex1
      refine ⟨(cur, w) :: pre, leg, post, ?_, ?_, hleg⟩
      · rw [consecutivePairs, hsplit]; rfl
      · intro l hl
        rcases List.mem_cons.1 hl with h | h
        · rw [h]; exact ⟨hE, hall w (List.mem_cons_self _ _), hR, hw⟩
        · exact hpre l h
    · exact ⟨[], (cur, w), consecutivePairs (w :: rest), by rw [consecutivePairs]; rfl,
        by intro l hl; simp at hl, hE, hall w (List.mem_cons_self _ _), hR, hw⟩

end ReachableLemmas

section OptimizerFuel

variable {Coord : Type}

/-- A conditional whose first branch can only gain a result keeps its result. -/
theorem ite_some_mono {α : Type} {c : Prop} [Decidable c] {A A1 B : Option α} {x : α}
    (hA : A = some x → A1 = some x) (h : (if c then A else B) = some x) :
    (if c then A1 else B) = some x := by
  by_cases hc : c
  · rw [if_pos hc] at h ⊢; exact hA h
  · rw [if_neg hc] at h ⊢; exact h

/-- More fuel does not change the span that the `do ... while` loop draws. -/
theorem pickSpan_fuel_succ (rand : Nat → Nat) (num_stops num_middle_stops : Nat) :
    ∀ (fuel calls : Nat) (x : Nat × Nat × Nat),
      pickSpan rand num_stops num_middle_stops fuel calls = some x →
      pickSpan rand num_stops num_middle_stops (fuel + 1) calls = some x := by
  intro fuel
  induction fuel with
  | zero => intro calls x h; simp [pickSpan] at h
  | succ n ih =>
    intro calls x h
    rw [pickSpan] at h ⊢
    exact ite_some_mono (ih _ x) h

/-- More fuel does not change the result of a proposed move. -/
theorem annealStep_fuel_succ (dist : Coord → Coord → ℚ) (expFn : ℚ → ℚ) (rng : RandomSource)
    (fuel num_stops num_middle_stops : Nat) (temperature : ℚ) (st st1 : AnnealState Coord)
    (h : annealStep dist expFn rng fuel num_stops num_middle_stops temperature st = some st1) :
    annealStep dist expFn rng (fuel + 1) num_stops num_middle_stops temperature st = some st1 := by
  unfold annealStep at h ⊢
  cases hp : pickSpan rng.rand num_stops num_middle_stops fuel st.rand_calls with
  | none => rw [hp] at h; simp at h
  | some x =>
    rw [hp] at h
    rw [pickSpan_fuel_succ rng.rand num_stops num_middle_stops fuel st.rand_calls x hp]
    exact h

/-- More fuel does not change the result of a period. -/
theorem epochLoop_fuel_succ (dist : Coord → Coord → ℚ) (expFn : ℚ → ℚ) (rng : RandomSource)
    (fuel num_stops num_middle_stops max_paths_before_cont : Nat) (temperature : ℚ) :
    ∀ (remaining : Nat) (st st1 : AnnealState Coord),
      epochLoop dist expFn rng fuel num_stops num_middle_stops max_paths_before_cont temperature
        remaining st = some st1 →
      epochLoop dist expFn rng (fuel + 1) num_stops num_middle_stops max_paths_before_cont
        temperature remaining st = some st1 := by
  intro remaining
  induction remaining with
  | zero => intro st st1 h; exact h
  | succ n ih =>
    intro st st1 h
    rw [epochLoop] at h ⊢
    cases hs : annealStep dist expFn rng fuel num_stops num_middle_stops temperature st with
    | none => rw [hs] at h; simp at h
    | some st2 =>
      rw [hs] at h
      rw [annealStep_fuel_succ dist expFn rng fuel _ _ _ st st2 hs]
      dsimp only at h ⊢
      split
      · rename_i hc; rw [if_pos hc] at h; exact h
      · rename_i hc; rw [if_neg hc] at h; exact ih st2 st1 h

/-- More fuel does not change the result of the annealing loop. -/
theorem annealLoop_fuel_succ (dist : Coord → Coord → ℚ) (expFn : ℚ → ℚ) (rng : RandomSource)
    (fuel num_stops num_middle_stops max_paths_temp max_paths_before_cont : Nat) :
    ∀ (remaining : Nat) (temperature : ℚ) (st st1 : AnnealState Coord),
      annealLoop dist expFn rng fuel num_stops num_middle_stops max_paths_temp
        max_paths_before_cont remaining temperature st = some st1 →
      annealLoop dist expFn rng (fuel + 1) num_stops num_middle_stops max_paths_temp
        max_paths_before_cont remaining temperature st = some st1 := by
  intro remaining
  induction remaining with
  | zero => intro temperature st st1 h; exact h
  | succ n ih =>
    intro temperature st st1 h
    rw [annealLoop] at h ⊢
    cases hs : epochLoop dist expFn rng fuel num_stops num_middle_stops max_paths_before_cont
        temperature max_paths_temp
        ⟨st.delivery_path, st.curr_path_len, 0, st.rand_calls, st.uniform_calls, st.history⟩ with
    | none => rw [hs] at h; simp at h
    | some st2 =>
      rw [hs] at h
      rw [epochLoop_fuel_succ dist expFn rng fuel _ _ _ _ _ _ st2 hs]
      exact ih _ st2 st1 h

/-- One more unit of fuel does not change what the optimizer returns. -/
theorem OptimizeDeliveryOrder_fuel_succ (dist : Coord → Coord → ℚ) (expFn : ℚ → ℚ)
    (rng : RandomSource) (fuel : Nat) (depot : Coord) (deliveries : List (DeliveryRequest Coord))
    (r : OptimizeResult Coord)
    (h : OptimizeDeliveryOrder dist expFn rng fuel depot deliveries = some r) :
    OptimizeDeliveryOrder dist expFn rng (fuel + 1) depot deliveries = some r := by
  unfold OptimizeDeliveryOrder at h ⊢
  dsimp only at h ⊢
  by_cases hlen : deliveries.length > 1
  · rw [if_pos hlen] at h ⊢
    split at h
    · simp at h
    · rename_i st hst
      rw [annealLoop_fuel_succ dist expFn rng fuel _ _ _ _ _ _ _ st hst]
      exact h
  · rw [if_neg hlen] at h ⊢
    exact h

/-- More fuel does not change what the optimizer returns. -/
theorem OptimizeDeliveryOrder_fuel_mono (dist : Coord → Coord → ℚ) (expFn : ℚ → ℚ)
    (rng : RandomSource) (fuel : Nat) (depot : Coord) (deliveries : List (DeliveryRequest Coord))
    (r : OptimizeResult Coord)
    (h : OptimizeDeliveryOrder dist expFn rng fuel depot deliveries = some r) :
    ∀ fuel1, fuel ≤ fuel1 →
      OptimizeDeliveryOrder dist expFn rng fuel1 depot deliveries = some r := by
  intro fuel1 hle
  induction fuel1, hle using Nat.le_induction with
  | base => exact h
  | succ n _ ih => exact OptimizeDeliveryOrder_fuel_succ dist expFn rng n depot deliveries r ih

end OptimizerFuel
section PlanNoRoute

variable {Coord : Type} [LinearOrder Coord]

/-- One fuel serves all the legs of a list whose ends are connected: from it on, the router
returns DELIVERY_SUCCESS on each of them. -/
theorem legs_common_fuel (hasher : Coord → Nat) (dist : Coord → Coord → ℚ)
    (sm : StreetMapImpl Coord) (hG : GraphOK hasher sm)
    (hnn : ∀ s, InGraph hasher sm s → 0 ≤ dist s.start s.end_) :
    ∀ pre : List (Coord × Coord),
      (∀ l ∈ pre, (GetSegmentsThatStartWith hasher sm l.1).isSome = true
        ∧ (GetSegmentsThatStartWith hasher sm l.2).isSome = true
        ∧ Reachable hasher sm l.1 l.2) →
      ∃ F, ∀ fuel, F ≤ fuel → ∀ l ∈ pre,
        ∃ r, GeneratePointToPointRoute hasher dist sm fuel l.1 l.2 = some r
          ∧ r.status = DeliveryResult.DELIVERY_SUCCESS := by
  intro pre
  induction pre with
  | nil => intro _; exact ⟨0, fun _ _ l hl => by simp at hl⟩
  | cons l rest ih =>
    intro h
    obtain ⟨F1, hF1⟩ := ih (fun l1 h1 => h l1 (List.mem_cons_of_mem _ h1))
    obtain ⟨h1, h2, hreach⟩ := h l (List.mem_cons_self _ _)
    obtain ⟨f0, r, hr⟩ := GeneratePointToPointRoute_total hasher dist sm hG hnn l.1 l.2 h1 h2
    have hs : r.status = DeliveryResult.DELIVERY_SUCCESS := by
      rcases GeneratePointToPointRoute_sound hasher dist sm hG hnn f0 l.1 l.2 h1 h2 r
        (hr f0 (le_refl _)) with hok | hno
      · exact hok.1
      · exact absurd hreach hno.2.1
    refine ⟨max f0 F1, fun fuel hfuel l1 hl1 => ?_⟩
    rcases List.mem_cons.1 hl1 with he | he
    · rw [he]
      exact ⟨r, hr fuel (le_trans (le_max_left _ _) hfuel), hs⟩
    · exact hF1 fuel (le_trans (le_max_right _ _) hfuel) l1 he

/-- On a leg whose ends have entries and are not connected the router returns NO_ROUTE
with distance 0, from some fuel on. -/
theorem leg_no_route (hasher : Coord → Nat) (dist : Coord → Coord → ℚ)
    (sm : StreetMapImpl Coord) (hG : GraphOK hasher sm)
    (hnn : ∀ s, InGraph hasher sm s → 0 ≤ dist s.start s.end_) (a b : Coord)
    (ha : (GetSegmentsThatStartWith hasher sm a).isSome = true)
    (hb : (GetSegmentsThatStartWith hasher sm b).isSome = true)
    (hno : ¬ Reachable hasher sm a b) :
    ∃ F r, (∀ fuel, F ≤ fuel → GeneratePointToPointRoute hasher dist sm fuel a b = some r)
      ∧ r.status = DeliveryResult.NO_ROUTE ∧ r.total_dist_travelled = 0 := by
  obtain ⟨f0, r, hr⟩ := GeneratePointToPointRoute_total hasher dist sm hG hnn a b ha hb
  refine ⟨f0, r, hr, ?_⟩
  rcases GeneratePointToPointRoute_sound hasher dist sm hG hnn f0 a b ha hb r
    (hr f0 (le_refl _)) with hok | hbad
  · exact absurd hok.2.1 hno
  · exact ⟨hbad.1, hbad.2.2.2⟩

/-- The plan on a well-formed symmetric map when a stop cannot be reached from the depot. -/
theorem planOptimized_no_route (hasher : Coord → Nat) (dist : Coord → Coord → ℚ)
    (geo : Geometry Coord) (sm : StreetMapImpl Coord) (hG : GraphOK hasher sm)
    (hS : SymmetricMap hasher sm)
    (hnn : ∀ s, InGraph hasher sm s → 0 ≤ dist s.start s.end_) (depot : Coord)
    (stops : List (DeliveryRequest Coord)) (commands : List DeliveryCommand)
    (hdepot : (GetSegmentsThatStartWith hasher sm depot).isSome = true)
    (hentries : ∀ d ∈ stops, (GetSegmentsThatStartWith hasher sm d.location).isSome = true)
    (hunreach : ∃ d ∈ stops, ¬ Reachable hasher sm depot d.location) :
    ∃ F, ∀ fuel, F ≤ fuel →
      planOptimized hasher dist geo sm fuel depot stops commands
        = some ⟨DeliveryResult.NO_ROUTE, commands, 0⟩ := by
  have hne : stops ≠ [] := by
    obtain ⟨d, hd, _⟩ := hunreach
    exact List.ne_nil_of_mem hd
  obtain ⟨pre, leg, post, hsplit, hpre, hE1, hE2, hR1, hR2⟩ :=
    first_leg_leaving (fun c => (GetSegmentsThatStartWith hasher sm c).isSome = true)
      (fun c => Reachable hasher sm depot c)
      (stops.map (fun d => d.location) ++ [depot]) depot hdepot ⟨[], rfl⟩
      (by
        intro w hw
        rcases List.mem_append.1 hw with h | h
        · obtain ⟨d, hd, hdw⟩ := List.mem_map.1 h
          rw [← hdw]; exact hentries d hd
        · rw [List.mem_singleton.1 h]; exact hdepot)
      (by
        obtain ⟨d, hd, hn⟩ := hunreach
        exact ⟨d.location, List.mem_append_left _ (List.mem_map_of_mem _ hd), hn⟩)
  obtain ⟨F1, hF1⟩ := legs_common_fuel hasher dist sm hG hnn pre
    (by
      intro l hl
      obtain ⟨e1, e2, r1, r2⟩ := hpre l hl
      obtain ⟨route, hroute⟩ := r1
      exact ⟨e1, e2, Reachable_trans hasher sm _ depot _
        (Reachable_symm hasher sm hS route depot l.1 hroute) r2⟩)
  obtain ⟨F2, rf, hrf, hstatus, htotal⟩ := leg_no_route hasher dist sm hG hnn leg.1 leg.2 hE1 hE2
    (fun h => hR2 (Reachable_trans hasher sm depot leg.1 leg.2 hR1 h))
  refine ⟨max F1 F2, fun fuel hfuel => ?_⟩
  have := planOptimized_first_failure hasher dist geo sm fuel depot stops commands pre post leg rf
    hne hsplit (hF1 fuel (le_trans (le_max_left _ _) hfuel))
    (hrf fuel (le_trans (le_max_right _ _) hfuel)) (by rw [hstatus]; decide)
  rw [this, hstatus, htotal]

end PlanNoRoute

/-- Claim C13: on every graph built by `Load` with non-negative segment lengths, for every
depot and deliveries list whose locations (the depot and every delivery location) all have
graph entries, and for every sequence of random draws on which the optimizer returns: if
some delivery location is not reachable from the depot, then `GenerateDeliveryPlan` returns,
with every large enough fuel, NO_ROUTE (not BAD_COORD, not DELIVERY_SUCCESS), distance 0, and
the commands vector as it was passed in. -/
theorem GenerateDeliveryPlan_no_route {Coord : Type} [LinearOrder Coord]
    (hasher : Coord → Nat) (dist : Coord → Coord → ℚ) (geo : Geometry Coord) (expFn : ℚ → ℚ)
    (rng : RandomSource) (records : List (StreetRecord Coord)) (depot : Coord)
    (deliveries : List (DeliveryRequest Coord)) (commands : List DeliveryCommand)
    (fuel0 : Nat) (o : OptimizeResult Coord)
    (hnn : ∀ s, InGraph hasher (LoadRecords hasher records) s → 0 ≤ dist s.start s.end_)
    (hdepot : (GetSegmentsThatStartWith hasher (LoadRecords hasher records) depot).isSome = true)
    (hentries : ∀ d ∈ deliveries,
      (GetSegmentsThatStartWith hasher (LoadRecords hasher records) d.location).isSome = true)
    (hunreach : ∃ d ∈ deliveries,
      ¬ Reachable hasher (LoadRecords hasher records) depot d.location)
    (ho : OptimizeDeliveryOrder dist expFn rng fuel0 depot deliveries = some o) :
    ∃ F, ∀ fuel, F ≤ fuel →
      GenerateDeliveryPlan hasher dist geo expFn rng (LoadRecords hasher records) fuel depot
          deliveries commands
        = some ⟨DeliveryResult.NO_ROUTE, commands, 0⟩ := by
  have hperm := OptimizeDeliveryOrder_perm dist expFn rng fuel0 depot deliveries o ho
  obtain ⟨F, hF⟩ := planOptimized_no_route hasher dist geo (LoadRecords hasher records)
    (GraphOK_LoadRecords hasher records) (LoadRecords_symmetric hasher records) hnn depot
    o.deliveries commands hdepot
    (fun d hd => hentries d (hperm.subset hd))
    (by
      obtain ⟨d, hd, hn⟩ := hunreach
      exact ⟨d, hperm.symm.subset hd, hn⟩)
  refine ⟨max fuel0 F, fun fuel hfuel => ?_⟩
  rw [GenerateDeliveryPlan_eq hasher dist geo expFn rng _ fuel depot deliveries commands o
    (OptimizeDeliveryOrder_fuel_mono dist expFn rng fuel0 depot deliveries o ho fuel
      (le_trans (le_max_left _ _) hfuel))]
  exact hF fuel (le_trans (le_max_right _ _) hfuel)

/-- Claim C13, witness: on the map of the two streets that do not meet, with depot 0, a
delivery at 1 and a delivery at 5, the plan is NO_ROUTE and the commands vector is as passed
in. -/
theorem GenerateDeliveryPlan_no_route_witness :
    ∃ F, ∀ fuel, F ≤ fuel →
      GenerateDeliveryPlan exampleHasher lineDist lineGeometry (fun _ => 0) alternatingSource
          (LoadRecords exampleHasher islandRecords) fuel 0 [⟨"pizza", 1⟩, ⟨"salad", 5⟩]
          [DeliveryCommand.Deliver "earlier"]
        = some ⟨DeliveryResult.NO_ROUTE, [DeliveryCommand.Deliver "earlier"], 0⟩ := by
  obtain ⟨o, ho⟩ := OptimizeDeliveryOrder_alternating lineDist (fun _ => 0) 1 (by decide) 0
    ⟨"pizza", 1⟩ ⟨"salad", 5⟩
  have hnn : ∀ s, InGraph exampleHasher (LoadRecords exampleHasher islandRecords) s →
      0 ≤ lineDist s.start s.end_ := fun s _ => abs_nonneg _
  have hno : ¬ Reachable exampleHasher (LoadRecords exampleHasher islandRecords) 0 5 := by
    rcases GeneratePointToPointRoute_sound exampleHasher lineDist
      (LoadRecords exampleHasher islandRecords) (GraphOK_LoadRecords exampleHasher islandRecords)
      hnn 3 0 5 (by decide!) (by decide!) ⟨DeliveryResult.NO_ROUTE, [], 0⟩ (by decide!)
      with hok | hbad
    · exact absurd hok.1 (by decide)
    · exact hbad.2.1
  exact GenerateDeliveryPlan_no_route exampleHasher lineDist lineGeometry (fun _ => 0)
    alternatingSource islandRecords 0 [⟨"pizza", 1⟩, ⟨"salad", 5⟩]
    [DeliveryCommand.Deliver "earlier"] 1 o hnn (by decide!)
    (by
      intro d hd
      simp only [List.mem_cons, List.mem_singleton, List.not_mem_nil, or_false] at hd
      rcases hd with h | h <;> rw [h] <;> decide!)
    ⟨⟨"salad", 5⟩, by simp, hno⟩ ho
section PlanNone

variable {Coord : Type} [LinearOrder Coord]

/-- More fuel does not change the result of routing the legs. -/
theorem addLegs_fuel_add (hasher : Coord → Nat) (dist : Coord → Coord → ℚ)
    (sm : StreetMapImpl Coord) (fuel : Nat) (legs : List (Coord × Coord))
    (total_path : List (StreetSegment Coord)) (total : ℚ)
    (x : DeliveryResult × List (StreetSegment Coord) × ℚ)
    (h : addLegs hasher dist sm fuel legs total_path total = some x) :
    ∀ k, addLegs hasher dist sm (fuel + k) legs total_path total = some x := by
  intro k
  induction k with
  | zero => exact h
  | succ k ih => exact addLegs_fuel_succ hasher dist sm _ legs total_path total x ih

/-- When all legs route and the command loop breaks off, the planner returns nothing,
whatever the fuel. -/
theorem planOptimized_none_of_commands (hasher : Coord → Nat) (dist : Coord → Coord → ℚ)
    (geo : Geometry Coord) (sm : StreetMapImpl Coord) (fuel0 : Nat) (depot : Coord)
    (optimized_deliveries : List (DeliveryRequest Coord)) (commands : List DeliveryCommand)
    (total_path : List (StreetSegment Coord)) (total : ℚ)
    (hlegs : addLegs hasher dist sm fuel0
        (consecutivePairs ((depot :: optimized_deliveries.map (fun d => d.location)) ++ [depot]))
        [] 0 = some (DeliveryResult.DELIVERY_SUCCESS, total_path, total))
    (hcmd : generateCommands dist geo total_path optimized_deliveries commands = none) :
    ∀ fuel, planOptimized hasher dist geo sm fuel depot optimized_deliveries commands = none := by
  have hbig : ∀ k, planOptimized hasher dist geo sm (fuel0 + k) depot optimized_deliveries
      commands = none := by
    intro k
    have h := addLegs_fuel_add hasher dist sm fuel0 _ _ _ _ hlegs k
    unfold planOptimized
    cases optimized_deliveries with
    | nil => rfl
    | cons d rest =>
      dsimp only
      rw [h]
      simp only [ne_eq, not_true_eq_false, if_false, hcmd]
  intro fuel
  cases hp : planOptimized hasher dist geo sm fuel depot optimized_deliveries commands with
  | none => rfl
  | some r =>
    rcases Nat.le_total fuel0 fuel with hle | hle
    · obtain ⟨k, hk⟩ := Nat.exists_eq_add_of_le hle
      rw [hk, hbig k] at hp
      exact absurd hp (by simp)
    · obtain ⟨k, hk⟩ := Nat.exists_eq_add_of_le hle
      have h1 := planOptimized_fuel_add hasher dist geo sm fuel depot _ _ r hp k
      rw [← hk] at h1
      have h2 := hbig 0
      rw [Nat.add_zero, h1] at h2
      exact absurd h2 (by simp)

end PlanNone

/-- Claim C14, at the failing input: on the map of street Main (segments 0 - 1 and 1 - 2,
collinear), with depot 0 and the deliveries item_A at 1 and item_B at 2, the three legs
route, and the command loop appends Proceed 1, Deliver item_A, Proceed 1, Deliver item_B and
a Proceed west for the segment from 2 to 1; at that point no delivery is pending any more.
The boundary before the last segment, from 1 to 0, then reads the location of the pending
delivery, which does not exist: the loop body has no defined result there, and
`GenerateDeliveryPlan` returns no result, whatever the fuel and the random draws. -/
theorem plan_on_collinear_street_reads_past_the_deliveries :
    addLegs exampleHasher lineDist mainStreetMap 3 [(0, 1), (1, 2), (2, 0)] [] 0
      = some (DeliveryResult.DELIVERY_SUCCESS,
          [⟨0, 1, "Main"⟩, ⟨1, 2, "Main"⟩, ⟨2, 1, "Main"⟩, ⟨1, 0, "Main"⟩], 2)
    ∧ (commandLoop lineDist lineGeometry ⟨0, 1, "Main"⟩ [⟨1, 2, "Main"⟩, ⟨2, 1, "Main"⟩]
          (commandStart lineDist lineGeometry ⟨0, 1, "Main"⟩ ⟨"item_A", 1⟩ [⟨"item_B", 2⟩]
            [])).map (fun st => (st.commands, st.pending))
        = some ([DeliveryCommand.Proceed "east" "Main" 1, DeliveryCommand.Deliver "item_A",
            DeliveryCommand.Proceed "east" "Main" 1, DeliveryCommand.Deliver "item_B",
            DeliveryCommand.Proceed "west" "Main" 1], [])
    ∧ (∀ st : PlanState Nat, st.pending = [] →
        commandStep lineDist lineGeometry ⟨2, 1, "Main"⟩ ⟨1, 0, "Main"⟩ st = none)
    ∧ ∀ (fuel : Nat) (expFn : ℚ → ℚ) (rng : RandomSource),
        GenerateDeliveryPlan exampleHasher lineDist lineGeometry expFn rng mainStreetMap fuel 0
          [⟨"item_A", 1⟩, ⟨"item_B", 2⟩] [] = none := by
  refine ⟨by decide!, by decide!, ?_, ?_⟩
  · intro st hst
    unfold commandStep
    rw [hst]
  · intro fuel expFn rng
    cases ho : OptimizeDeliveryOrder lineDist expFn rng fuel 0
        [(⟨"item_A", 1⟩ : DeliveryRequest Nat), ⟨"item_B", 2⟩] with
    | none =>
      unfold GenerateDeliveryPlan
      rw [ho]
    | some o =>
      rw [GenerateDeliveryPlan_eq exampleHasher lineDist lineGeometry expFn rng mainStreetMap fuel
        0 _ [] o ho,
        OptimizeDeliveryOrder_pair lineDist lineDist_symm expFn rng fuel 0 _ _ o ho]
      exact planOptimized_none_of_commands exampleHasher lineDist lineGeometry mainStreetMap 3 0
        [⟨"item_A", 1⟩, ⟨"item_B", 2⟩] []
        [⟨0, 1, "Main"⟩, ⟨1, 2, "Main"⟩, ⟨2, 1, "Main"⟩, ⟨1, 0, "Main"⟩] 2
        (by decide!) (by decide!) fuel
namespace ExpandableHashMap

variable {K V : Type} [DecidableEq K]

/-- The scan of `AddPairToMap` finds a pair to overwrite exactly when the scan of `Find`
finds one. -/
theorem assignInBucket_isSome (key : K) (val : V) (bucket : List (K × V)) :
    (assignInBucket key val bucket).isSome = (findInBucket key bucket).isSome := by
  induction bucket with
  | nil => rfl
  | cons p rest ih =>
    unfold assignInBucket findInBucket
    by_cases h : key = p.1
    · rw [if_pos h, if_pos h.symm]; rfl
    · rw [if_neg h, if_neg (fun e => h e.symm)]
      rw [← ih]
      cases assignInBucket key val rest <;> rfl

/-- On a key that is present, `AddPairToMap` (not copying) reports that no pair was added. -/
theorem AddPairToMap_present (hasher : K → Nat) (m : ExpandableHashMap K V) (key : K)
    (val old : V) (h : Find hasher m key = some old) :
    (AddPairToMap hasher m.m_map key val false).2 = false := by
  unfold Find at h
  unfold AddPairToMap
  dsimp only at h ⊢
  cases hb : m.m_map.getD (hasher key % m.m_map.length) none with
  | none => rw [hb] at h; simp at h
  | some bucket =>
    rw [hb] at h
    dsimp only at h ⊢
    have hs := assignInBucket_isSome key val bucket
    rw [h] at hs
    cases ha : assignInBucket key val bucket with
    | none => rw [ha] at hs; simp at hs
    | some b1 => simp

/-- On a key that is present, `Associate` overwrites the value in place: the key is then
found with the new value, every other key is found as before, and no counter changes. -/
theorem Associate_present (hasher : K → Nat) (m : ExpandableHashMap K V) (key : K)
    (value old : V) (h : Find hasher m key = some old) :
    Find hasher (Associate hasher m key value) key = some value
      ∧ (∀ k1, k1 ≠ key → Find hasher (Associate hasher m key value) k1 = Find hasher m k1)
      ∧ Size (Associate hasher m key value) = Size m := by
  have hflag := AddPairToMap_present hasher m key value old h
  have hfst := AddPairToMap_false_fst hasher m.m_map key value
  have hA : Associate hasher m key value
      = ⟨m.m_map.set (hasher key % m.m_map.length)
          (some (upsertBucket key value (bucketAt m.m_map (hasher key % m.m_map.length)))),
          m.m_num_pairs, m.m_size, m.m_max_load⟩ := by
    unfold Associate
    cases hp : AddPairToMap hasher m.m_map key value false with
    | mk map1 flag =>
      rw [hp] at hflag hfst
      dsimp only at hflag hfst
      rw [hflag, hfst]
  have hpos : 0 < m.m_map.length := by
    rcases Nat.eq_zero_or_pos m.m_map.length with h0 | h0
    · rw [Find_eq, bucketAt_of_le _ _ (by omega)] at h
      simp [findInBucket] at h
    · exact h0
  have hlt : hasher key % m.m_map.length < m.m_map.length := Nat.mod_lt _ hpos
  have hfind : ∀ k1, Find hasher (Associate hasher m key value) k1
      = if k1 = key then some value else Find hasher m k1 := by
    intro k1
    rw [hA, Find_eq, Find_eq]
    dsimp only
    rw [List.length_set, bucketAt_set _ _ _ _ hlt]
    by_cases hk : k1 = key
    · rw [if_pos hk, hk, if_pos rfl, findInBucket_upsert, if_pos rfl]
    · rw [if_neg hk]
      by_cases hi : hasher k1 % m.m_map.length = hasher key % m.m_map.length
      · rw [if_pos hi, findInBucket_upsert, if_neg hk, hi]
      · rw [if_neg hi]
  refine ⟨by rw [hfind, if_pos rfl], fun k1 hk => by rw [hfind, if_neg hk], ?_⟩
  rw [hA]; rfl

end ExpandableHashMap

/-- Claim C17, counterexample: on the map that holds key 1 with value 10, `Associate(1, 20)`
changes the value found for key 1 from 10 to 20. -/
theorem Associate_overwrites_present_key :
    ExpandableHashMap.Find exampleHasher
        (ExpandableHashMap.Associate exampleHasher
          (ExpandableHashMap.init ExpandableHashMap.DEFAULT_MAX_LOAD : ExpandableHashMap Nat Nat)
          1 10) 1 = some 10
    ∧ ExpandableHashMap.Find exampleHasher
        (ExpandableHashMap.Associate exampleHasher
          (ExpandableHashMap.Associate exampleHasher
            (ExpandableHashMap.init ExpandableHashMap.DEFAULT_MAX_LOAD : ExpandableHashMap Nat Nat)
            1 10) 1 20) 1 = some 20 := by
  decide!

/-- Claim C17, amended: for every map and every key already present in it,
`Associate(key, value)` replaces the value of that key and changes nothing else: afterwards
`key` is found with `value`, every other key is found as before, and `Size()` is unchanged. -/
theorem Associate_present_key_replaces_value {K V : Type} [DecidableEq K] (hasher : K → Nat)
    (m : ExpandableHashMap K V) (key : K) (value old : V)
    (h : ExpandableHashMap.Find hasher m key = some old) :
    ExpandableHashMap.Find hasher (ExpandableHashMap.Associate hasher m key value) key
        = some value
      ∧ (∀ k1, k1 ≠ key →
          ExpandableHashMap.Find hasher (ExpandableHashMap.Associate hasher m key value) k1
            = ExpandableHashMap.Find hasher m k1)
      ∧ ExpandableHashMap.Size (ExpandableHashMap.Associate hasher m key value)
          = ExpandableHashMap.Size m :=
  ExpandableHashMap.Associate_present hasher m key value old h

/-- Claim C17, amended, witness: key 1 is overwritten on the map that also holds key 2. -/
theorem Associate_present_key_replaces_value_witness :
    ExpandableHashMap.Find exampleHasher
        (ExpandableHashMap.Associate exampleHasher
          (ExpandableHashMap.Associate exampleHasher
            (ExpandableHashMap.init ExpandableHashMap.DEFAULT_MAX_LOAD : ExpandableHashMap Nat Nat)
            1 10) 2 7) 1 = some 10
    ∧ (ExpandableHashMap.Find exampleHasher
        (ExpandableHashMap.Associate exampleHasher
          (ExpandableHashMap.Associate exampleHasher
            (ExpandableHashMap.Associate exampleHasher
              (ExpandableHashMap.init ExpandableHashMap.DEFAULT_MAX_LOAD :
                ExpandableHashMap Nat Nat) 1 10) 2 7) 1 20) 1 = some 20
      ∧ (∀ k1, k1 ≠ 1 →
          ExpandableHashMap.Find exampleHasher
            (ExpandableHashMap.Associate exampleHasher
              (ExpandableHashMap.Associate exampleHasher
                (ExpandableHashMap.Associate exampleHasher
                  (ExpandableHashMap.init ExpandableHashMap.DEFAULT_MAX_LOAD :
                    ExpandableHashMap Nat Nat) 1 10) 2 7) 1 20) k1
            = ExpandableHashMap.Find exampleHasher
                (ExpandableHashMap.Associate exampleHasher
                  (ExpandableHashMap.Associate exampleHasher
                    (ExpandableHashMap.init ExpandableHashMap.DEFAULT_MAX_LOAD :
                      ExpandableHashMap Nat Nat) 1 10) 2 7) k1)
      ∧ ExpandableHashMap.Size
          (ExpandableHashMap.Associate exampleHasher
            (ExpandableHashMap.Associate exampleHasher
              (ExpandableHashMap.Associate exampleHasher
                (ExpandableHashMap.init ExpandableHashMap.DEFAULT_MAX_LOAD :
                  ExpandableHashMap Nat Nat) 1 10) 2 7) 1 20)
          = ExpandableHashMap.Size
              (ExpandableHashMap.Associate exampleHasher
                (ExpandableHashMap.Associate exampleHasher
                  (ExpandableHashMap.init ExpandableHashMap.DEFAULT_MAX_LOAD :
                    ExpandableHashMap Nat Nat) 1 10) 2 7)) :=
  ⟨by decide!, Associate_present_key_replaces_value exampleHasher _ 1 20 10 (by decide!)⟩
/-- Claim C18: whenever the router relaxes a segment from the current coordinate `currPos`
to the candidate `nextSeg.end_` and enqueues the candidate, the candidate's accumulated
distance is recorded as `c + dist currPos nextSeg.end_`, where `c` is the accumulated
distance of `currPos`, and the key enqueued is that distance plus the straight-line distance
from `currPos` (not from the candidate) to `end`. -/
theorem relaxSegment_key_measures_from_current {Coord : Type} [LinearOrder Coord]
    (hasher : Coord → Nat) (dist : Coord → Coord → ℚ) (currPos end_ : Coord)
    (st : SearchState Coord) (nextSeg : StreetSegment Coord)
    (hwc : ExpandableHashMap.WF hasher st.move_cost) (c : ℚ)
    (hc : ExpandableHashMap.Find hasher st.move_cost currPos = some c)
    (himp : ∀ old, ExpandableHashMap.Find hasher st.move_cost nextSeg.end_ = some old →
      c + dist currPos nextSeg.end_ < old) :
    ∃ st1, relaxSegment hasher dist currPos end_ st nextSeg = some st1
      ∧ ExpandableHashMap.Find hasher st1.move_cost nextSeg.end_
          = some (c + dist currPos nextSeg.end_)
      ∧ st1.search_space
          = (c + dist currPos nextSeg.end_ + dist currPos end_, nextSeg.end_)
              :: st.search_space := by
  unfold relaxSegment
  simp only [hc]
  cases hold : ExpandableHashMap.Find hasher st.move_cost nextSeg.end_ with
  | none =>
    simp only [if_true]
    exact ⟨_, rfl, ExpandableHashMap.Find_Associate_self hasher _ hwc _ _, rfl⟩
  | some old =>
    simp only [himp old hold, decide_True, if_true]
    exact ⟨_, rfl, ExpandableHashMap.Find_Associate_self hasher _ hwc _ _, rfl⟩

/-- Claim C18, at the failing input: on the detour map, in the first step of the query from
0 to 3, the segment from 0 to 2 is relaxed; the accumulated distance of 2 is 8 and its
straight-line distance to 3 is 4, which would give the key 12, yet the key enqueued is
18 = 8 + 10, the 10 being the straight-line distance from 0 to 3. -/
theorem relaxSegment_key_measures_from_current_witness :
    detourDist 0 2 = 8 ∧ detourDist 2 3 = 4 ∧ detourDist 0 3 = 10
    ∧ (0 : ℚ) + detourDist 0 2 + detourDist 0 3 = 18
    ∧ (0 : ℚ) + detourDist 0 2 + detourDist 2 3 = 12
    ∧ ExpandableHashMap.Find exampleHasher (initialSearchState exampleHasher 0).move_cost 0
        = some 0
    ∧ ∃ st1, relaxSegment exampleHasher detourDist 0 3 (initialSearchState exampleHasher 0)
          ⟨0, 2, "Y"⟩ = some st1
      ∧ ExpandableHashMap.Find exampleHasher st1.move_cost 2 = some (0 + detourDist 0 2)
      ∧ st1.search_space
          = (0 + detourDist 0 2 + detourDist 0 3, 2)
              :: (initialSearchState exampleHasher 0).search_space :=
  ⟨by decide!, by decide!, by decide!, by decide!, by decide!, by decide!,
    relaxSegment_key_measures_from_current exampleHasher detourDist 0 3
      (initialSearchState exampleHasher 0) ⟨0, 2, "Y"⟩
      (show ExpandableHashMap.WF exampleHasher
          (ExpandableHashMap.Associate exampleHasher
            (ExpandableHashMap.init ExpandableHashMap.DEFAULT_MAX_LOAD) 0 (0 : ℚ)) from
        ExpandableHashMap.WF_Associate exampleHasher _
          (ExpandableHashMap.WF_init exampleHasher _) _ _)
      0 (by decide!)
      (by
        intro old h
        have hn : ExpandableHashMap.Find exampleHasher
            (initialSearchState exampleHasher 0).move_cost 2 = none := by decide!
        rw [show (⟨0, 2, "Y"⟩ : StreetSegment Nat).end_ = 2 from rfl, hn] at h
        exact absurd h (by simp))⟩
section CommandLoop

variable {Coord : Type} [LinearOrder Coord]

/-- The segment before a boundary does not depend on the first segment once another
segment follows it. -/
theorem segmentBefore_cons (front s : StreetSegment Coord) (pre : List (StreetSegment Coord)) :
    segmentBefore front (s :: pre) = segmentBefore s pre := by
  unfold segmentBefore
  cases pre with
  | nil => rfl
  | cons t pre1 =>
    rw [List.getLast?_cons_cons, List.getLast?_eq_getLast _ (List.cons_ne_nil _ _)]
    rfl

/-- The command synthesis is the loop run from `commandStart`. -/
theorem generateCommands_eq (dist : Coord → Coord → ℚ) (geo : Geometry Coord)
    (front : StreetSegment Coord) (rest : List (StreetSegment Coord))
    (first : DeliveryRequest Coord) (later : List (DeliveryRequest Coord))
    (commands : List DeliveryCommand) :
    generateCommands dist geo (front :: rest) (first :: later) commands
      = (commandLoop dist geo front rest (commandStart dist geo front first later commands)).map
          (fun st => st.commands) := by
  unfold generateCommands commandStart
  dsimp only
  cases commandLoop dist geo front rest _ <;> rfl

/-- The loop over a path that is split at a boundary: the segments before it are
processed, then the boundary, then the segments after it. -/
theorem commandLoop_append (dist : Coord → Coord → ℚ) (geo : Geometry Coord) :
    ∀ (pre : List (StreetSegment Coord)) (front cur : StreetSegment Coord)
      (post : List (StreetSegment Coord)) (st : PlanState Coord),
      commandLoop dist geo front (pre ++ cur :: post) st
        = (commandLoop dist geo front pre st).bind (fun st1 =>
            (commandStep dist geo (segmentBefore front pre) cur st1).bind
              (commandLoop dist geo cur post)) := by
  intro pre
  induction pre with
  | nil =>
    intro front cur post st
    simp only [List.nil_append, commandLoop, Option.some_bind, segmentBefore, List.getLast?_nil,
      Option.getD_none]
    cases commandStep dist geo front cur st <;> rfl
  | cons s pre ih =>
    intro front cur post st
    rw [List.cons_append, commandLoop, commandLoop]
    cases hs : commandStep dist geo front s st with
    | none => rfl
    | some st1 =>
      dsimp only
      rw [ih s cur post st1]
      have hb := segmentBefore_cons front s pre
      rw [hb]

/-- One iteration of the loop keeps the last command a Proceed on the street of the
segment just processed. -/
theorem commandStep_last (dist : Coord → Coord → ℚ) (geo : Geometry Coord)
    (prev_line current_seg : StreetSegment Coord) (st st1 : PlanState Coord)
    (hlast : ∃ direction distance, st.commands.getLast?
      = some (DeliveryCommand.Proceed direction prev_line.name distance))
    (h : commandStep dist geo prev_line current_seg st = some st1) :
    ∃ direction distance, st1.commands.getLast?
      = some (DeliveryCommand.Proceed direction current_seg.name distance) := by
  obtain ⟨dir0, x0, hback⟩ := hlast
  have hmod : (modifyBack (fun c => c.IncreaseDistance (getSegDist dist current_seg))
      st.commands).getLast?
      = some (DeliveryCommand.Proceed dir0 prev_line.name (x0 + getSegDist dist current_seg)) := by
    unfold modifyBack
    rw [hback]
    simp [DeliveryCommand.IncreaseDistance]
  unfold commandStep at h
  split at h
  · simp at h
  · rename_i delivery later hp
    split at h
    · simp only [Option.some.injEq] at h
      rw [← h]
      exact ⟨getProceedDirection geo current_seg, getSegDist dist current_seg,
            by simp [proceedFor]⟩
    · dsimp only at h
      split at h
      · rw [hback] at h
        dsimp only at h
        split at h
        · rename_i hsame
          simp only [Option.some.injEq] at h
          rw [← h]
          dsimp only
          rw [hmod]
          simp only [DeliveryCommand.StreetName] at hsame
          exact ⟨_, _, by rw [hsame.2]⟩
        · simp only [Option.some.injEq] at h
          rw [← h]
          exact ⟨getProceedDirection geo current_seg, getSegDist dist current_seg,
            by simp [proceedFor]⟩
      · split at h
        · simp only [Option.some.injEq] at h
          rw [← h]
          exact ⟨getProceedDirection geo current_seg, getSegDist dist current_seg,
            by simp [proceedFor]⟩
        · rename_i hsame
          rw [hback] at h
          simp only [Option.some.injEq] at h
          rw [← h]
          dsimp only
          rw [hmod]
          have : current_seg.name = prev_line.name := by
            by_contra hne; exact hsame hne
          exact ⟨_, _, by rw [this]⟩

/-- The invariant of the loop: at every boundary the last command is a Proceed on the
street of the segment before the boundary. -/
theorem commandLoop_last (dist : Coord → Coord → ℚ) (geo : Geometry Coord) :
    ∀ (pre : List (StreetSegment Coord)) (front : StreetSegment Coord) (st st1 : PlanState Coord),
      (∃ direction distance, st.commands.getLast?
        = some (DeliveryCommand.Proceed direction front.name distance)) →
      commandLoop dist geo front pre st = some st1 →
      ∃ direction distance, st1.commands.getLast?
        = some (DeliveryCommand.Proceed direction (segmentBefore front pre).name distance) := by
  intro pre
  induction pre with
  | nil =>
    intro front st st1 hlast h
    simp only [commandLoop, Option.some.injEq] at h
    rw [← h]
    exact hlast
  | cons s pre ih =>
    intro front st st1 hlast h
    rw [commandLoop] at h
    cases hs : commandStep dist geo front s st with
    | none => rw [hs] at h; simp at h
    | some st2 =>
      rw [hs] at h
      have h2 := ih s st2 st1 (commandStep_last dist geo front s st st2 hlast hs) h
      have hb := segmentBefore_cons front s pre
      rw [hb]
      exact h2

/-- The invariant holds when the loop is entered. -/
theorem commandStart_last (dist : Coord → Coord → ℚ) (geo : Geometry Coord)
    (front : StreetSegment Coord) (first : DeliveryRequest Coord)
    (later : List (DeliveryRequest Coord)) (commands : List DeliveryCommand) :
    ∃ direction distance, (commandStart dist geo front first later commands).commands.getLast?
      = some (DeliveryCommand.Proceed direction front.name distance) :=
  ⟨getProceedDirection geo front, getSegDist dist front, by simp [commandStart, proceedFor]⟩

/-- At every boundary reached by the loop the last command is a Proceed on the street of
the segment before the boundary. -/
theorem boundary_last (dist : Coord → Coord → ℚ) (geo : Geometry Coord)
    (front : StreetSegment Coord) (pre : List (StreetSegment Coord))
    (first : DeliveryRequest Coord) (later : List (DeliveryRequest Coord))
    (commands : List DeliveryCommand) (st : PlanState Coord)
    (hst : commandLoop dist geo front pre (commandStart dist geo front first later commands)
      = some st) :
    ∃ init direction distance,
      st.commands
        = init ++ [DeliveryCommand.Proceed direction (segmentBefore front pre).name distance] := by
  obtain ⟨dir0, x0, h⟩ := commandLoop_last dist geo pre front _ st
    (commandStart_last dist geo front first later commands) hst
  refine ⟨st.commands.dropLast, dir0, x0, ?_⟩
  rw [List.getLast?_eq_some_iff] at h
  obtain ⟨ys, hys⟩ := h
  rw [hys]
  simp

end CommandLoop
section Boundary

variable {Coord : Type} [LinearOrder Coord]

/-- The loop body at a boundary where the pending delivery is elsewhere and the street
name changes: the Turn demanded by the angle, if any, and a new Proceed are appended. -/
theorem commandStep_name_change (dist : Coord → Coord → ℚ) (geo : Geometry Coord)
    (prev_line current_seg : StreetSegment Coord) (st : PlanState Coord)
    (d : DeliveryRequest Coord) (rest : List (DeliveryRequest Coord))
    (init : List DeliveryCommand) (direction : String) (distance : ℚ)
    (hc : st.commands = init ++ [DeliveryCommand.Proceed direction prev_line.name distance])
    (hp : st.pending = d :: rest) (hd : d.location ≠ current_seg.start)
    (hname : current_seg.name ≠ prev_line.name) :
    ∃ st1, commandStep dist geo prev_line current_seg st = some st1
      ∧ st1.pending = st.pending
      ∧ st1.commands = st.commands
          ++ (if geo.angleBetween2Lines prev_line current_seg < 1
                ∨ geo.angleBetween2Lines prev_line current_seg > 359 then []
              else if geo.angleBetween2Lines prev_line current_seg < 180 then
                [DeliveryCommand.Turn "left" current_seg.name]
              else [DeliveryCommand.Turn "right" current_seg.name])
          ++ [DeliveryCommand.Proceed (getProceedDirection geo current_seg) current_seg.name
                (dist current_seg.start current_seg.end_)] := by
  have hback : st.commands.getLast?
      = some (DeliveryCommand.Proceed direction prev_line.name distance) := by
    rw [hc]; simp
  unfold commandStep
  rw [hp]
  dsimp only
  rw [if_neg hd]
  by_cases ha : geo.angleBetween2Lines prev_line current_seg < 1
      ∨ geo.angleBetween2Lines prev_line current_seg > 359
  · rw [if_pos ha, if_pos ha, hback]
    dsimp only
    have hno : ¬ ((DeliveryCommand.Proceed direction prev_line.name distance).isProceed = true
        ∧ (DeliveryCommand.Proceed direction prev_line.name distance).StreetName
            = current_seg.name) := by
      intro h
      exact hname h.2.symm
    rw [if_neg hno]
    exact ⟨_, rfl, rfl, by simp [proceedFor, getSegDist]⟩
  · rw [if_neg ha, if_neg ha, if_pos hname]
    refine ⟨_, rfl, rfl, ?_⟩
    dsimp only
    have h1 : geo.angleBetween2Lines prev_line current_seg ≥ 1 := by
      by_contra hlt; exact ha (Or.inl (lt_of_not_ge hlt))
    have h359 : geo.angleBetween2Lines prev_line current_seg ≤ 359 := by
      by_contra hgt; exact ha (Or.inr (lt_of_not_ge hgt))
    by_cases h180 : geo.angleBetween2Lines prev_line current_seg < 180
    · rw [if_pos ⟨h1, h180⟩, if_pos h180]
      simp [proceedFor, getSegDist]
    · rw [if_neg (fun h => h180 h.2), if_pos ⟨le_of_not_lt h180, h359⟩, if_neg h180]
      simp [proceedFor, getSegDist]

/-- The loop body at a boundary where the pending delivery is elsewhere and the street
name stays: the last command is lengthened and nothing is appended. -/
theorem commandStep_same_name (dist : Coord → Coord → ℚ) (geo : Geometry Coord)
    (prev_line current_seg : StreetSegment Coord) (st : PlanState Coord)
    (d : DeliveryRequest Coord) (rest : List (DeliveryRequest Coord))
    (init : List DeliveryCommand) (direction : String) (distance : ℚ)
    (hc : st.commands = init ++ [DeliveryCommand.Proceed direction prev_line.name distance])
    (hp : st.pending = d :: rest) (hd : d.location ≠ current_seg.start)
    (hname : current_seg.name = prev_line.name) :
    ∃ st1, commandStep dist geo prev_line current_seg st = some st1
      ∧ st1.pending = st.pending
      ∧ st1.commands = init ++ [DeliveryCommand.Proceed direction current_seg.name
          (distance + dist current_seg.start current_seg.end_)] := by
  have hback : st.commands.getLast?
      = some (DeliveryCommand.Proceed direction prev_line.name distance) := by
    rw [hc]; simp
  have hmod : modifyBack (fun c => c.IncreaseDistance (getSegDist dist current_seg)) st.commands
      = init ++ [DeliveryCommand.Proceed direction current_seg.name
          (distance + dist current_seg.start current_seg.end_)] := by
    unfold modifyBack
    rw [hback, hc, hname]
    simp [DeliveryCommand.IncreaseDistance, getSegDist]
  unfold commandStep
  rw [hp]
  dsimp only
  rw [if_neg hd]
  by_cases ha : geo.angleBetween2Lines prev_line current_seg < 1
      ∨ geo.angleBetween2Lines prev_line current_seg > 359
  · rw [if_pos ha, hback]
    dsimp only
    have hyes : (DeliveryCommand.Proceed direction prev_line.name distance).isProceed = true
        ∧ (DeliveryCommand.Proceed direction prev_line.name distance).StreetName
            = current_seg.name := ⟨rfl, hname.symm⟩
    rw [if_pos hyes]
    exact ⟨_, rfl, rfl, hmod⟩
  · rw [if_neg ha, if_neg (fun h => h hname), hback]
    exact ⟨_, rfl, rfl, hmod⟩

end Boundary

/-- Claim C19: at every boundary that the command loop reaches (after the first segment
`front` and the segments `pre`, from the state in which the loop is entered), when the
pending delivery is not at the start of the current segment `cur` and the street name of
`cur` differs from that of the segment before it, the step appends, with `a` the turn angle:
for `a < 1` or `a > 359` exactly one Proceed on the new street and no Turn; for
`1 <= a < 180` a Turn left onto the new street and then the Proceed; for `180 <= a <= 359` a
Turn right onto the new street and then the Proceed. The distance of the new Proceed is the
length of `cur`, and no pending delivery is consumed. -/
theorem boundary_with_new_street_name {Coord : Type} [LinearOrder Coord]
    (dist : Coord → Coord → ℚ) (geo : Geometry Coord) (front : StreetSegment Coord)
    (pre : List (StreetSegment Coord)) (cur : StreetSegment Coord)
    (first : DeliveryRequest Coord) (later : List (DeliveryRequest Coord))
    (commands : List DeliveryCommand) (st : PlanState Coord) (d : DeliveryRequest Coord)
    (rest : List (DeliveryRequest Coord))
    (hst : commandLoop dist geo front pre (commandStart dist geo front first later commands)
      = some st)
    (hp : st.pending = d :: rest) (hd : d.location ≠ cur.start)
    (hname : cur.name ≠ (segmentBefore front pre).name) :
    ∃ st1, commandStep dist geo (segmentBefore front pre) cur st = some st1
      ∧ st1.pending = st.pending
      ∧ (geo.angleBetween2Lines (segmentBefore front pre) cur < 1
          ∨ geo.angleBetween2Lines (segmentBefore front pre) cur > 359 →
          st1.commands = st.commands
            ++ [DeliveryCommand.Proceed (getProceedDirection geo cur) cur.name
                  (dist cur.start cur.end_)])
      ∧ (1 ≤ geo.angleBetween2Lines (segmentBefore front pre) cur
          ∧ geo.angleBetween2Lines (segmentBefore front pre) cur < 180 →
          st1.commands = st.commands
            ++ [DeliveryCommand.Turn "left" cur.name,
                DeliveryCommand.Proceed (getProceedDirection geo cur) cur.name
                  (dist cur.start cur.end_)])
      ∧ (180 ≤ geo.angleBetween2Lines (segmentBefore front pre) cur
          ∧ geo.angleBetween2Lines (segmentBefore front pre) cur ≤ 359 →
          st1.commands = st.commands
            ++ [DeliveryCommand.Turn "right" cur.name,
                DeliveryCommand.Proceed (getProceedDirection geo cur) cur.name
                  (dist cur.start cur.end_)]) := by
  obtain ⟨init, direction, distance, hc⟩ :=
    boundary_last dist geo front pre first later commands st hst
  obtain ⟨st1, h1, h2, h3⟩ := commandStep_name_change dist geo (segmentBefore front pre) cur st d
    rest init direction distance hc hp hd hname
  refine ⟨st1, h1, h2, ?_, ?_, ?_⟩
  · intro ha
    rw [h3, if_pos ha]
    simp
  · intro ha
    have hna : ¬ (geo.angleBetween2Lines (segmentBefore front pre) cur < 1
        ∨ geo.angleBetween2Lines (segmentBefore front pre) cur > 359) := by
      intro h
      rcases h with h | h
      · exact absurd ha.1 (not_le_of_lt h)
      · exact absurd (lt_trans ha.2 (by norm_num)) (not_lt_of_gt h)
    rw [h3, if_neg hna, if_pos ha.2]
    simp
  · intro ha
    have hna : ¬ (geo.angleBetween2Lines (segmentBefore front pre) cur < 1
        ∨ geo.angleBetween2Lines (segmentBefore front pre) cur > 359) := by
      intro h
      rcases h with h | h
      · exact absurd (le_trans (by norm_num) ha.1) (not_le_of_lt h)
      · exact absurd ha.2 (not_le_of_lt h)
    rw [h3, if_neg hna, if_neg (not_lt_of_le ha.1)]
    simp

/-- Claim C20: at every boundary that the command loop reaches (after the first segment
`front` and the segments `pre`, from the state in which the loop is entered), when the
pending delivery is not at the start of the current segment `cur` and `cur` has the street
name of the segment before it, the last command is a Proceed on that street, and the step
appends nothing, whatever the turn angle: it adds the length of `cur` to the distance of that
Proceed and leaves every other command and the pending deliveries as they are. -/
theorem boundary_with_same_street_name {Coord : Type} [LinearOrder Coord]
    (dist : Coord → Coord → ℚ) (geo : Geometry Coord) (front : StreetSegment Coord)
    (pre : List (StreetSegment Coord)) (cur : StreetSegment Coord)
    (first : DeliveryRequest Coord) (later : List (DeliveryRequest Coord))
    (commands : List DeliveryCommand) (st : PlanState Coord) (d : DeliveryRequest Coord)
    (rest : List (DeliveryRequest Coord))
    (hst : commandLoop dist geo front pre (commandStart dist geo front first later commands)
      = some st)
    (hp : st.pending = d :: rest) (hd : d.location ≠ cur.start)
    (hname : cur.name = (segmentBefore front pre).name) :
    ∃ st1 init direction distance,
      commandStep dist geo (segmentBefore front pre) cur st = some st1
      ∧ st.commands = init ++ [DeliveryCommand.Proceed direction cur.name distance]
      ∧ st1.commands = init ++ [DeliveryCommand.Proceed direction cur.name
          (distance + dist cur.start cur.end_)]
      ∧ st1.pending = st.pending := by
  obtain ⟨init, direction, distance, hc⟩ :=
    boundary_last dist geo front pre first later commands st hst
  obtain ⟨st1, h1, h2, h3⟩ := commandStep_same_name dist geo (segmentBefore front pre) cur st d
    rest init direction distance hc hp hd hname
  exact ⟨st1, init, direction, distance, h1, by rw [hc, hname], h3, h2⟩
/-- Claim C19, witness: on the line, after the segment from 0 to 1 of street A, the segment
from 1 back to 0 of street B is a turn of 180 degrees; with the pending delivery at 5 the
step appends a Turn right onto B and a Proceed west on B of distance 1. -/
theorem boundary_with_new_street_name_witness :
    lineGeometry.angleBetween2Lines (segmentBefore ⟨0, 1, "A"⟩ []) ⟨1, 0, "B"⟩ = 180
    ∧ ∃ st1, commandStep lineDist lineGeometry (segmentBefore ⟨0, 1, "A"⟩ []) ⟨1, 0, "B"⟩
          (commandStart lineDist lineGeometry ⟨0, 1, "A"⟩ ⟨"pizza", 5⟩ [] []) = some st1
      ∧ st1.commands
          = [DeliveryCommand.Proceed "east" "A" 1, DeliveryCommand.Turn "right" "B",
              DeliveryCommand.Proceed "west" "B" 1] := by
  refine ⟨by decide!, ?_⟩
  obtain ⟨st1, h1, _, _, _, h5⟩ := boundary_with_new_street_name lineDist lineGeometry
    ⟨0, 1, "A"⟩ [] ⟨1, 0, "B"⟩ ⟨"pizza", 5⟩ [] []
    (commandStart lineDist lineGeometry ⟨0, 1, "A"⟩ ⟨"pizza", 5⟩ [] []) ⟨"pizza", 5⟩ [] rfl
    (by decide!) (by decide) (by decide)
  refine ⟨st1, h1, ?_⟩
  rw [h5 ⟨by decide!, by decide!⟩]
  decide!

/-- Claim C20, witness: on the line, after the segment from 0 to 1 of street Main, the
segment from 1 to 2 of the same street, with the pending delivery at 2, lengthens the
Proceed east on Main from 1 to 2 and appends nothing. -/
theorem boundary_with_same_street_name_witness :
    ∃ st1, commandStep lineDist lineGeometry (segmentBefore ⟨0, 1, "Main"⟩ []) ⟨1, 2, "Main"⟩
          (commandStart lineDist lineGeometry ⟨0, 1, "Main"⟩ ⟨"pizza", 2⟩ [] []) = some st1
      ∧ (commandStart lineDist lineGeometry ⟨0, 1, "Main"⟩ ⟨"pizza", 2⟩ [] []).commands
          = [DeliveryCommand.Proceed "east" "Main" 1]
      ∧ st1.commands = [DeliveryCommand.Proceed "east" "Main" 2] := by
  obtain ⟨st1, init, direction, distance, h1, h2, h3, _⟩ :=
    boundary_with_same_street_name lineDist lineGeometry
      ⟨0, 1, "Main"⟩ [] ⟨1, 2, "Main"⟩ ⟨"pizza", 2⟩ [] []
      (commandStart lineDist lineGeometry ⟨0, 1, "Main"⟩ ⟨"pizza", 2⟩ [] []) ⟨"pizza", 2⟩ [] rfl
      (by decide!) (by decide) (by decide)
  have hstart : (commandStart lineDist lineGeometry ⟨0, 1, "Main"⟩ ⟨"pizza", 2⟩ [] []).commands
      = [DeliveryCommand.Proceed "east" "Main" 1] := by decide!
  refine ⟨st1, h1, hstart, ?_⟩
  rw [hstart] at h2
  have hlen : init = [] := by
    cases init with
    | nil => rfl
    | cons c cs =>
      have := congrArg List.length h2
      simp at this
  rw [hlen] at h2 h3
  simp only [List.nil_append, List.cons.injEq, DeliveryCommand.Proceed.injEq, and_true] at h2
  rw [h3, ← h2.1, ← h2.2.2]
  decide!
/-- The sector of a bearing between two bounds that are 45 degrees apart. -/
theorem sectorIndex_of_bounds (a : ℚ) (k : Nat) (hk : k < 8)
    (hlo : (45 : ℚ) * k - 22.5 ≤ a) (hhi : a < (45 : ℚ) * k + 22.5) : sectorIndex a = k := by
  have hfloor : Int.floor ((a + 22.5) / 45) = (k : Int) := by
    rw [Int.floor_eq_iff]
    constructor
    · rw [le_div_iff₀ (by norm_num)]
      push_cast
      linarith
    · rw [div_lt_iff₀ (by norm_num)]
      push_cast
      linarith
  unfold sectorIndex
  rw [hfloor]
  omega

/-- The sector of a bearing in the last half sector before the full turn. -/
theorem sectorIndex_wrap (a : ℚ) (hlo : (337.5 : ℚ) ≤ a) (hhi : a ≤ 360) : sectorIndex a = 0 := by
  have hfloor : Int.floor ((a + 22.5) / 45) = (8 : Int) := by
    rw [Int.floor_eq_iff]
    constructor
    · rw [le_div_iff₀ (by norm_num)]
      push_cast
      linarith
    · rw [div_lt_iff₀ (by norm_num)]
      push_cast
      linarith
  unfold sectorIndex
  rw [hfloor]
  rfl

section ProceedDirection

variable {Coord : Type} [LinearOrder Coord]

/-- The chain of comparisons of `getProceedDirection` on a bearing that is not negative:
the upper bounds alone decide. -/
theorem getProceedDirection_of_nonneg (geo : Geometry Coord) (seg : StreetSegment Coord)
    (h0 : 0 ≤ geo.angleOfLine seg) :
    getProceedDirection geo seg
      = if geo.angleOfLine seg < 22.5 then "east"
        else if geo.angleOfLine seg < 67.5 then "northeast"
        else if geo.angleOfLine seg < 112.5 then "north"
        else if geo.angleOfLine seg < 157.5 then "northwest"
        else if geo.angleOfLine seg < 202.5 then "west"
        else if geo.angleOfLine seg < 247.5 then "southwest"
        else if geo.angleOfLine seg < 292.5 then "south"
        else if geo.angleOfLine seg < 337.5 then "southeast"
        else "east" := by
  unfold getProceedDirection
  dsimp only
  by_cases h1 : geo.angleOfLine seg < 22.5
  · rw [if_pos ⟨h0, h1⟩, if_pos h1]
  · rw [if_neg (fun h => h1 h.2), if_neg h1]
    by_cases h2 : geo.angleOfLine seg < 67.5
    · rw [if_pos ⟨not_lt.1 h1, h2⟩, if_pos h2]
    · rw [if_neg (fun h => h2 h.2), if_neg h2]
      by_cases h3 : geo.angleOfLine seg < 112.5
      · rw [if_pos ⟨not_lt.1 h2, h3⟩, if_pos h3]
      · rw [if_neg (fun h => h3 h.2), if_neg h3]
        by_cases h4 : geo.angleOfLine seg < 157.5
        · rw [if_pos ⟨not_lt.1 h3, h4⟩, if_pos h4]
        · rw [if_neg (fun h => h4 h.2), if_neg h4]
          by_cases h5 : geo.angleOfLine seg < 202.5
          · rw [if_pos ⟨not_lt.1 h4, h5⟩, if_pos h5]
          · rw [if_neg (fun h => h5 h.2), if_neg h5]
            by_cases h6 : geo.angleOfLine seg < 247.5
            · rw [if_pos ⟨not_lt.1 h5, h6⟩, if_pos h6]
            · rw [if_neg (fun h => h6 h.2), if_neg h6]
              by_cases h7 : geo.angleOfLine seg < 292.5
              · rw [if_pos ⟨not_lt.1 h6, h7⟩, if_pos h7]
              · rw [if_neg (fun h => h7 h.2), if_neg h7]
                by_cases h8 : geo.angleOfLine seg < 337.5
                · rw [if_pos ⟨not_lt.1 h7, h8⟩, if_pos h8]
                · rw [if_neg (fun h => h8 h.2), if_neg h8]
                  rw [if_pos (not_lt.1 h8)]

/-- The sector of a bearing between 0 and 360 and the name returned for it. -/
theorem getProceedDirection_index (geo : Geometry Coord) (seg : StreetSegment Coord)
    (h0 : 0 ≤ geo.angleOfLine seg) (h360 : geo.angleOfLine seg ≤ 360) :
    ∃ k, k < 8 ∧ sectorIndex (geo.angleOfLine seg) = k
      ∧ getProceedDirection geo seg = sectorName k
      ∧ (geo.angleOfLine seg < 22.5 → k = 0)
      ∧ (337.5 ≤ geo.angleOfLine seg → k = 0)
      ∧ (geo.angleOfLine seg = 22.5 → k = 1) := by
  rw [getProceedDirection_of_nonneg geo seg h0]
  by_cases h1 : geo.angleOfLine seg < 22.5
  · rw [if_pos h1]
    refine ⟨0, by decide, sectorIndex_of_bounds _ 0 (by decide) ?_ ?_, rfl, ?_, ?_, ?_⟩
    · have := h0; norm_num; norm_num at this; linarith
    · norm_num; norm_num at h1; linarith
    · intro _; rfl
    · intro h; norm_num at h h1; linarith
    · intro h; rw [h] at h1; norm_num at h1
  · rw [if_neg h1]
    by_cases h2 : geo.angleOfLine seg < 67.5
    · rw [if_pos h2]
      refine ⟨1, by decide, sectorIndex_of_bounds _ 1 (by decide) ?_ ?_, rfl, ?_, ?_, ?_⟩
      · have := not_lt.1 h1; norm_num; norm_num at this; linarith
      · norm_num; norm_num at h2; linarith
      · intro h; exact absurd h h1
      · intro h; norm_num at h h2; linarith
      · intro _; rfl
    · rw [if_neg h2]
      by_cases h3 : geo.angleOfLine seg < 112.5
      · rw [if_pos h3]
        refine ⟨2, by decide, sectorIndex_of_bounds _ 2 (by decide) ?_ ?_, rfl, ?_, ?_, ?_⟩
        · have := not_lt.1 h2; norm_num; norm_num at this; linarith
        · norm_num; norm_num at h3; linarith
        · intro h; exact absurd h h1
        · intro h; norm_num at h h3; linarith
        · intro h; rw [h] at h2; norm_num at h2
      · rw [if_neg h3]
        by_cases h4 : geo.angleOfLine seg < 157.5
        · rw [if_pos h4]
          refine ⟨3, by decide, sectorIndex_of_bounds _ 3 (by decide) ?_ ?_, rfl, ?_, ?_, ?_⟩
          · have := not_lt.1 h3; norm_num; norm_num at this; linarith
          · norm_num; norm_num at h4; linarith
          · intro h; exact absurd h h1
          · intro h; norm_num at h h4; linarith
          · intro h; rw [h] at h2; norm_num at h2
        · rw [if_neg h4]
          by_cases h5 : geo.angleOfLine seg < 202.5
          · rw [if_pos h5]
            refine ⟨4, by decide, sectorIndex_of_bounds _ 4 (by decide) ?_ ?_, rfl, ?_, ?_, ?_⟩
            · have := not_lt.1 h4; norm_num; norm_num at this; linarith
            · norm_num; norm_num at h5; linarith
            · intro h; exact absurd h h1
            · intro h; norm_num at h h5; linarith
            · intro h; rw [h] at h2; norm_num at h2
          · rw [if_neg h5]
            by_cases h6 : geo.angleOfLine seg < 247.5
            · rw [if_pos h6]
              refine ⟨5, by decide, sectorIndex_of_bounds _ 5 (by decide) ?_ ?_, rfl, ?_, ?_, ?_⟩
              · have := not_lt.1 h5; norm_num; norm_num at this; linarith
              · norm_num; norm_num at h6; linarith
              · intro h; exact absurd h h1
              · intro h; norm_num at h h6; linarith
              · intro h; rw [h] at h2; norm_num at h2
            · rw [if_neg h6]
              by_cases h7 : geo.angleOfLine seg < 292.5
              · rw [if_pos h7]
                refine ⟨6, by decide, sectorIndex_of_bounds _ 6 (by decide) ?_ ?_, rfl, ?_, ?_, ?_⟩
                · have := not_lt.1 h6; norm_num; norm_num at this; linarith
                · norm_num; norm_num at h7; linarith
                · intro h; exact absurd h h1
                · intro h; norm_num at h h7; linarith
                · intro h; rw [h] at h2; norm_num at h2
              · rw [if_neg h7]
                by_cases h8 : geo.angleOfLine seg < 337.5
                · rw [if_pos h8]
                  refine ⟨7, by decide, sectorIndex_of_bounds _ 7 (by decide) ?_ ?_, rfl, ?_, ?_, ?_⟩
                  · have := not_lt.1 h7; norm_num; norm_num at this; linarith
                  · norm_num; norm_num at h8; linarith
                  · intro h; exact absurd h h1
                  · intro h; norm_num at h h8; linarith
                  · intro h; rw [h] at h2; norm_num at h2
                · rw [if_neg h8]
                  refine ⟨0, by decide, sectorIndex_wrap _ (not_lt.1 h8) h360, rfl, ?_, ?_, ?_⟩
                  · intro _; rfl
                  · intro _; rfl
                  · intro h; rw [h] at h2; norm_num at h2

/-- None of the eight sector names is INVALID. -/
theorem sectorName_valid (k : Nat) (hk : k < 8) : sectorName k ≠ "INVALID" := by
  interval_cases k <;> decide

end ProceedDirection

/-- Claim C21: for every segment whose bearing `a` satisfies `0 <= a <= 360`,
`getProceedDirection` returns the name number `floor((a + 22.5) / 45) mod 8` of east,
northeast, north, northwest, west, southwest, south, southeast; it returns east for `a` in
`[0, 22.5)` and in `[337.5, 360]`, northeast at 22.5, and never INVALID. -/
theorem getProceedDirection_sector {Coord : Type} [LinearOrder Coord] (geo : Geometry Coord)
    (seg : StreetSegment Coord) (h0 : 0 ≤ geo.angleOfLine seg) (h360 : geo.angleOfLine seg ≤ 360) :
    getProceedDirection geo seg = sectorName (sectorIndex (geo.angleOfLine seg))
      ∧ sectorIndex (geo.angleOfLine seg) < 8
      ∧ getProceedDirection geo seg ≠ "INVALID"
      ∧ (geo.angleOfLine seg < 22.5 → getProceedDirection geo seg = "east")
      ∧ (337.5 ≤ geo.angleOfLine seg → getProceedDirection geo seg = "east")
      ∧ (geo.angleOfLine seg = 22.5 → getProceedDirection geo seg = "northeast") := by
  obtain ⟨k, hk, hidx, hname, hlow, hhigh, hmid⟩ := getProceedDirection_index geo seg h0 h360
  refine ⟨by rw [hidx, hname], by rw [hidx]; exact hk, ?_, ?_, ?_, ?_⟩
  · rw [hname]; exact sectorName_valid k hk
  · intro h; rw [hname, hlow h]; rfl
  · intro h; rw [hname, hhigh h]; rfl
  · intro h; rw [hname, hmid h]; rfl

/-- Claim C21, witness: on the line, the segment from 1 to 0 has bearing 180, which lies
in sector 4, and the direction returned is west. -/
theorem getProceedDirection_sector_witness :
    lineGeometry.angleOfLine ⟨1, 0, "Main"⟩ = 180
    ∧ sectorIndex (lineGeometry.angleOfLine ⟨1, 0, "Main"⟩) = 4
    ∧ getProceedDirection lineGeometry ⟨1, 0, "Main"⟩ = "west"
    ∧ getProceedDirection lineGeometry ⟨1, 0, "Main"⟩
        = sectorName (sectorIndex (lineGeometry.angleOfLine ⟨1, 0, "Main"⟩)) :=
  ⟨by decide!, by decide!, by decide!,
    (getProceedDirection_sector lineGeometry ⟨1, 0, "Main"⟩ (by decide!) (by decide!)).1⟩
namespace ExpandableHashMap

variable {K V : Type} [DecidableEq K]

/-- The pairs of a bucket vector, read around bucket `b`: the pairs before it, its own,
the pairs after it; replacing the bucket replaces the middle part. -/
theorem allPairs_split (map : List (Option (List (K × V)))) :
    ∀ b, b < map.length →
      ∃ A C, allPairs map = A ++ bucketAt map b ++ C
        ∧ ∀ x, allPairs (map.set b (some x)) = A ++ x ++ C := by
  induction map with
  | nil => intro b hb; simp at hb
  | cons y rest ih =>
    intro b hb
    cases b with
    | zero =>
      refine ⟨[], allPairs rest, ?_, ?_⟩
      · simp [allPairs, bucketAt]
      · intro x; simp [allPairs]
    | succ j =>
      obtain ⟨A, C, h1, h2⟩ := ih j (by simpa using hb)
      refine ⟨y.getD [] ++ A, C, ?_, ?_⟩
      · have : allPairs (y :: rest) = y.getD [] ++ allPairs rest := by simp [allPairs]
        rw [this, h1]
        simp [bucketAt]
      · intro x
        have : allPairs ((y :: rest).set (j + 1) (some x))
            = y.getD [] ++ allPairs (rest.set j (some x)) := by simp [allPairs]
        rw [this, h2 x]
        simp

/-- A fresh bucket vector holds no pair. -/
theorem allPairs_replicate (n : Nat) :
    allPairs (List.replicate n (none : Option (List (K × V)))) = [] := by
  induction n with
  | zero => rfl
  | succ k ih =>
    have : allPairs (List.replicate (k + 1) (none : Option (List (K × V))))
        = allPairs (List.replicate k (none : Option (List (K × V)))) := by
      simp [allPairs, List.replicate_succ]
    rw [this, ih]

/-- The scan of `Find` finds nothing exactly when the key is not among the keys. -/
theorem findInBucket_eq_none_iff (k : K) (l : List (K × V)) :
    findInBucket k l = none ↔ k ∉ l.map Prod.fst := by
  induction l with
  | nil => simp [findInBucket]
  | cons p rest ih =>
    unfold findInBucket
    by_cases h : p.1 = k
    · rw [if_pos h]
      simp [h]
    · rw [if_neg h, ih]
      simp only [List.map_cons, List.mem_cons, not_or]
      constructor
      · intro h1; exact ⟨fun e => h e.symm, h1⟩
      · intro h1; exact h1.2

/-- Overwriting the value of a key keeps the keys of the bucket. -/
theorem assignInBucket_keys (key : K) (val : V) :
    ∀ (bucket b1 : List (K × V)), assignInBucket key val bucket = some b1 →
      b1.map Prod.fst = bucket.map Prod.fst := by
  intro bucket
  induction bucket with
  | nil => intro b1 h; simp [assignInBucket] at h
  | cons p rest ih =>
    intro b1 h
    unfold assignInBucket at h
    by_cases hk : key = p.1
    · rw [if_pos hk] at h
      simp only [Option.some.injEq] at h
      rw [← h]; rfl
    · rw [if_neg hk] at h
      cases ha : assignInBucket key val rest with
      | none => rw [ha] at h; simp at h
      | some r =>
        rw [ha] at h
        simp only [Option.map_some', Option.some.injEq] at h
        rw [← h, List.map_cons, List.map_cons, ih r ha]

/-- The bucket that the non-copying `AddPairToMap` leaves behind: with the same keys when
the key was found, with the pair appended when it was not. -/
theorem upsertBucket_cases (key : K) (val : V) (bucket : List (K × V)) :
    ((findInBucket key bucket).isSome = true
        ∧ (upsertBucket key val bucket).map Prod.fst = bucket.map Prod.fst)
      ∨ (findInBucket key bucket = none ∧ upsertBucket key val bucket = bucket ++ [(key, val)]) := by
  have hs := assignInBucket_isSome key val bucket
  unfold upsertBucket
  cases ha : assignInBucket key val bucket with
  | none =>
    right
    rw [ha] at hs
    cases hf : findInBucket key bucket with
    | none => exact ⟨rfl, rfl⟩
    | some v => rw [hf] at hs; simp at hs
  | some b1 =>
    left
    rw [ha] at hs
    exact ⟨hs.symm, assignInBucket_keys key val bucket b1 ha⟩

/-- The flag returned by the non-copying `AddPairToMap`: a pair was added exactly when
`Find` does not find the key. -/
theorem AddPairToMap_flag (hasher : K → Nat) (m : ExpandableHashMap K V) (key : K) (val : V) :
    (AddPairToMap hasher m.m_map key val false).2 = (Find hasher m key).isNone := by
  unfold Find AddPairToMap
  dsimp only
  cases hb : m.m_map.getD (hasher key % m.m_map.length) none with
  | none => rfl
  | some bucket =>
    dsimp only
    have hs := assignInBucket_isSome key val bucket
    cases ha : assignInBucket key val bucket with
    | none =>
      rw [ha] at hs
      cases hf : findInBucket key bucket with
      | none => rfl
      | some v => rw [hf] at hs; simp at hs
    | some b1 =>
      rw [ha] at hs
      cases hf : findInBucket key bucket with
      | none => rw [hf] at hs; simp at hs
      | some v => simp

/-- The pairs after a run of copying insertions: the pairs before and the pairs inserted,
up to order. -/
theorem pushAll_perm (hasher : K → Nat) (ps : List (K × V)) :
    ∀ acc : List (Option (List (K × V))), 0 < acc.length →
      (allPairs (ps.foldl (fun acc1 p => (AddPairToMap hasher acc1 p.1 p.2 true).1) acc)).Perm
        (allPairs acc ++ ps) := by
  induction ps with
  | nil => intro acc _; simp
  | cons p rest ih =>
    intro acc hpos
    rw [List.foldl_cons, AddPairToMap_true_fst]
    have hlt : hasher p.1 % acc.length < acc.length := Nat.mod_lt _ hpos
    obtain ⟨A, C, h1, h2⟩ := allPairs_split acc _ hlt
    have hstep := ih (acc.set (hasher p.1 % acc.length)
      (some (bucketAt acc (hasher p.1 % acc.length) ++ [(p.1, p.2)])))
      (by rw [List.length_set]; exact hpos)
    refine hstep.trans ?_
    rw [h2, h1]
    have hp : (p.1, p.2) = p := rfl
    rw [hp]
    have e1 : A ++ (bucketAt acc (hasher p.1 % acc.length) ++ [p]) ++ C ++ rest
        = (A ++ bucketAt acc (hasher p.1 % acc.length)) ++ p :: (C ++ rest) := by simp
    have e2 : A ++ bucketAt acc (hasher p.1 % acc.length) ++ C ++ p :: rest
        = ((A ++ bucketAt acc (hasher p.1 % acc.length)) ++ C) ++ p :: rest := by simp
    rw [e1, e2]
    refine List.perm_middle.trans ?_
    refine List.Perm.symm (List.perm_middle.trans ?_)
    simp

/-- Rehashing moves every pair and loses or duplicates none. -/
theorem rehash_perm (hasher : K → Nat) (old : List (Option (List (K × V)))) (n : Nat)
    (hn : 0 < n) :
    (allPairs (rehash hasher old (List.replicate n none))).Perm (allPairs old) := by
  rw [rehash_eq]
  have := pushAll_perm hasher (allPairs old) (List.replicate n none) (by simpa using hn)
  rw [allPairs_replicate, List.nil_append] at this
  exact this

end ExpandableHashMap
namespace ExpandableHashMap

variable {K V : Type} [DecidableEq K]

/-- The load factor is never changed by `Associate`. -/
theorem Associate_max_load (hasher : K → Nat) (m : ExpandableHashMap K V) (key : K) (value : V) :
    (Associate hasher m key value).m_max_load = m.m_max_load := by
  unfold Associate
  cases AddPairToMap hasher m.m_map key value false with
  | mk map1 flag =>
    cases flag
    · rfl
    · dsimp only
      split <;> rfl

/-- What `Associate` does to the stored pairs and to the counters: on a key that is present
the keys and the counters stay; on a new key one pair is added, `m_num_pairs` goes up by one
and the number of buckets doubles exactly when the new load exceeds the maximum. -/
theorem Associate_pairs (hasher : K → Nat) (m : ExpandableHashMap K V) (hm : WF hasher m)
    (key : K) (value : V) :
    ((Find hasher m key).isSome = true
        ∧ storedKeys (Associate hasher m key value) = storedKeys m
        ∧ (Associate hasher m key value).m_num_pairs = m.m_num_pairs
        ∧ (Associate hasher m key value).m_size = m.m_size)
      ∨ (Find hasher m key = none
        ∧ (allPairs (Associate hasher m key value).m_map).Perm ((key, value) :: allPairs m.m_map)
        ∧ (Associate hasher m key value).m_num_pairs = m.m_num_pairs + 1
        ∧ (Associate hasher m key value).m_size
            = if ((m.m_num_pairs + 1 : Nat) : ℚ) / (m.m_size : ℚ) > m.m_max_load then m.m_size * 2
              else m.m_size) := by
  have hflag := AddPairToMap_flag hasher m key value
  have hfst := AddPairToMap_false_fst hasher m.m_map key value
  have hlt : hasher key % m.m_map.length < m.m_map.length := Nat.mod_lt _ hm.size_pos
  obtain ⟨A, C, h1, h2⟩ := allPairs_split m.m_map _ hlt
  have hfind := Find_eq hasher m key
  unfold Associate
  cases hp : AddPairToMap hasher m.m_map key value false with
  | mk map1 flag =>
    rw [hp] at hflag hfst
    dsimp only at hflag hfst
    rcases upsertBucket_cases key value (bucketAt m.m_map (hasher key % m.m_map.length)) with
      ⟨hsome, hkeys⟩ | ⟨hnone, happ⟩
    · left
      rw [← hfind] at hsome
      have hfl : flag = false := by
        rw [hflag]
        cases hF : Find hasher m key with
        | none => rw [hF] at hsome; simp at hsome
        | some v => rfl
      subst hfl
      refine ⟨hsome, ?_, rfl, rfl⟩
      dsimp only
      unfold storedKeys
      dsimp only
      rw [hfst, h2, h1]
      simp only [List.map_append, hkeys]
    · right
      rw [← hfind] at hnone
      have hfl : flag = true := by rw [hflag, hnone]; rfl
      subst hfl
      have hperm1 : (allPairs map1).Perm ((key, value) :: allPairs m.m_map) := by
        rw [hfst, h2, h1, happ]
        have e1 : A ++ (bucketAt m.m_map (hasher key % m.m_map.length) ++ [(key, value)]) ++ C
            = (A ++ bucketAt m.m_map (hasher key % m.m_map.length)) ++ (key, value) :: C := by
          simp
        rw [e1]
        refine List.perm_middle.trans ?_
        simp
      refine ⟨hnone, ?_, ?_, ?_⟩
      · dsimp only
        split
        · dsimp only
          exact (rehash_perm hasher map1 (2 * m.m_size)
            (by have := hm.size_pos; have := hm.size_eq; omega)).trans hperm1
        · exact hperm1
      · dsimp only
        split <;> rfl
      · dsimp only
        split <;> rfl

/-- The invariant of the table holds after the constructor. -/
theorem TableInv_init (hasher : K → Nat) (load : ℚ) :
    TableInv hasher (init load : ExpandableHashMap K V) :=
  ⟨WF_init hasher load, by simp [init, allPairs_replicate],
    by simp [storedKeys, init, allPairs_replicate]⟩

/-- The invariant of the table is kept by `Associate`. -/
theorem TableInv_Associate (hasher : K → Nat) (m : ExpandableHashMap K V)
    (hm : TableInv hasher m) (key : K) (value : V) :
    TableInv hasher (Associate hasher m key value) := by
  refine ⟨WF_Associate hasher m hm.wf key value, ?_, ?_⟩
  · rcases Associate_pairs hasher m hm.wf key value with ⟨_, hk, hn, _⟩ | ⟨_, hp, hn, _⟩
    · have := congrArg List.length hk
      simp only [storedKeys, List.length_map] at this
      rw [this, hn, hm.count]
    · rw [hp.length_eq, hn, List.length_cons, hm.count]
  · rcases Associate_pairs hasher m hm.wf key value with ⟨_, hk, _, _⟩ | ⟨hnone, hp, _, _⟩
    · rw [hk]; exact hm.nodup
    · have hkeys : (storedKeys (Associate hasher m key value)).Perm (key :: storedKeys m) := by
        unfold storedKeys
        exact (hp.map Prod.fst)
      rw [hkeys.nodup_iff, List.nodup_cons]
      refine ⟨?_, hm.nodup⟩
      rw [Find_eq_allPairs hasher m hm.wf key, findInBucket_eq_none_iff] at hnone
      exact hnone

/-- The invariant of the table holds after any sequence of `Associate` calls. -/
theorem TableInv_afterCalls (hasher : K → Nat) (load : ℚ) (calls : List (K × V)) :
    TableInv hasher (afterCalls hasher load calls) := by
  have key : ∀ (cs : List (K × V)) (m : ExpandableHashMap K V), TableInv hasher m →
      TableInv hasher (cs.foldl (fun m p => Associate hasher m p.1 p.2) m) := by
    intro cs
    induction cs with
    | nil => intro m h; exact h
    | cons c rest ih =>
      intro m h
      exact ih _ (TableInv_Associate hasher m h c.1 c.2)
  exact key calls _ (TableInv_init hasher load)

/-- The invariant of the sizes holds after the constructor with the default load factor. -/
theorem LoadInv_init : LoadInv (init DEFAULT_MAX_LOAD : ExpandableHashMap K V) :=
  ⟨rfl, ⟨0, rfl⟩, by simp [init, INITIAL_SIZE]⟩

/-- The invariant of the sizes is kept by `Associate`: when the load exceeds 0.5 after a
pair was added, one doubling brings it back under the bound. -/
theorem LoadInv_Associate (hasher : K → Nat) (m : ExpandableHashMap K V) (hw : WF hasher m)
    (hm : LoadInv m) (key : K) (value : V) : LoadInv (Associate hasher m key value) := by
  obtain ⟨j, hj⟩ := hm.size
  have hpos : 0 < m.m_size := by rw [hj]; positivity
  have hge : 8 ≤ m.m_size := by
    rw [hj]
    have : 1 ≤ 2 ^ j := Nat.one_le_two_pow
    omega
  refine ⟨by rw [Associate_max_load]; exact hm.load, ?_, ?_⟩
  · rcases Associate_pairs hasher m hw key value with ⟨_, _, _, hs⟩ | ⟨_, _, _, hs⟩
    · rw [hs]; exact ⟨j, hj⟩
    · rw [hs]
      split
      · exact ⟨j + 1, by rw [hj, pow_succ]; ring⟩
      · exact ⟨j, hj⟩
  · rcases Associate_pairs hasher m hw key value with ⟨_, _, hn, hs⟩ | ⟨_, _, hn, hs⟩
    · rw [hn, hs]; exact hm.bound
    · rw [hn, hs, hm.load]
      have hb := hm.bound
      split
      · omega
      · rename_i hle
        have hq : ((m.m_num_pairs + 1 : Nat) : ℚ) / (m.m_size : ℚ) ≤ 1 / 2 := not_lt.1 hle
        have hsz : (0 : ℚ) < (m.m_size : ℚ) := by exact_mod_cast hpos
        rw [div_le_iff₀ hsz] at hq
        have hq2 : ((2 * (m.m_num_pairs + 1) : Nat) : ℚ) ≤ ((m.m_size : Nat) : ℚ) := by
          push_cast
          push_cast at hq
          linarith
        exact_mod_cast hq2

/-- Both invariants hold after any sequence of `Associate` calls on a table constructed
with the default load factor. -/
theorem LoadInv_afterCalls (hasher : K → Nat) (calls : List (K × V)) :
    LoadInv (afterCalls hasher DEFAULT_MAX_LOAD calls) := by
  have key : ∀ (cs : List (K × V)) (m : ExpandableHashMap K V), WF hasher m → LoadInv m →
      LoadInv (cs.foldl (fun m p => Associate hasher m p.1 p.2) m) := by
    intro cs
    induction cs with
    | nil => intro m _ h; exact h
    | cons c rest ih =>
      intro m hw h
      exact ih _ (WF_Associate hasher m hw c.1 c.2) (LoadInv_Associate hasher m hw h c.1 c.2)
  exact key calls _ (WF_init hasher _) LoadInv_init

end ExpandableHashMap
/-- Claim C22: for a table constructed with the default maximum load factor 0.5, after any
sequence of `Associate` calls the number of buckets is 8 times a power of two (and is the
length of the bucket vector), `Size()` is the number of pairs in the buckets, and the number
of pairs divided by the number of buckets is at most 0.5; one more `Associate` leaves the
number of buckets as it is or doubles it once. -/
theorem load_factor_bound_after_calls {K V : Type} [DecidableEq K] (hasher : K → Nat)
    (calls : List (K × V)) (key : K) (value : V) :
    (∃ j : Nat, (ExpandableHashMap.afterCalls hasher ExpandableHashMap.DEFAULT_MAX_LOAD
        calls).m_size = 8 * 2 ^ j)
    ∧ (ExpandableHashMap.afterCalls hasher ExpandableHashMap.DEFAULT_MAX_LOAD calls).m_map.length
        = (ExpandableHashMap.afterCalls hasher ExpandableHashMap.DEFAULT_MAX_LOAD calls).m_size
    ∧ (ExpandableHashMap.allPairs
        (ExpandableHashMap.afterCalls hasher ExpandableHashMap.DEFAULT_MAX_LOAD calls).m_map).length
        = ExpandableHashMap.Size
            (ExpandableHashMap.afterCalls hasher ExpandableHashMap.DEFAULT_MAX_LOAD calls)
    ∧ ((ExpandableHashMap.Size
          (ExpandableHashMap.afterCalls hasher ExpandableHashMap.DEFAULT_MAX_LOAD calls) : Nat) : ℚ)
        / (((ExpandableHashMap.afterCalls hasher ExpandableHashMap.DEFAULT_MAX_LOAD
            calls).m_size : Nat) : ℚ) ≤ 1 / 2
    ∧ ((ExpandableHashMap.Associate hasher
          (ExpandableHashMap.afterCalls hasher ExpandableHashMap.DEFAULT_MAX_LOAD calls)
          key value).m_size
        = (ExpandableHashMap.afterCalls hasher ExpandableHashMap.DEFAULT_MAX_LOAD calls).m_size
      ∨ (ExpandableHashMap.Associate hasher
          (ExpandableHashMap.afterCalls hasher ExpandableHashMap.DEFAULT_MAX_LOAD calls)
          key value).m_size
        = 2 * (ExpandableHashMap.afterCalls hasher ExpandableHashMap.DEFAULT_MAX_LOAD
            calls).m_size) := by
  have hT := ExpandableHashMap.TableInv_afterCalls hasher ExpandableHashMap.DEFAULT_MAX_LOAD calls
  have hL := ExpandableHashMap.LoadInv_afterCalls hasher calls
  obtain ⟨j, hj⟩ := hL.size
  refine ⟨⟨j, hj⟩, hT.wf.size_eq, hT.count, ?_, ?_⟩
  · have hpos : 0 < (ExpandableHashMap.afterCalls hasher ExpandableHashMap.DEFAULT_MAX_LOAD
        calls).m_size := by rw [hj]; positivity
    have hsz : (0 : ℚ) < (((ExpandableHashMap.afterCalls hasher
        ExpandableHashMap.DEFAULT_MAX_LOAD calls).m_size : Nat) : ℚ) := by exact_mod_cast hpos
    rw [div_le_iff₀ hsz]
    have hb : ((2 * (ExpandableHashMap.afterCalls hasher ExpandableHashMap.DEFAULT_MAX_LOAD
        calls).m_num_pairs : Nat) : ℚ)
        ≤ (((ExpandableHashMap.afterCalls hasher ExpandableHashMap.DEFAULT_MAX_LOAD
            calls).m_size : Nat) : ℚ) := by exact_mod_cast hL.bound
    unfold ExpandableHashMap.Size
    push_cast at hb
    linarith
  · rcases ExpandableHashMap.Associate_pairs hasher _ hT.wf key value with
      ⟨_, _, _, hs⟩ | ⟨_, _, _, hs⟩
    · exact Or.inl hs
    · rw [hs]
      split
      · right; ring
      · left; rfl

/-- Claim C23: for every table built by the constructor and any sequence of `Associate`
calls, every key `k` and value `v`: after `Associate(k, v)`, `Find(k)` yields `v`, and for
every other key `Find` yields what it yielded before the call, whether or not the call
doubles the table and rehashes all buckets; no key is stored twice, and `Find` finds exactly
the stored keys. -/
theorem Associate_then_Find {K V : Type} [DecidableEq K] (hasher : K → Nat) (load : ℚ)
    (calls : List (K × V)) (k : K) (v : V) :
    ExpandableHashMap.Find hasher
        (ExpandableHashMap.Associate hasher (ExpandableHashMap.afterCalls hasher load calls) k v) k
      = some v
    ∧ (∀ k1, k1 ≠ k →
        ExpandableHashMap.Find hasher
            (ExpandableHashMap.Associate hasher (ExpandableHashMap.afterCalls hasher load calls)
              k v) k1
          = ExpandableHashMap.Find hasher (ExpandableHashMap.afterCalls hasher load calls) k1)
    ∧ (ExpandableHashMap.storedKeys
        (ExpandableHashMap.Associate hasher (ExpandableHashMap.afterCalls hasher load calls)
          k v)).Nodup
    ∧ (∀ k1, k1 ∈ ExpandableHashMap.storedKeys
          (ExpandableHashMap.Associate hasher (ExpandableHashMap.afterCalls hasher load calls) k v)
        ↔ (ExpandableHashMap.Find hasher
            (ExpandableHashMap.Associate hasher (ExpandableHashMap.afterCalls hasher load calls)
              k v) k1).isSome = true) := by
  have hT := ExpandableHashMap.TableInv_afterCalls hasher load calls
  have hA := ExpandableHashMap.TableInv_Associate hasher _ hT k v
  refine ⟨ExpandableHashMap.Find_Associate_self hasher _ hT.wf k v,
    fun k1 hk => ExpandableHashMap.Find_Associate_ne hasher _ hT.wf k k1 v hk, hA.nodup, ?_⟩
  intro k1
  rw [ExpandableHashMap.Find_eq_allPairs hasher _ hA.wf k1]
  have h := ExpandableHashMap.findInBucket_eq_none_iff k1
    (ExpandableHashMap.allPairs
      (ExpandableHashMap.Associate hasher (ExpandableHashMap.afterCalls hasher load calls)
        k v).m_map)
  unfold ExpandableHashMap.storedKeys
  rw [← not_iff_not, ← h]
  cases ExpandableHashMap.findInBucket k1
      (ExpandableHashMap.allPairs
        (ExpandableHashMap.Associate hasher (ExpandableHashMap.afterCalls hasher load calls)
          k v).m_map) <;> simp

/-- A table that doubles: with the default load factor and the keys 1, 2, 3, 4 stored, the
call `Associate(5, 50)` takes the table from 8 to 16 buckets, and all five keys are found
with their values afterwards. -/
theorem Associate_doubles_at_five :
    (ExpandableHashMap.afterCalls exampleHasher ExpandableHashMap.DEFAULT_MAX_LOAD
        [(1, 10), (2, 20), (3, 30), (4, 40)] : ExpandableHashMap Nat Nat).m_size = 8
    ∧ (ExpandableHashMap.Associate exampleHasher
        (ExpandableHashMap.afterCalls exampleHasher ExpandableHashMap.DEFAULT_MAX_LOAD
          [(1, 10), (2, 20), (3, 30), (4, 40)] : ExpandableHashMap Nat Nat) 5 50).m_size = 16
    ∧ (List.map
        (ExpandableHashMap.Find exampleHasher
          (ExpandableHashMap.Associate exampleHasher
            (ExpandableHashMap.afterCalls exampleHasher ExpandableHashMap.DEFAULT_MAX_LOAD
              [(1, 10), (2, 20), (3, 30), (4, 40)] : ExpandableHashMap Nat Nat) 5 50))
        [1, 2, 3, 4, 5, 6])
      = [some 10, some 20, some 30, some 40, some 50, none] := by
  decide!
/-- Claim C24, at the failing inputs. First input: the map of street Main (segments 0 - 1
and 1 - 2), depot 0, one delivery at 2. Both legs route, the concatenated path is 0 - 1,
1 - 2, 2 - 1, 1 - 0, and the delivery is consumed at the boundary before the segment 2 - 1:
the loop arrives at the boundary before the last segment with no pending delivery, where it
reads the location of the pending delivery all the same, so `GenerateDeliveryPlan` has no
result. Second input: the line map, depot 0, one delivery at the depot itself. Both legs
route with an empty route, the concatenated path is empty, and its first segment is read all
the same, so `GenerateDeliveryPlan` has no result either. -/
theorem command_loop_reads_past_deliveries_and_empty_path :
    addLegs exampleHasher lineDist mainStreetMap 3 [(0, 2), (2, 0)] [] 0
      = some (DeliveryResult.DELIVERY_SUCCESS,
          [⟨0, 1, "Main"⟩, ⟨1, 2, "Main"⟩, ⟨2, 1, "Main"⟩, ⟨1, 0, "Main"⟩], 2)
    ∧ (commandLoop lineDist lineGeometry ⟨0, 1, "Main"⟩ [⟨1, 2, "Main"⟩, ⟨2, 1, "Main"⟩]
          (commandStart lineDist lineGeometry ⟨0, 1, "Main"⟩ ⟨"parcel", 2⟩ [] [])).map
          (fun st => (st.commands, st.pending))
        = some ([DeliveryCommand.Proceed "east" "Main" 2, DeliveryCommand.Deliver "parcel",
            DeliveryCommand.Proceed "west" "Main" 1], [])
    ∧ (∀ st : PlanState Nat, st.pending = [] →
        commandStep lineDist lineGeometry ⟨2, 1, "Main"⟩ ⟨1, 0, "Main"⟩ st = none)
    ∧ (∀ (fuel : Nat) (expFn : ℚ → ℚ) (rng : RandomSource),
        GenerateDeliveryPlan exampleHasher lineDist lineGeometry expFn rng mainStreetMap fuel 0
          [⟨"parcel", 2⟩] [] = none)
    ∧ addLegs exampleHasher lineDist lineMap 1 [(0, 0), (0, 0)] [] 0
        = some (DeliveryResult.DELIVERY_SUCCESS, [], 0)
    ∧ (∀ (commands : List DeliveryCommand),
        generateCommands lineDist lineGeometry [] [(⟨"parcel", 0⟩ : DeliveryRequest Nat)] commands
          = none)
    ∧ (∀ (fuel : Nat) (expFn : ℚ → ℚ) (rng : RandomSource),
        GenerateDeliveryPlan exampleHasher lineDist lineGeometry expFn rng lineMap fuel 0
          [⟨"parcel", 0⟩] [] = none) := by
  refine ⟨by decide!, by decide!, ?_, ?_, by decide!, fun _ => rfl, ?_⟩
  · intro st hst
    unfold commandStep
    rw [hst]
  · intro fuel expFn rng
    rw [GenerateDeliveryPlan_eq exampleHasher lineDist lineGeometry expFn rng mainStreetMap fuel
      0 [⟨"parcel", 2⟩] [] _
      (OptimizeDeliveryOrder_short_eq lineDist expFn rng fuel 0 [⟨"parcel", 2⟩] (by decide))]
    exact planOptimized_none_of_commands exampleHasher lineDist lineGeometry mainStreetMap 3 0
      [⟨"parcel", 2⟩] []
      [⟨0, 1, "Main"⟩, ⟨1, 2, "Main"⟩, ⟨2, 1, "Main"⟩, ⟨1, 0, "Main"⟩] 2
      (by decide!) (by decide!) fuel
  · intro fuel expFn rng
    rw [GenerateDeliveryPlan_eq exampleHasher lineDist lineGeometry expFn rng lineMap fuel
      0 [⟨"parcel", 0⟩] [] _
      (OptimizeDeliveryOrder_short_eq lineDist expFn rng fuel 0 [⟨"parcel", 0⟩] (by decide))]
    exact planOptimized_none_of_commands exampleHasher lineDist lineGeometry lineMap 1 0
      [⟨"parcel", 0⟩] [] [] 0 (by decide!) rfl fuel
/-- The Proceed distances of two lists of commands add up. -/
theorem proceedTotal_append (a b : List DeliveryCommand) :
    proceedTotal (a ++ b) = proceedTotal a + proceedTotal b := by
  induction a with
  | nil => simp [proceedTotal]
  | cons c rest ih =>
    rw [List.cons_append]
    cases c with
    | Invalid => simp only [proceedTotal]; exact ih
    | Deliver item => simp only [proceedTotal]; exact ih
    | Proceed direction streetName distance => simp only [proceedTotal]; rw [ih]; ring
    | Turn direction streetName => simp only [proceedTotal]; exact ih

section ProceedTotal

variable {Coord : Type} [LinearOrder Coord]

/-- Lengthening the last command, a Proceed, adds to the sum of the Proceed distances. -/
theorem proceedTotal_modifyBack (commands : List DeliveryCommand) (direction name : String)
    (distance extra : ℚ)
    (hback : commands.getLast? = some (DeliveryCommand.Proceed direction name distance)) :
    proceedTotal (modifyBack (fun c => c.IncreaseDistance extra) commands)
      = proceedTotal commands + extra := by
  unfold modifyBack
  rw [hback]
  dsimp only
  rw [List.getLast?_eq_some_iff] at hback
  obtain ⟨ys, hys⟩ := hback
  rw [hys]
  simp only [List.dropLast_concat, proceedTotal_append, DeliveryCommand.IncreaseDistance,
    proceedTotal]
  ring

/-- One iteration of the loop adds the length of the current segment to the sum of the
Proceed distances. -/
theorem commandStep_total (dist : Coord → Coord → ℚ) (geo : Geometry Coord)
    (prev_line current_seg : StreetSegment Coord) (st st1 : PlanState Coord)
    (hlast : ∃ direction distance, st.commands.getLast?
      = some (DeliveryCommand.Proceed direction prev_line.name distance))
    (h : commandStep dist geo prev_line current_seg st = some st1) :
    proceedTotal st1.commands
      = proceedTotal st.commands + dist current_seg.start current_seg.end_ := by
  obtain ⟨dir0, x0, hback⟩ := hlast
  have hmod := proceedTotal_modifyBack st.commands dir0 prev_line.name x0
    (getSegDist dist current_seg) hback
  have hpush : ∀ cs : List DeliveryCommand,
      proceedTotal (cs ++ [proceedFor dist geo current_seg])
        = proceedTotal cs + dist current_seg.start current_seg.end_ := by
    intro cs
    simp [proceedTotal_append, proceedFor, proceedTotal, getSegDist]
  unfold commandStep at h
  split at h
  · simp at h
  · rename_i delivery later hp
    split at h
    · simp only [Option.some.injEq] at h
      rw [← h]
      dsimp only
      rw [hpush, proceedTotal_append]
      simp [proceedTotal]
    · dsimp only at h
      split at h
      · rw [hback] at h
        dsimp only at h
        split at h
        · simp only [Option.some.injEq] at h
          rw [← h]
          exact hmod
        · simp only [Option.some.injEq] at h
          rw [← h]
          exact hpush _
      · rename_i hturn
        split at h
        · simp only [Option.some.injEq] at h
          rw [← h]
          dsimp only
          rw [hpush, proceedTotal_append]
          have h1 : geo.angleBetween2Lines prev_line current_seg ≥ 1 := by
            by_contra hlt; exact hturn (Or.inl (lt_of_not_ge hlt))
          have h359 : geo.angleBetween2Lines prev_line current_seg ≤ 359 := by
            by_contra hgt; exact hturn (Or.inr (lt_of_not_ge hgt))
          by_cases h180 : geo.angleBetween2Lines prev_line current_seg < 180
          · rw [if_pos ⟨h1, h180⟩]
            simp [proceedTotal]
          · rw [if_neg (fun hh => h180 hh.2), if_pos ⟨le_of_not_lt h180, h359⟩]
            simp [proceedTotal]
        · rw [hback] at h
          simp only [Option.some.injEq] at h
          rw [← h]
          exact hmod

/-- The loop adds the lengths of the segments it processes to the sum of the Proceed
distances. -/
theorem commandLoop_total (dist : Coord → Coord → ℚ) (geo : Geometry Coord) :
    ∀ (rest : List (StreetSegment Coord)) (front : StreetSegment Coord)
      (st st1 : PlanState Coord),
      (∃ direction distance, st.commands.getLast?
        = some (DeliveryCommand.Proceed direction front.name distance)) →
      commandLoop dist geo front rest st = some st1 →
      proceedTotal st1.commands = proceedTotal st.commands + routeLength dist rest := by
  intro rest
  induction rest with
  | nil =>
    intro front st st1 _ h
    simp only [commandLoop, Option.some.injEq] at h
    rw [← h]
    simp [routeLength]
  | cons s rest ih =>
    intro front st st1 hlast h
    rw [commandLoop] at h
    cases hs : commandStep dist geo front s st with
    | none => rw [hs] at h; simp at h
    | some st2 =>
      rw [hs] at h
      rw [ih s st2 st1 (commandStep_last dist geo front s st st2 hlast hs) h,
        commandStep_total dist geo front s st st2 hlast hs]
      simp only [routeLength, List.map_cons, List.sum_cons]
      ring

/-- The command synthesis adds the length of the whole path to the sum of the Proceed
distances, and it has a result only on a path that is not empty. -/
theorem generateCommands_total (dist : Coord → Coord → ℚ) (geo : Geometry Coord)
    (total_path : List (StreetSegment Coord))
    (optimized_deliveries : List (DeliveryRequest Coord))
    (commands commands1 : List DeliveryCommand)
    (h : generateCommands dist geo total_path optimized_deliveries commands = some commands1) :
    total_path ≠ []
      ∧ proceedTotal commands1 = proceedTotal commands + routeLength dist total_path := by
  cases optimized_deliveries with
  | nil => simp [generateCommands] at h
  | cons first later =>
    cases total_path with
    | nil => simp [generateCommands] at h
    | cons front rest =>
      refine ⟨List.cons_ne_nil _ _, ?_⟩
      rw [generateCommands_eq] at h
      cases hl : commandLoop dist geo front rest
          (commandStart dist geo front first later commands) with
      | none => rw [hl] at h; simp at h
      | some st2 =>
        rw [hl] at h
        simp only [Option.map_some', Option.some.injEq] at h
        rw [← h, commandLoop_total dist geo rest front _ st2
          (commandStart_last dist geo front first later commands) hl]
        have hstart : proceedTotal (commandStart dist geo front first later commands).commands
            = proceedTotal commands + dist front.start front.end_ := by
          unfold commandStart
          dsimp only
          split <;>
            simp [proceedTotal_append, proceedTotal, proceedFor, getSegDist]
        rw [hstart]
        simp only [routeLength, List.map_cons, List.sum_cons]
        ring

/-- A successful plan comes from legs that all routed and from a command synthesis that
returned. -/
theorem planOptimized_success (hasher : Coord → Nat) (dist : Coord → Coord → ℚ)
    (geo : Geometry Coord) (sm : StreetMapImpl Coord) (fuel : Nat) (depot : Coord)
    (optimized_deliveries : List (DeliveryRequest Coord)) (commands : List DeliveryCommand)
    (r : PlanResult)
    (h : planOptimized hasher dist geo sm fuel depot optimized_deliveries commands = some r)
    (hs : r.status = DeliveryResult.DELIVERY_SUCCESS) :
    ∃ total_path total,
      addLegs hasher dist sm fuel
          (consecutivePairs ((depot :: optimized_deliveries.map (fun d => d.location)) ++ [depot]))
          [] 0
        = some (DeliveryResult.DELIVERY_SUCCESS, total_path, total)
      ∧ generateCommands dist geo total_path optimized_deliveries commands = some r.commands := by
  unfold planOptimized at h
  cases optimized_deliveries with
  | nil => simp at h
  | cons d rest =>
    dsimp only at h
    cases ha : addLegs hasher dist sm fuel
        (consecutivePairs ((depot :: List.map (fun d => d.location) (d :: rest)) ++ [depot]))
        [] 0 with
    | none => rw [ha] at h; simp at h
    | some y =>
      obtain ⟨status, total_path, total⟩ := y
      rw [ha] at h
      dsimp only at h
      by_cases hst : status = DeliveryResult.DELIVERY_SUCCESS
      · subst hst
        simp only [ne_eq, not_true_eq_false, if_false] at h
        cases hg : generateCommands dist geo total_path (d :: rest) commands with
        | none => rw [hg] at h; simp at h
        | some commands1 =>
          rw [hg] at h
          simp only [Option.some.injEq] at h
          refine ⟨total_path, total, rfl, ?_⟩
          rw [← h]
          exact hg
      · rw [if_pos hst] at h
        simp only [Option.some.injEq] at h
        rw [← h] at hs
        exact absurd hs hst

end ProceedTotal

/-- Claim C25: for every successful plan started with an empty commands vector, the
concatenated path of the routed legs is not empty, and the sum of the distances of all
Proceed commands in the output equals the sum of the lengths of all segments of that path. -/
theorem proceed_distances_sum_to_path_length {Coord : Type} [LinearOrder Coord]
    (hasher : Coord → Nat) (dist : Coord → Coord → ℚ) (geo : Geometry Coord) (expFn : ℚ → ℚ)
    (rng : RandomSource) (sm : StreetMapImpl Coord) (fuel : Nat) (depot : Coord)
    (deliveries : List (DeliveryRequest Coord)) (r : PlanResult)
    (h : GenerateDeliveryPlan hasher dist geo expFn rng sm fuel depot deliveries [] = some r)
    (hs : r.status = DeliveryResult.DELIVERY_SUCCESS) :
    ∃ o total_path total,
      OptimizeDeliveryOrder dist expFn rng fuel depot deliveries = some o
      ∧ addLegs hasher dist sm fuel
          (consecutivePairs ((depot :: o.deliveries.map (fun d => d.location)) ++ [depot])) [] 0
        = some (DeliveryResult.DELIVERY_SUCCESS, total_path, total)
      ∧ total_path ≠ []
      ∧ proceedTotal r.commands = routeLength dist total_path := by
  cases ho : OptimizeDeliveryOrder dist expFn rng fuel depot deliveries with
  | none =>
    unfold GenerateDeliveryPlan at h
    rw [ho] at h
    simp at h
  | some o =>
    rw [GenerateDeliveryPlan_eq hasher dist geo expFn rng sm fuel depot deliveries [] o ho] at h
    obtain ⟨total_path, total, hlegs, hcmd⟩ :=
      planOptimized_success hasher dist geo sm fuel depot o.deliveries [] r h hs
    obtain ⟨hne, hsum⟩ := generateCommands_total dist geo total_path o.deliveries [] r.commands hcmd
    refine ⟨o, total_path, total, rfl, hlegs, hne, ?_⟩
    rw [hsum]
    simp [proceedTotal]

/-- Claim C25, witness: on the line map with depot 0 and one delivery at 1 the plan is
Proceed east 1, Deliver, Proceed west 1; the Proceed distances add up to 2, the length of the
path 0 - 1, 1 - 0. -/
theorem proceed_distances_sum_to_path_length_witness :
    GenerateDeliveryPlan exampleHasher lineDist lineGeometry (fun _ => 0) alternatingSource
        lineMap 2 0 [⟨"pizza", 1⟩] []
      = some ⟨DeliveryResult.DELIVERY_SUCCESS,
          [DeliveryCommand.Proceed "east" "Main" 1, DeliveryCommand.Deliver "pizza",
            DeliveryCommand.Proceed "west" "Main" 1], 1⟩
    ∧ proceedTotal [DeliveryCommand.Proceed "east" "Main" 1, DeliveryCommand.Deliver "pizza",
        DeliveryCommand.Proceed "west" "Main" 1] = 2
    ∧ ∃ o total_path total,
        OptimizeDeliveryOrder lineDist (fun _ => 0) alternatingSource 2 0 [⟨"pizza", 1⟩] = some o
        ∧ addLegs exampleHasher lineDist lineMap 2
            (consecutivePairs ((0 :: o.deliveries.map (fun d => d.location)) ++ [0])) [] 0
          = some (DeliveryResult.DELIVERY_SUCCESS, total_path, total)
        ∧ total_path ≠ []
        ∧ proceedTotal [DeliveryCommand.Proceed "east" "Main" 1, DeliveryCommand.Deliver "pizza",
            DeliveryCommand.Proceed "west" "Main" 1] = routeLength lineDist total_path :=
  ⟨by decide!, by decide!,
    proceed_distances_sum_to_path_length exampleHasher lineDist lineGeometry (fun _ => 0)
      alternatingSource lineMap 2 0 [⟨"pizza", 1⟩]
      ⟨DeliveryResult.DELIVERY_SUCCESS,
        [DeliveryCommand.Proceed "east" "Main" 1, DeliveryCommand.Deliver "pizza",
          DeliveryCommand.Proceed "west" "Main" 1], 1⟩ (by decide!) rfl⟩
section TwoDeliveriesHistory

variable {Coord : Type}

end TwoDeliveriesHistory

section RouterTermination

variable {Coord : Type} [LinearOrder Coord]

/-- Relaxing a segment enqueues its end only when the cost recorded for that end is new or
strictly lower than before; otherwise the state is left alone. -/
theorem relaxSegment_enqueues_on_improvement (hasher : Coord → Nat) (dist : Coord → Coord → ℚ)
    (currPos end_ : Coord) (st st1 : SearchState Coord) (nextSeg : StreetSegment Coord)
    (h : relaxSegment hasher dist currPos end_ st nextSeg = some st1) :
    st1.search_space = st.search_space
      ∨ ∃ c, ExpandableHashMap.Find hasher st.move_cost currPos = some c
          ∧ st1.search_space
              = (c + dist currPos nextSeg.end_ + dist currPos end_, nextSeg.end_)
                  :: st.search_space
          ∧ ∀ old, ExpandableHashMap.Find hasher st.move_cost nextSeg.end_ = some old →
              c + dist currPos nextSeg.end_ < old := by
  unfold relaxSegment at h
  cases hc : ExpandableHashMap.Find hasher st.move_cost currPos with
  | none => rw [hc] at h; simp at h
  | some c =>
    rw [hc] at h
    dsimp only at h
    cases hold : ExpandableHashMap.Find hasher st.move_cost nextSeg.end_ with
    | none =>
      rw [hold] at h
      simp only [if_true, Option.some.injEq] at h
      right
      refine ⟨c, rfl, by rw [← h]; rfl, ?_⟩
      intro old ho
      simp at ho
    | some old =>
      rw [hold] at h
      dsimp only at h
      by_cases hlt : c + dist currPos nextSeg.end_ < old
      · simp only [hlt, decide_True, if_true, Option.some.injEq] at h
        right
        refine ⟨c, rfl, by rw [← h]; rfl, ?_⟩
        intro o ho
        simp only [Option.some.injEq] at ho
        rw [← ho]; exact hlt
      · simp only [hlt, decide_False, Bool.false_eq_true, if_false, Option.some.injEq] at h
        left
        rw [← h]

/-- Both loops of the router terminate on a well-formed map with non-negative segment
lengths when `start` has an entry. -/
theorem router_loops_total (hasher : Coord → Nat) (dist : Coord → Coord → ℚ)
    (sm : StreetMapImpl Coord) (hG : GraphOK hasher sm)
    (hnn : ∀ s, InGraph hasher sm s → 0 ≤ dist s.start s.end_) (start end_ : Coord)
    (hstart : (GetSegmentsThatStartWith hasher sm start).isSome = true) :
    ∃ fuel0 found st,
      (∀ fuel, fuel0 ≤ fuel →
        searchLoop hasher dist sm end_ fuel (initialSearchState hasher start) = some (found, st))
      ∧ (found = true →
          ∃ pair, ExpandableHashMap.Find hasher st.prev_location end_ = some pair
            ∧ ∃ fuel1 res, ∀ fuel, fuel1 ≤ fuel →
                buildRoute hasher dist st.prev_location fuel end_ pair [] 0 = some res) := by
  obtain ⟨N, hN, hsc⟩ := exists_scale hasher dist sm hnn
  have hinit := initialSearchState_inv hasher sm start end_ N hstart
  obtain ⟨f1, res, hres⟩ := searchLoop_terminates hasher dist sm start end_ N hG hN hnn hsc
    _ _ _ _ hinit rfl rfl rfl
  obtain ⟨found, st⟩ := res
  obtain ⟨hinv, hfound, _⟩ :=
    searchLoop_sound hasher dist sm start end_ N hG hN hnn hsc f1 _ found st hinit
      (hres f1 (Nat.le_refl _))
  refine ⟨f1, found, st, hres, ?_⟩
  intro hf
  obtain ⟨x, hx⟩ := hfound hf
  obtain ⟨p, hp⟩ := Option.isSome_iff_exists.1 (hinv.prev_some end_ (hinv.queue_cost _ hx))
  exact ⟨p, hp, buildRoute_terminates hasher dist sm start end_ N hN st hinv end_ p [] 0 hp⟩

end RouterTermination

/-- Claim C27: on every graph built by `Load` with non-negative segment lengths, for every
`start` and `end` that have graph entries, the search loop of `GeneratePointToPointRoute`
terminates: from some fuel on it returns one and the same final state; when it has found
`end`, the reconstruction loop that walks the predecessors back from `end` terminates as
well; and the whole call returns. In every relaxation the end of the segment is enqueued only
when its recorded cost is new or strictly decreases. -/
theorem router_terminates {Coord : Type} [LinearOrder Coord]
    (hasher : Coord → Nat) (dist : Coord → Coord → ℚ) (records : List (StreetRecord Coord))
    (start end_ : Coord)
    (hnn : ∀ s, InGraph hasher (LoadRecords hasher records) s → 0 ≤ dist s.start s.end_)
    (hstart : (GetSegmentsThatStartWith hasher (LoadRecords hasher records) start).isSome = true)
    (hend : (GetSegmentsThatStartWith hasher (LoadRecords hasher records) end_).isSome = true) :
    (∃ fuel0 found st,
      (∀ fuel, fuel0 ≤ fuel →
        searchLoop hasher dist (LoadRecords hasher records) end_ fuel
          (initialSearchState hasher start) = some (found, st))
      ∧ (found = true →
          ∃ pair, ExpandableHashMap.Find hasher st.prev_location end_ = some pair
            ∧ ∃ fuel1 res, ∀ fuel, fuel1 ≤ fuel →
                buildRoute hasher dist st.prev_location fuel end_ pair [] 0 = some res))
    ∧ (∃ fuel2 r, ∀ fuel, fuel2 ≤ fuel →
        GeneratePointToPointRoute hasher dist (LoadRecords hasher records) fuel start end_
          = some r)
    ∧ (∀ (currPos : Coord) (st st1 : SearchState Coord) (nextSeg : StreetSegment Coord),
        relaxSegment hasher dist currPos end_ st nextSeg = some st1 →
        st1.search_space = st.search_space
          ∨ ∃ c, ExpandableHashMap.Find hasher st.move_cost currPos = some c
              ∧ st1.search_space
                  = (c + dist currPos nextSeg.end_ + dist currPos end_, nextSeg.end_)
                      :: st.search_space
              ∧ ∀ old, ExpandableHashMap.Find hasher st.move_cost nextSeg.end_ = some old →
                  c + dist currPos nextSeg.end_ < old) :=
  ⟨router_loops_total hasher dist _ (GraphOK_LoadRecords hasher records) hnn start end_ hstart,
    GeneratePointToPointRoute_total hasher dist _ (GraphOK_LoadRecords hasher records) hnn
      start end_ hstart hend,
    fun currPos st st1 nextSeg h =>
      relaxSegment_enqueues_on_improvement hasher dist currPos end_ st st1 nextSeg h⟩

/-- Claim C27, witness: the query from 0 to 3 on the detour map. -/
theorem router_terminates_witness :
    (∃ fuel0 found st,
      (∀ fuel, fuel0 ≤ fuel →
        searchLoop exampleHasher detourDist (LoadRecords exampleHasher detourRecords) 3 fuel
          (initialSearchState exampleHasher 0) = some (found, st))
      ∧ (found = true →
          ∃ pair, ExpandableHashMap.Find exampleHasher st.prev_location 3 = some pair
            ∧ ∃ fuel1 res, ∀ fuel, fuel1 ≤ fuel →
                buildRoute exampleHasher detourDist st.prev_location fuel 3 pair [] 0 = some res))
    ∧ (∃ fuel2 r, ∀ fuel, fuel2 ≤ fuel →
        GeneratePointToPointRoute exampleHasher detourDist
          (LoadRecords exampleHasher detourRecords) fuel 0 3 = some r) :=
  ⟨(router_terminates exampleHasher detourDist detourRecords 0 3
      (fun s _ => detourDist_nonneg _ _) (by decide!) (by decide!)).1,
    (router_terminates exampleHasher detourDist detourRecords 0 3
      (fun s _ => detourDist_nonneg _ _) (by decide!) (by decide!)).2.1⟩
end DeliveryNavigator
